import Mathlib

/-!
# yash: a content-addressed, versioned scene graph

Shallow embedding of `apps/render/hash.h`, `scene/hash_tree/data_table.h`,
`hash_tree.h` and `scene_hash.h`.

* A pointer `Hash_Node*` is an address, an index into the heap `List Hash_Node`;
  `new Hash_Node{}` appends to the heap; `nullptr` is `none`.  Dereferencing an
  address that was never allocated, or indexing a vector out of bounds, makes
  the embedded function return `none`.
* A value of a C++ type `T` is its object representation, a list of `sizeof(T)`
  bytes; a `vector<T>` or `view<T>` is the list of its elements.
* `picosha2::hash256` (`ext/pico_sha.h`) is not part of the sources; every
  function that hashes takes it as the parameter `hash256`.
* `while` loops and the recursion of `update_node_hash` take a fuel argument.
-/

namespace yash

/-! ## hash.h -/

abbrev Bytes := List Nat

/-- `using Hash = array<byte, 32>` (hash.h:13). -/
abbrev Hash := List Nat

/-- `invalid_hash` (hash.h:31): thirty-two zero bytes; also the value of `Hash{}`. -/
def invalid_hash : Hash := List.replicate 32 0

/-- `make_hash(const T* data, size_t count)` (hash.h:15-20): the digest of the
bytes of the buffer. -/
def make_hash (hash256 : Bytes → Hash) (bytes : Bytes) : Hash := hash256 bytes

/-! ## data_table.h -/

/-- What the embedding needs to know of a C++ type `T`: `sizeof(T)` and the object
representation of `T{}`. -/
structure TypeInfo where
  sizeof : Nat
  default_value : Bytes
deriving DecidableEq

/-- `hash_map<Key, Value>` / `unordered_map` (data_table.h:11-22): an association list
with one entry per key. -/
abbrev hash_map (Key Value : Type) := List (Key × Value)

/-- `map.find(key)`. -/
def hash_map.find {Key Value : Type} [DecidableEq Key] :
    hash_map Key Value → Key → Option Value
  | [], _ => none
  | (k, v) :: rest, key => if k = key then some v else hash_map.find rest key

/-- `map[key] = value`: overwrites the value of an existing key, adds the key otherwise. -/
def hash_map.assign {Key Value : Type} [DecidableEq Key] :
    hash_map Key Value → Key → Value → hash_map Key Value
  | [], key, value => [(key, value)]
  | (k, v) :: rest, key, value =>
    if k = key then (k, value) :: rest else (k, v) :: hash_map.assign rest key value

/-- `map.erase(key)`. -/
def hash_map.erase {Key Value : Type} [DecidableEq Key] :
    hash_map Key Value → Key → hash_map Key Value
  | [], _ => []
  | (k, v) :: rest, key => if k = key then rest else (k, v) :: hash_map.erase rest key

/-- `struct Data_Table` (data_table.h:24-25). -/
structure Data_Table where
  map : hash_map Hash Bytes
deriving DecidableEq

/-- `Data_Table::get<T>` (data_table.h:27-33): the default value when the hash is
absent, the first `sizeof(T)` bytes of the blob otherwise (`none` when the blob is
shorter than a `T`, which the C++ would read out of bounds). -/
def Data_Table.get (data : Data_Table) (T : TypeInfo) (hash : Hash) : Option Bytes :=
  match hash_map.find data.map hash with
  | none => some T.default_value
  | some bytes => if T.sizeof ≤ bytes.length then some (bytes.take T.sizeof) else none

/-- The elements of `view<T>((T*)&bytes[0], count)`. -/
def view_of (sizeof : Nat) (bytes : Bytes) : Nat → List Bytes
  | 0 => []
  | count + 1 => bytes.take sizeof :: view_of sizeof (bytes.drop sizeof) count

/-- `Data_Table::get_view<T>` (data_table.h:35-41): the empty view when the hash is
absent, `bytes.size() / sizeof(T)` elements otherwise. -/
def Data_Table.get_view (data : Data_Table) (sizeof : Nat) (hash : Hash) : List Bytes :=
  match hash_map.find data.map hash with
  | none => []
  | some bytes => view_of sizeof bytes (bytes.length / sizeof)

/-- `Data_Table::set<T>` (data_table.h:43-49). -/
def Data_Table.set (data : Data_Table) (T : TypeInfo) (hash : Hash) (value : Bytes) :
    Data_Table × Bool :=
  if value = T.default_value then (data, false)
  else (⟨hash_map.assign data.map hash value⟩, true)

/-- `Data_Table::maybe_add(const view<T>&)` (data_table.h:51-64); `value` is the list
of the elements of the view. -/
def Data_Table.maybe_add (hash256 : Bytes → Hash) (data : Data_Table) (value : List Bytes) :
    Data_Table × Hash :=
  if value = [] then (data, invalid_hash)
  else
    let hash := make_hash hash256 value.flatten
    match hash_map.find data.map hash with
    | some _ => (data, hash)
    | none => (⟨data.map ++ [(hash, value.flatten)]⟩, hash)

/-- `Data_Table::maybe_add(const T&)` (data_table.h:71-74): a view of one element. -/
def Data_Table.maybe_add_value (hash256 : Bytes → Hash) (data : Data_Table) (value : Bytes) :
    Data_Table × Hash :=
  Data_Table.maybe_add hash256 data [value]

/-! ## hash_tree.h -/

/-- `struct Hash_Node` (hash_tree.h:8-12). -/
structure Hash_Node where
  parent : Option Nat
  children : List Nat
  hash : Hash
  id : Nat
deriving DecidableEq

/-- The default argument `size_t id = -1`. -/
def no_id : Nat := 2 ^ 64 - 1

/-- `Hash_Node{}`. -/
def Hash_Node.init : Hash_Node := ⟨none, [], invalid_hash, no_id⟩

abbrev Heap := List Hash_Node

/-- The loop of `Hash_Node::at` (hash_tree.h:15-17) over the children vector:
`some (some c)` for the first child `c` with the id, `some none` when there is none. -/
def Hash_Node.at_loop (heap : Heap) : List Nat → Nat → Option (Option Nat)
  | [], _ => some none
  | child :: rest, id =>
    match heap[child]? with
    | none => none
    | some c => if c.id = id then some (some child) else Hash_Node.at_loop heap rest id

/-- `node->at(id)` (hash_tree.h:14-19); `some none` is `nullptr`. -/
def Hash_Node.at_id (heap : Heap) (node : Nat) (id : Nat) : Option (Option Nat) :=
  match heap[node]? with
  | none => none
  | some n => Hash_Node.at_loop heap n.children id

/-- `add_node` (hash_tree.h:22-28). -/
def add_node (heap : Heap) (parent : Nat) (id : Nat) : Option (Heap × Nat) :=
  match heap[parent]? with
  | none => none
  | some p =>
    let node := heap.length
    let heap1 := heap ++ [{ Hash_Node.init with parent := some parent, id := id }]
    some (heap1.set parent { p with children := p.children ++ [node] }, node)

/-- `node->hash = hash`. -/
def set_hash (heap : Heap) (node : Nat) (hash : Hash) : Option Heap :=
  match heap[node]? with
  | none => none
  | some n => some (heap.set node { n with hash := hash })

/-- `add_leaf_node<S, T>(parent, value, data, id)` (hash_tree.h:30-36). -/
def add_leaf_node_value (hash256 : Bytes → Hash) (heap : Heap) (data : Data_Table)
    (parent : Nat) (value : Bytes) (id : Nat) : Option (Heap × Data_Table × Nat) :=
  match add_node heap parent id with
  | none => none
  | some (heap1, node) =>
    let r := Data_Table.maybe_add_value hash256 data value
    match set_hash heap1 node r.2 with
    | none => none
    | some heap2 => some (heap2, r.1, node)

/-- `add_leaf_node<T>(parent, vec, data, id)` (hash_tree.h:38-44). -/
def add_leaf_node (hash256 : Bytes → Hash) (heap : Heap) (data : Data_Table)
    (parent : Nat) (vec : List Bytes) (id : Nat) : Option (Heap × Data_Table × Nat) :=
  match add_node heap parent id with
  | none => none
  | some (heap1, node) =>
    let r := Data_Table.maybe_add hash256 data vec
    match set_hash heap1 node r.2 with
    | none => none
    | some heap2 => some (heap2, r.1, node)

/-- The loop of `make_hash(const Hash_Node*, ...)`: the hashes of the children,
concatenated. -/
def children_hashes (heap : Heap) : List Nat → Option Bytes
  | [] => some []
  | c :: rest =>
    match heap[c]?, children_hashes heap rest with
    | some n, some bytes => some (n.hash ++ bytes)
    | _, _ => none

/-- `make_hash(const Hash_Node* node, const Data_Table&)` (hash_tree.h:46-52). -/
def make_hash_node (hash256 : Bytes → Hash) (heap : Heap) (node : Nat) : Option Hash :=
  match heap[node]? with
  | none => none
  | some n =>
    match children_hashes heap n.children with
    | none => none
    | some hashes => some (make_hash hash256 hashes)

/-- The search of `edit_node` for the position of `node` among the children of its
parent (hash_tree.h:67-73): the first `i` with `children[i] == node`, and `0` when no
child is `node`. -/
def child_index (children : List Nat) (node : Nat) : Nat :=
  if node ∈ children then children.indexOf node else 0

/-- The `while (node->parent)` loop of `edit_node` (hash_tree.h:66-81); returns the heap
and the new root. -/
def edit_node_loop (hash256 : Bytes → Hash) : Nat → Heap → Nat → Option (Heap × Nat)
  | 0, _, _ => none
  | fuel + 1, heap, node =>
    match heap[node]? with
    | none => none
    | some n =>
      match n.parent with
      | none => some (heap, node)
      | some p =>
        match heap[p]? with
        | none => none
        | some pn =>
          let index := child_index pn.children node
          if index < pn.children.length then
            let parent := heap.length
            let heap1 := heap ++ [{ pn with children := pn.children.set index node }]
            match make_hash_node hash256 heap1 parent with
            | none => none
            | some hash =>
              match set_hash heap1 parent hash with
              | none => none
              | some heap2 => edit_node_loop hash256 fuel heap2 parent
          else none

/-- `edit_node<T>(edit_node, value, data)` (hash_tree.h:54-85): returns the new root,
the heap and the store. -/
def edit_node (hash256 : Bytes → Hash) (fuel : Nat) (heap : Heap) (data : Data_Table)
    (T : TypeInfo) (edit_node : Nat) (value : Bytes) : Option (Nat × Heap × Data_Table) :=
  let hash := make_hash hash256 value
  match heap[edit_node]? with
  | none => none
  | some en =>
    let node := heap.length
    let heap1 := heap ++ [{ en with hash := hash }]
    let data1 := (data.set T hash value).1
    match edit_node_loop hash256 fuel heap1 node with
    | none => none
    | some (heap2, root) => some (root, heap2, data1)

/-- The first loop of `update_node_hash` (hash_tree.h:92-95), with the recursive call
passed as `rec`. -/
def update_children (rec : Heap → Nat → Option Heap) (heap : Heap) : List Nat → Option Heap
  | [] => some heap
  | child :: rest =>
    match heap[child]? with
    | none => none
    | some c =>
      if c.children = [] then update_children rec heap rest
      else
        match rec heap child with
        | none => none
        | some heap1 => update_children rec heap1 rest

/-- `update_node_hash` (hash_tree.h:87-105); `none` when the assertion fails. -/
def update_node_hash (hash256 : Bytes → Hash) : Nat → Heap → Nat → Option Heap
  | 0, _, _ => none
  | fuel + 1, heap, node =>
    match heap[node]? with
    | none => none
    | some n =>
      if n.children = [] then none
      else
        match update_children (update_node_hash hash256 fuel) heap n.children with
        | none => none
        | some heap1 =>
          match make_hash_node hash256 heap1 node with
          | none => none
          | some hash => set_hash heap1 node hash

/-- The `for` loop of `make_diff` (hash_tree.h:116-133) over the children of `node0`
still to visit: returns the heap and the stack entry pushed before `break`, if any. -/
def make_diff_children (heap : Heap) (node1 diff_node : Nat) :
    List Nat → Option (Heap × Option (Nat × Nat × Nat))
  | [] => some (heap, none)
  | child0 :: rest =>
    match heap[child0]? with
    | none => none
    | some c0 =>
      match Hash_Node.at_id heap node1 c0.id with
      | none => none
      | some (some child1) =>
        match heap[child1]? with
        | none => none
        | some c1 =>
          if c0.hash = c1.hash then make_diff_children heap node1 diff_node rest
          else
            match add_node heap diff_node c0.id with
            | none => none
            | some (heap1, node) =>
              match set_hash heap1 node c1.hash with
              | none => none
              | some heap2 => some (heap2, some (child0, child1, node))
      | some none =>
        match add_node heap diff_node c0.id with
        | none => none
        | some (heap1, node) =>
          match set_hash heap1 node invalid_hash with
          | none => none
          | some heap2 => make_diff_children heap2 node1 diff_node rest

/-- The `while (stack.size())` loop of `make_diff` (hash_tree.h:112-134); the head of
the list is the back of the stack. -/
def make_diff_loop : Nat → Heap → List (Nat × Nat × Nat) → Option Heap
  | _, heap, [] => some heap
  | 0, _, _ :: _ => none
  | fuel + 1, heap, (node0, node1, diff_node) :: stack =>
    match heap[node0]? with
    | none => none
    | some n0 =>
      match make_diff_children heap node1 diff_node n0.children with
      | none => none
      | some (heap1, none) => make_diff_loop fuel heap1 stack
      | some (heap1, some entry) => make_diff_loop fuel heap1 (entry :: stack)

/-- `make_diff(r0, r1)` (hash_tree.h:107-136): returns the heap and the diff root. -/
def make_diff (fuel : Nat) (heap : Heap) (r0 r1 : Nat) : Option (Heap × Nat) :=
  let diff_root := heap.length
  match make_diff_loop fuel (heap ++ [Hash_Node.init]) [(r0, r1, diff_root)] with
  | none => none
  | some heap1 => some (heap1, diff_root)

/-! ## The scene types of yocto (`yocto/yocto_scene.h`, not part of the sources) -/

/-- The scalar entity types of `yocto_scene.h` and the fields the views copy out of
a `texture_data` and a `subdiv_data`. -/
structure Yocto where
  camera_data : TypeInfo
  instance_data : TypeInfo
  environment_data : TypeInfo
  material_data : TypeInfo
  texture_data : TypeInfo
  subdiv_data : TypeInfo
  /-- `width`, `height`, `linear` of a `texture_data`. -/
  texture_info : Bytes → Bytes
  /-- `subdivisions`, `catmullclark`, `smooth`, `displacement`, `displacement_tex`
  of a `subdiv_data`. -/
  subdiv_info : Bytes → Bytes
  /-- `shape` of a `subdiv_data`. -/
  subdiv_shape : Bytes → Bytes
  /-- The object representation of `invalidid`. -/
  invalidid : Bytes

def sizeof_int : Nat := 4
def sizeof_float : Nat := 4
def sizeof_vec2i : Nat := 8
def sizeof_vec3i : Nat := 12
def sizeof_vec4i : Nat := 16
def sizeof_vec2f : Nat := 8
def sizeof_vec3f : Nat := 12
def sizeof_vec4f : Nat := 16
def sizeof_vec4b : Nat := 4

/-- The vectors of a `shape_data`. -/
structure shape_data where
  points : List Bytes
  lines : List Bytes
  triangles : List Bytes
  quads : List Bytes
  positions : List Bytes
  normals : List Bytes
  texcoords : List Bytes
  colors : List Bytes
  radius : List Bytes
  tangents : List Bytes
deriving DecidableEq

/-- A `texture_data`: its object representation `raw` and the elements of its two
pixel vectors. -/
structure texture_data where
  raw : Bytes
  pixelsf : List Bytes
  pixelsb : List Bytes
deriving DecidableEq

/-- A `subdiv_data`: its object representation `raw` and the elements of its vectors. -/
structure subdiv_data where
  raw : Bytes
  quadspos : List Bytes
  quadsnorm : List Bytes
  quadstexcoord : List Bytes
  positions : List Bytes
  normals : List Bytes
  texcoords : List Bytes
deriving DecidableEq

/-- The element vectors of a `scene_data`. -/
structure scene_data where
  cameras : List Bytes
  instances : List Bytes
  environments : List Bytes
  shapes : List shape_data
  textures : List texture_data
  materials : List Bytes
  subdivs : List subdiv_data
deriving DecidableEq

/-! ## scene_view.h -/

/-- `struct Shape_View` (scene_view.h:10-26). -/
structure Shape_View where
  _points : List Bytes := []
  _lines : List Bytes := []
  _triangles : List Bytes := []
  _quads : List Bytes := []
  _positions : List Bytes := []
  _normals : List Bytes := []
  _texcoords : List Bytes := []
  _colors : List Bytes := []
  _radius : List Bytes := []
  _tangents : List Bytes := []
deriving DecidableEq

/-- `make_shape_view(const shape_data&)` (scene_view.h:60-73). -/
def make_shape_view_data (shape : shape_data) : Shape_View :=
  { _points := shape.points, _lines := shape.lines, _triangles := shape.triangles,
    _quads := shape.quads, _positions := shape.positions, _normals := shape.normals,
    _texcoords := shape.texcoords, _colors := shape.colors, _radius := shape.radius,
    _tangents := shape.tangents }

/-- `struct Texture_View` (scene_view.h:75-86); `info` holds `width`, `height`, `linear`. -/
structure Texture_View where
  info : Bytes
  pixelsf : List Bytes := []
  pixelsb : List Bytes := []
deriving DecidableEq

/-- `make_texture_view(const texture_data&)` (scene_view.h:88-96). -/
def make_texture_view_data (Y : Yocto) (texture : texture_data) : Texture_View :=
  { info := Y.texture_info texture.raw, pixelsf := texture.pixelsf, pixelsb := texture.pixelsb }

/-- `struct Subdiv_View` (scene_view.h:98-120); `info` holds `subdivisions`,
`catmullclark`, `smooth`, `displacement`, `displacement_tex`. -/
structure Subdiv_View where
  info : Bytes
  shape : Bytes
  quadspos : List Bytes := []
  quadsnorm : List Bytes := []
  quadstexcoord : List Bytes := []
  positions : List Bytes := []
  normals : List Bytes := []
  texcoords : List Bytes := []
deriving DecidableEq

/-- `make_subdiv_view(const subdiv_data&)` (scene_view.h:122-137). -/
def make_subdiv_view_data (Y : Yocto) (subdiv : subdiv_data) : Subdiv_View :=
  { info := Y.subdiv_info subdiv.raw, shape := Y.subdiv_shape subdiv.raw,
    quadspos := subdiv.quadspos, quadsnorm := subdiv.quadsnorm,
    quadstexcoord := subdiv.quadstexcoord, positions := subdiv.positions,
    normals := subdiv.normals, texcoords := subdiv.texcoords }

/-- `struct Scene_View` (scene_view.h:139-147): the seven maps from id to entity; an
entry of a pointer type holds the value pointed to. -/
structure Scene_View where
  _cameras : hash_map Nat Bytes := []
  _instances : hash_map Nat Bytes := []
  _environments : hash_map Nat Bytes := []
  _shapes : hash_map Nat Shape_View := []
  _textures : hash_map Nat Texture_View := []
  _materials : hash_map Nat Bytes := []
  _subdivs : hash_map Nat Subdiv_View := []
deriving DecidableEq

/-! ## scene_hash.h -/

/-- A run of calls `add_leaf_node(node, vec, data)`, one per vector of the list, in order;
each leaf gets the default id. -/
def add_leaf_nodes (hash256 : Bytes → Hash) (parent : Nat) :
    List (List Bytes) → Heap → Data_Table → Option (Heap × Data_Table)
  | [], heap, data => some (heap, data)
  | vec :: rest, heap, data =>
    match add_leaf_node hash256 heap data parent vec no_id with
    | none => none
    | some (heap1, data1, _) => add_leaf_nodes hash256 parent rest heap1 data1

/-- `add_shape_node` (scene_hash.h:12-26). -/
def add_shape_node (hash256 : Bytes → Hash) (heap : Heap) (data : Data_Table) (parent : Nat)
    (shape : shape_data) (id : Nat) : Option (Heap × Data_Table × Nat) :=
  match add_node heap parent id with
  | none => none
  | some (heap1, node) =>
    match add_leaf_nodes hash256 node
        [shape.points, shape.lines, shape.triangles, shape.quads, shape.positions,
         shape.normals, shape.texcoords, shape.colors, shape.radius, shape.tangents]
        heap1 data with
    | none => none
    | some (heap2, data2) => some (heap2, data2, node)

/-- `node->children[i]->hash`. -/
def child_hash (heap : Heap) (node : Nat) (i : Nat) : Option Hash := do
  let n ← heap[node]?
  let c ← n.children[i]?
  let cn ← heap[c]?
  some cn.hash

/-- `make_shape_view(const Hash_Node*, const Data_Table&)` (scene_hash.h:28-42). -/
def make_shape_view (heap : Heap) (data : Data_Table) (node : Nat) : Option Shape_View := do
  let h0 ← child_hash heap node 0
  let h1 ← child_hash heap node 1
  let h2 ← child_hash heap node 2
  let h3 ← child_hash heap node 3
  let h4 ← child_hash heap node 4
  let h5 ← child_hash heap node 5
  let h6 ← child_hash heap node 6
  let h7 ← child_hash heap node 7
  let h8 ← child_hash heap node 8
  let h9 ← child_hash heap node 9
  some { _points := data.get_view sizeof_int h0, _lines := data.get_view sizeof_vec2i h1,
         _triangles := data.get_view sizeof_vec3i h2, _quads := data.get_view sizeof_vec4i h3,
         _positions := data.get_view sizeof_vec3f h4, _normals := data.get_view sizeof_vec3f h5,
         _texcoords := data.get_view sizeof_vec2f h6, _colors := data.get_view sizeof_vec4f h7,
         _radius := data.get_view sizeof_float h8, _tangents := data.get_view sizeof_vec4f h9 }

/-- `add_texture_node` (scene_hash.h:44-51). -/
def add_texture_node (hash256 : Bytes → Hash) (heap : Heap) (data : Data_Table) (parent : Nat)
    (texture : texture_data) (id : Nat) : Option (Heap × Data_Table × Nat) :=
  match add_node heap parent id with
  | none => none
  | some (heap1, node) =>
    match add_leaf_nodes hash256 node [texture.pixelsf, texture.pixelsb] heap1 data with
    | none => none
    | some (heap2, data2) =>
      match add_leaf_node_value hash256 heap2 data2 node texture.raw no_id with
      | none => none
      | some (heap3, data3, _) => some (heap3, data3, node)

/-- `make_texture_view(const Hash_Node*, const Data_Table&)` (scene_hash.h:52-69). -/
def make_texture_view (Y : Yocto) (heap : Heap) (data : Data_Table) (node : Nat) :
    Option Texture_View := do
  let h0 ← child_hash heap node 0
  let h1 ← child_hash heap node 1
  let pixelsb :=
    if (data.get_view sizeof_vec4b h1).length ≠ 0 then data.get_view sizeof_vec4b h1
    else data.get_view sizeof_vec4b h0
  let h2 ← child_hash heap node 2
  let info ← data.get Y.texture_data h2
  some { info := Y.texture_info info, pixelsf := data.get_view sizeof_vec4f h0,
         pixelsb := pixelsb }

/-- `make_subdiv_view(const Hash_Node*, const Data_Table&)` (scene_hash.h:71-87); the
field `shape` keeps its default `invalidid`. -/
def make_subdiv_view (Y : Yocto) (heap : Heap) (data : Data_Table) (node : Nat) :
    Option Subdiv_View := do
  let h0 ← child_hash heap node 0
  let h1 ← child_hash heap node 1
  let h2 ← child_hash heap node 2
  let h3 ← child_hash heap node 3
  let h4 ← child_hash heap node 4
  let h5 ← child_hash heap node 5
  let h6 ← child_hash heap node 6
  let info ← data.get Y.subdiv_data h6
  some { info := Y.subdiv_info info, shape := Y.invalidid,
         quadspos := data.get_view sizeof_vec4i h0, quadsnorm := data.get_view sizeof_vec4i h1,
         quadstexcoord := data.get_view sizeof_vec4i h2,
         positions := data.get_view sizeof_vec3f h3, normals := data.get_view sizeof_vec3f h4,
         texcoords := data.get_view sizeof_vec2f h5 }

/-- `add_subdiv_node` (scene_hash.h:88-99). -/
def add_subdiv_node (hash256 : Bytes → Hash) (heap : Heap) (data : Data_Table) (parent : Nat)
    (subdiv : subdiv_data) (id : Nat) : Option (Heap × Data_Table × Nat) :=
  match add_node heap parent id with
  | none => none
  | some (heap1, node) =>
    match add_leaf_nodes hash256 node
        [subdiv.quadspos, subdiv.quadsnorm, subdiv.quadstexcoord, subdiv.positions,
         subdiv.normals, subdiv.texcoords] heap1 data with
    | none => none
    | some (heap2, data2) =>
      match add_leaf_node_value hash256 heap2 data2 node subdiv.raw no_id with
      | none => none
      | some (heap3, data3, _) => some (heap3, data3, node)

/-- `root->children[k]->children`: the body shared by `Scene_Hash::cameras()`, ...,
`Scene_Hash::subdivs()` (scene_hash.h:110-130). -/
def Scene_Hash.category (heap : Heap) (root : Nat) (k : Nat) : Option (List Nat) := do
  let r ← heap[root]?
  let c ← r.children[k]?
  let cn ← heap[c]?
  some cn.children

def Scene_Hash.cameras (heap : Heap) (root : Nat) := Scene_Hash.category heap root 0
def Scene_Hash.instances (heap : Heap) (root : Nat) := Scene_Hash.category heap root 1
def Scene_Hash.environments (heap : Heap) (root : Nat) := Scene_Hash.category heap root 2
def Scene_Hash.shapes (heap : Heap) (root : Nat) := Scene_Hash.category heap root 3
def Scene_Hash.textures (heap : Heap) (root : Nat) := Scene_Hash.category heap root 4
def Scene_Hash.materials (heap : Heap) (root : Nat) := Scene_Hash.category heap root 5
def Scene_Hash.subdivs (heap : Heap) (root : Nat) := Scene_Hash.category heap root 6

/-- The body shared by `Scene_Hash::num_cameras()`, ..., `Scene_Hash::num_subdivs()`
(scene_hash.h:132-159). -/
def Scene_Hash.num (heap : Heap) (root : Nat) (k : Nat) : Option Nat := do
  let r ← heap[root]?
  if r.children.length ≤ k then some 0
  else
    let c ← r.children[k]?
    let cn ← heap[c]?
    some cn.children.length

def Scene_Hash.num_cameras (heap : Heap) (root : Nat) := Scene_Hash.num heap root 0
def Scene_Hash.num_instances (heap : Heap) (root : Nat) := Scene_Hash.num heap root 1
def Scene_Hash.num_environments (heap : Heap) (root : Nat) := Scene_Hash.num heap root 2
def Scene_Hash.num_shapes (heap : Heap) (root : Nat) := Scene_Hash.num heap root 3
def Scene_Hash.num_textures (heap : Heap) (root : Nat) := Scene_Hash.num heap root 4
def Scene_Hash.num_materials (heap : Heap) (root : Nat) := Scene_Hash.num heap root 5
def Scene_Hash.num_subdivs (heap : Heap) (root : Nat) := Scene_Hash.num heap root 6

/-- `root->children[k]->children[i]`. -/
def Scene_Hash.node (heap : Heap) (root : Nat) (k i : Nat) : Option Nat := do
  let nodes ← Scene_Hash.category heap root k
  nodes[i]?

/-- The body shared by `cameras(i)`, `instances(i)`, `environments(i)` and
`materials(i)` (scene_hash.h:161-184): `data.get<T>(root->children[k]->children[i]->hash)`. -/
def Scene_Hash.get (heap : Heap) (data : Data_Table) (root : Nat) (T : TypeInfo) (k i : Nat) :
    Option Bytes := do
  let node ← Scene_Hash.node heap root k i
  let n ← heap[node]?
  data.get T n.hash

def Scene_Hash.cameras_at (Y : Yocto) (heap : Heap) (data : Data_Table) (root i : Nat) :=
  Scene_Hash.get heap data root Y.camera_data 0 i
def Scene_Hash.instances_at (Y : Yocto) (heap : Heap) (data : Data_Table) (root i : Nat) :=
  Scene_Hash.get heap data root Y.instance_data 1 i
def Scene_Hash.environments_at (Y : Yocto) (heap : Heap) (data : Data_Table) (root i : Nat) :=
  Scene_Hash.get heap data root Y.environment_data 2 i
def Scene_Hash.materials_at (Y : Yocto) (heap : Heap) (data : Data_Table) (root i : Nat) :=
  Scene_Hash.get heap data root Y.material_data 5 i

/-- `Scene_Hash::shapes(i)` (scene_hash.h:173-176). -/
def Scene_Hash.shapes_at (heap : Heap) (data : Data_Table) (root i : Nat) :
    Option Shape_View := do
  let node ← Scene_Hash.node heap root 3 i
  make_shape_view heap data node

/-- `Scene_Hash::textures(i)` (scene_hash.h:177-180). -/
def Scene_Hash.textures_at (Y : Yocto) (heap : Heap) (data : Data_Table) (root i : Nat) :
    Option Texture_View := do
  let node ← Scene_Hash.node heap root 4 i
  make_texture_view Y heap data node

/-- `Scene_Hash::subdivs(i)` (scene_hash.h:185-188). -/
def Scene_Hash.subdivs_at (Y : Yocto) (heap : Heap) (data : Data_Table) (root i : Nat) :
    Option Subdiv_View := do
  let node ← Scene_Hash.node heap root 6 i
  make_subdiv_view Y heap data node

/-- The loops `for (int i = 0; i < v.size(); i++) add(parent, v[i], data, i)` of
`create_scene_hash` (scene_hash.h:207-234), from index `i` on. -/
def add_entities {α : Type}
    (add : Heap → Data_Table → Nat → α → Nat → Option (Heap × Data_Table × Nat))
    (parent : Nat) : List α → Nat → Heap → Data_Table → Option (Heap × Data_Table)
  | [], _, heap, data => some (heap, data)
  | x :: rest, i, heap, data =>
    match add heap data parent x i with
    | none => none
    | some (heap1, data1, _) => add_entities add parent rest (i + 1) heap1 data1

/-- A run of calls `add_node(parent, id)`, one per id of the list, in order; returns
the new nodes. -/
def add_nodes (parent : Nat) : List Nat → Heap → Option (Heap × List Nat)
  | [], heap => some (heap, [])
  | id :: rest, heap =>
    match add_node heap parent id with
    | none => none
    | some (heap1, node) =>
      match add_nodes parent rest heap1 with
      | none => none
      | some (heap2, nodes) => some (heap2, node :: nodes)

/-- The seven loops of `create_scene_hash` (scene_hash.h:207-234); the list holds the
seven category nodes. -/
def add_scene (hash256 : Bytes → Hash) (heap : Heap) (data : Data_Table) (scene : scene_data) :
    List Nat → Option (Heap × Data_Table)
  | [cameras, instances, environments, shapes, textures, materials, subdivs] =>
    match add_entities (add_leaf_node_value hash256) cameras scene.cameras 0 heap data with
    | none => none
    | some (heap, data) =>
    match add_entities (add_leaf_node_value hash256) instances scene.instances 0 heap data with
    | none => none
    | some (heap, data) =>
    match add_entities (add_leaf_node_value hash256) environments scene.environments 0
        heap data with
    | none => none
    | some (heap, data) =>
    match add_entities (add_shape_node hash256) shapes scene.shapes 0 heap data with
    | none => none
    | some (heap, data) =>
    match add_entities (add_texture_node hash256) textures scene.textures 0 heap data with
    | none => none
    | some (heap, data) =>
    match add_entities (add_leaf_node_value hash256) materials scene.materials 0 heap data with
    | none => none
    | some (heap, data) =>
    add_entities (add_subdiv_node hash256) subdivs scene.subdivs 0 heap data
  | _ => none

/-- `create_scene_hash` (scene_hash.h:197-237): returns the heap, the store and the
root of the snapshot. -/
def create_scene_hash (hash256 : Bytes → Hash) (fuel : Nat) (heap : Heap) (data : Data_Table)
    (scene : scene_data) : Option (Heap × Data_Table × Nat) :=
  let root := heap.length
  match add_nodes root [0, 1, 2, 3, 4, 5, 6] (heap ++ [Hash_Node.init]) with
  | none => none
  | some (heap1, categories) =>
    match add_scene hash256 heap1 data scene categories with
    | none => none
    | some (heap2, data2) =>
      match update_node_hash hash256 fuel heap2 root with
      | none => none
      | some heap3 => some (heap3, data2, root)

/-- `make_diff(const Scene_Hash&, const Scene_Hash&)` (scene_hash.h:239-242). -/
def Scene_Hash.make_diff (fuel : Nat) (heap : Heap) (root0 root1 : Nat) : Option (Heap × Nat) :=
  yash.make_diff fuel heap root0 root1

/-- One of the seven loops of `apply_diff` (scene_hash.h:245-307), from index `i` on with
`n` iterations left; `resolve node` is the entity `diff.X(i)` resolved from the node
`diff.X()[i]`. -/
def apply_diff_loop {α : Type} (heap : Heap) (root k : Nat) (resolve : Nat → Option α) :
    Nat → Nat → hash_map Nat α → Option (hash_map Nat α)
  | 0, _, m => some m
  | n + 1, i, m =>
    match Scene_Hash.node heap root k i with
    | none => none
    | some node =>
      match heap[node]? with
      | none => none
      | some nd =>
        if nd.hash = invalid_hash then
          apply_diff_loop heap root k resolve n (i + 1) (hash_map.erase m nd.id)
        else
          match resolve node with
          | none => none
          | some value =>
            apply_diff_loop heap root k resolve n (i + 1) (hash_map.assign m nd.id value)

/-- One loop of `apply_diff` with its bound `diff.num_X()`. -/
def apply_diff_category {α : Type} (heap : Heap) (root k : Nat) (resolve : Nat → Option α)
    (m : hash_map Nat α) : Option (hash_map Nat α) :=
  match Scene_Hash.num heap root k with
  | none => none
  | some n => apply_diff_loop heap root k resolve n 0 m

/-- `data.get<T>(node->hash)`. -/
def get_node (heap : Heap) (data : Data_Table) (T : TypeInfo) (node : Nat) : Option Bytes :=
  match heap[node]? with
  | none => none
  | some n => data.get T n.hash

/-- `apply_diff(Scene_View& scene, const Scene_Hash& diff)` (scene_hash.h:244-308);
`root` is the root of `diff`. -/
def apply_diff (Y : Yocto) (heap : Heap) (data : Data_Table) (scene : Scene_View) (root : Nat) :
    Option Scene_View := do
  let cameras ←
    apply_diff_category heap root 0 (get_node heap data Y.camera_data) scene._cameras
  let instances ←
    apply_diff_category heap root 1 (get_node heap data Y.instance_data) scene._instances
  let environments ←
    apply_diff_category heap root 2 (get_node heap data Y.environment_data) scene._environments
  let shapes ← apply_diff_category heap root 3 (make_shape_view heap data) scene._shapes
  let textures ← apply_diff_category heap root 4 (make_texture_view Y heap data) scene._textures
  let materials ←
    apply_diff_category heap root 5 (get_node heap data Y.material_data) scene._materials
  let subdivs ← apply_diff_category heap root 6 (make_subdiv_view Y heap data) scene._subdivs
  some { _cameras := cameras, _instances := instances, _environments := environments,
         _shapes := shapes, _textures := textures, _materials := materials,
         _subdivs := subdivs }

/-- The loops `for (int i = 0; i < n; i++) map[i] = read(i)` of `create_scene_view`, from
index `i` on with `n` iterations left. -/
def view_loop {α : Type} (read : Nat → Option α) :
    Nat → Nat → hash_map Nat α → Option (hash_map Nat α)
  | 0, _, m => some m
  | n + 1, i, m =>
    match read i with
    | none => none
    | some value => view_loop read n (i + 1) (hash_map.assign m i value)

/-- `create_scene_view(const scene_data&)` (scene_hash.h:310-342). -/
def create_scene_view_data (Y : Yocto) (scene : scene_data) : Option Scene_View := do
  let cameras ← view_loop (fun i => scene.cameras[i]?) scene.cameras.length 0 []
  let instances ← view_loop (fun i => scene.instances[i]?) scene.instances.length 0 []
  let environments ←
    view_loop (fun i => scene.environments[i]?) scene.environments.length 0 []
  let shapes ←
    view_loop (fun i => scene.shapes[i]?.map make_shape_view_data) scene.shapes.length 0 []
  let textures ←
    view_loop (fun i => scene.textures[i]?.map (make_texture_view_data Y))
      scene.textures.length 0 []
  let materials ← view_loop (fun i => scene.materials[i]?) scene.materials.length 0 []
  let subdivs ←
    view_loop (fun i => scene.subdivs[i]?.map (make_subdiv_view_data Y))
      scene.subdivs.length 0 []
  some { _cameras := cameras, _instances := instances, _environments := environments,
         _shapes := shapes, _textures := textures, _materials := materials,
         _subdivs := subdivs }

/-- The seven `reserve` calls of `create_scene_view(const Scene_Hash&)`
(scene_hash.h:346-352): they dereference the seven category nodes. -/
def reserve_all (heap : Heap) (root : Nat) : Option Unit :=
  match Scene_Hash.cameras heap root, Scene_Hash.instances heap root,
    Scene_Hash.environments heap root, Scene_Hash.shapes heap root,
    Scene_Hash.textures heap root, Scene_Hash.materials heap root,
    Scene_Hash.subdivs heap root with
  | some _, some _, some _, some _, some _, some _, some _ => some ()
  | _, _, _, _, _, _, _ => none

/-- One loop of `create_scene_view(const Scene_Hash&)` with its bound `scene.num_X()`. -/
def view_category {α : Type} (heap : Heap) (root k : Nat) (read : Nat → Option α) :
    Option (hash_map Nat α) :=
  match Scene_Hash.num heap root k with
  | none => none
  | some n => view_loop read n 0 []

/-- `create_scene_view(const Scene_Hash&)` (scene_hash.h:344-376). -/
def create_scene_view (Y : Yocto) (heap : Heap) (data : Data_Table) (root : Nat) :
    Option Scene_View := do
  let _ ← reserve_all heap root
  let cameras ← view_category heap root 0 (Scene_Hash.cameras_at Y heap data root)
  let instances ← view_category heap root 1 (Scene_Hash.instances_at Y heap data root)
  let environments ← view_category heap root 2 (Scene_Hash.environments_at Y heap data root)
  let shapes ← view_category heap root 3 (Scene_Hash.shapes_at heap data root)
  let textures ← view_category heap root 4 (Scene_Hash.textures_at Y heap data root)
  let materials ← view_category heap root 5 (Scene_Hash.materials_at Y heap data root)
  let subdivs ← view_category heap root 6 (Scene_Hash.subdivs_at Y heap data root)
  some { _cameras := cameras, _instances := instances, _environments := environments,
         _shapes := shapes, _textures := textures, _materials := materials,
         _subdivs := subdivs }

/-! ## Specification vocabulary -/

/-- Every node of `heap0` is found unchanged at its address in `heap`. -/
abbrev Sub (heap0 heap : Heap) : Prop :=
  ∀ (p : Nat) (n : Hash_Node), heap0[p]? = some n → heap[p]? = some n

/-- The chain of `parent` pointers that `edit_node` climbs from a node whose `parent`
field is `par`: the ancestors, nearest first, up to a node without parent.  Each
ancestor is allocated, has at least one child, and all its children are allocated. -/
inductive Ancestors (heap : Heap) : Option Nat → List Nat → Prop
  | root : Ancestors heap none []
  | step {p : Nat} {pn : Hash_Node} {ps : List Nat} :
      heap[p]? = some pn → pn.children ≠ [] → (∀ c ∈ pn.children, c < heap.length) →
      Ancestors heap pn.parent ps → Ancestors heap (some p) (p :: ps)

/-- The nodes that `edit_node` allocates for the ancestors `ps`, in order of allocation:
the copy of an ancestor has the previously allocated node `prev` as child 0 and the
hash of its children's hashes. -/
def edit_copies (hash256 : Bytes → Hash) (heap : Heap) : Nat → Hash → List Nat → List Hash_Node
  | _, _, [] => []
  | prev, prev_hash, p :: ps =>
    match heap[p]? with
    | none => []
    | some pn =>
      let hash :=
        make_hash hash256 (prev_hash ++ (children_hashes heap pn.children.tail).getD [])
      { pn with children := pn.children.set 0 prev, hash := hash } ::
        edit_copies hash256 heap (prev + 1) hash ps

/-! ## Sample data -/

/-- A stand-in for `picosha2::hash256` without collisions: the bytes behind a marker byte. -/
def sample_hash256 (bytes : Bytes) : Hash := 1 :: bytes

/-- A one-byte scalar type whose default value is the byte 0. -/
def sample_type : TypeInfo := ⟨1, [0]⟩

def sample_yocto : Yocto :=
  { camera_data := sample_type, instance_data := sample_type, environment_data := sample_type,
    material_data := sample_type, texture_data := sample_type, subdiv_data := sample_type,
    texture_info := fun raw => raw, subdiv_info := fun raw => raw,
    subdiv_shape := fun raw => raw, invalidid := [255] }

/-- Two cameras and one instance. -/
def sample_scene : scene_data :=
  { cameras := [[1], [2]], instances := [[3]], environments := [], shapes := [],
    textures := [], materials := [], subdivs := [] }

/-- The snapshot of `sample_scene` built on the empty heap and the empty store: the root
is node 0, the categories are the nodes 1 to 7, the cameras the nodes 8 and 9, the
instance node 10. -/
def sample_snapshot : Heap × Data_Table × Nat :=
  (create_scene_hash sample_hash256 3 [] ⟨[]⟩ sample_scene).getD ([], ⟨[]⟩, 0)

def sample_heap : Heap := sample_snapshot.1
def sample_data : Data_Table := sample_snapshot.2.1

/-! ## Trees read through the pointers -/

/-- The content of a subtree as `make_diff` and the accessors see it: the id and the hash
of a node and the subtrees of its children, in order. -/
inductive HTree where
  | node (id : Nat) (hash : Hash) (children : List HTree)

def HTree.id : HTree → Nat
  | .node id _ _ => id

def HTree.hash : HTree → Hash
  | .node _ hash _ => hash

def HTree.children : HTree → List HTree
  | .node _ _ children => children

mutual
/-- The node at address `p` and everything below it are allocated and carry the ids, the
hashes and the children of the tree. -/
def represents (heap : Heap) : Nat → HTree → Prop
  | p, .node id hash ts =>
    ∃ n, heap[p]? = some n ∧ n.id = id ∧ n.hash = hash ∧ represents_all heap n.children ts
/-- The addresses of a children vector represent the trees of a list, one by one. -/
def represents_all (heap : Heap) : List Nat → List HTree → Prop
  | [], [] => True
  | p :: ps, t :: ts => represents heap p t ∧ represents_all heap ps ts
  | [], _ :: _ => False
  | _ :: _, [] => False
end

/-- The results of `f` on the elements of a list, when all of them are defined. -/
def all_some {α β : Type} (f : α → Option β) : List α → Option (List β)
  | [] => some []
  | x :: xs =>
    match f x, all_some f xs with
    | some y, some ys => some (y :: ys)
    | _, _ => none

/-- The tree below the address `p`, read with `fuel` levels of pointers to follow. -/
def tree_at (heap : Heap) : Nat → Nat → Option HTree
  | 0, _ => none
  | fuel + 1, p =>
    match heap[p]? with
    | none => none
    | some n =>
      match all_some (tree_at heap fuel) n.children with
      | none => none
      | some ts => some (.node n.id n.hash ts)

mutual
/-- The number of levels of a tree. -/
def HTree.height : HTree → Nat
  | .node _ _ ts => height_all ts + 1
/-- The largest height among the trees of a list. -/
def height_all : List HTree → Nat
  | [] => 0
  | t :: ts => max t.height (height_all ts)
end

/-- `Hash_Node::at` on the tree: the first child with the id. -/
def find_id (id : Nat) : List HTree → Option HTree
  | [] => none
  | t :: ts => if t.id = id then some t else find_id id ts

mutual
/-- What `make_diff` puts below the diff node of a visited pair, read as trees: `bs` are
the children of the node of the second tree, the list the children of the node of the
first tree still to visit.  A child without partner gives a tombstone and the visit
goes on; a child with an equal partner gives nothing; the first child with a different
partner gives a node with the partner's hash, and the visit of the siblings stops. -/
def diff_trees (bs : List HTree) : List HTree → List HTree
  | [] => []
  | a :: rest =>
    match find_id a.id bs with
    | some b =>
      if a.hash = b.hash then diff_trees bs rest
      else [.node a.id b.hash (diff_below b.children a)]
    | none => .node a.id invalid_hash [] :: diff_trees bs rest
/-- The diff of the children of `a` against `bs`. -/
def diff_below (bs : List HTree) : HTree → List HTree
  | .node _ _ ts => diff_trees bs ts
end

/-- The visit of the children of one node by `make_diff`, read on the trees: the ids of
the tombstones it emits and the pair that it pushes on the stack before `break`. -/
def diff_scan (bs : List HTree) : List HTree → List Nat × Option (HTree × HTree)
  | [] => ([], none)
  | a :: rest =>
    match find_id a.id bs with
    | some b => if a.hash = b.hash then diff_scan bs rest else ([], some (a, b))
    | none => (a.id :: (diff_scan bs rest).1, (diff_scan bs rest).2)

/-- The diff nodes that one visit allocates below the diff node `d`. -/
def diff_nodes (d : Nat) (scan : List Nat × Option (HTree × HTree)) : List Hash_Node :=
  scan.1.map (fun id => ⟨some d, [], invalid_hash, id⟩) ++
    match scan.2 with
    | none => []
    | some (a, b) => [⟨some d, [], b.hash, a.id⟩]

/-- The heap after the nodes `nodes` were allocated one after the other as children of the
node `dn` at address `d`. -/
def with_new_children (heap : Heap) (d : Nat) (dn : Hash_Node) (nodes : List Hash_Node) : Heap :=
  heap.set d (Hash_Node.mk dn.parent (dn.children ++ List.range' heap.length nodes.length)
    dn.hash dn.id) ++ nodes

mutual
/-- The ids of the children of every node of the tree are pairwise distinct. -/
def HTree.unique_ids : HTree → Bool
  | .node _ _ ts => decide (ts.map HTree.id).Nodup && unique_ids_all ts
/-- Every tree of the list has sibling-unique ids. -/
def unique_ids_all : List HTree → Bool
  | [] => true
  | t :: ts => t.unique_ids && unique_ids_all ts
end

/-- No diff node of `ds` carries the id of a child of the first tree whose partner in
the second tree has the same hash. -/
def diff_pruned (as bs ds : List HTree) : Prop :=
  ∀ c ∈ as, ∀ c1, find_id c.id bs = some c1 → c.hash = c1.hash → ∀ d ∈ ds, d.id ≠ c.id

mutual
/-- Every diff node of the list `ds`, found below the diff node of a visited pair whose
nodes have the children `as` and `bs`, is justified, and so is everything below it. -/
def diff_sound (as bs : List HTree) : List HTree → Prop
  | [] => True
  | d :: ds => diff_node_sound as bs d ∧ diff_sound as bs ds
/-- The diff node carries the id of a child `c` of the node of the first tree and is
either a childless tombstone, when the node of the second tree has no child with that
id, or carries the hash of the child `c1` with that id, which differs from the hash of
`c`; in that case the pair `(c, c1)` was visited: what lies below the diff node is
justified by it and holds nothing for an unchanged child of `c`. -/
def diff_node_sound (as bs : List HTree) : HTree → Prop
  | .node id hash ds =>
    ∃ c, c ∈ as ∧ c.id = id ∧
      ((find_id id bs = none ∧ hash = invalid_hash ∧ ds = []) ∨
       (∃ c1, find_id id bs = some c1 ∧ hash = c1.hash ∧ c.hash ≠ c1.hash ∧
          diff_pruned c.children c1.children ds ∧ diff_sound c.children c1.children ds))
end

/-- The sample snapshot after `edit_node` set its first camera (node 8) to the value
`[7]`: the new root is node 13. -/
def sample_edit : Nat × Heap × Data_Table :=
  (edit_node sample_hash256 3 sample_heap sample_data sample_type 8 [7]).getD (0, [], ⟨[]⟩)

def sample_heap1 : Heap := sample_edit.2.1
def sample_data1 : Data_Table := sample_edit.2.2

/-- The tree of the sample snapshot. -/
def sample_tree : HTree := (tree_at sample_heap1 4 0).getD (.node 0 [] [])

/-- The tree of the edited sample snapshot. -/
def sample_tree1 : HTree := (tree_at sample_heap1 4 13).getD (.node 0 [] [])

mutual
/-- The nodes below the root of a tree, each with the path of ids that leads to it from
the root and its hash, in the order of the children vectors. -/
def entries_below (path : List Nat) : HTree → List (List Nat × Hash)
  | .node _ _ ts => entries_all path ts
/-- The nodes of the trees of a list and the nodes below them. -/
def entries_all (path : List Nat) : List HTree → List (List Nat × Hash)
  | [] => []
  | t :: ts => (path ++ [t.id], t.hash) :: (entries_below (path ++ [t.id]) t ++ entries_all path ts)
end

/-- The entries of the tree below the address `p`. -/
def entries_at (heap : Heap) (fuel p : Nat) : Option (List (List Nat × Hash)) :=
  (tree_at heap fuel p).map (entries_below [])

/-- A scene that has only cameras. -/
def scene_of_cameras (cameras : List Bytes) : scene_data :=
  { cameras := cameras, instances := [], environments := [], shapes := [], textures := [],
    materials := [], subdivs := [] }

/-- Two snapshots built one after the other by `create_scene_hash` on the empty heap and
the empty store: the heap, the store and the two roots. -/
def build_two (scene0 scene1 : scene_data) : Option (Heap × Data_Table × Nat × Nat) :=
  match create_scene_hash sample_hash256 3 [] ⟨[]⟩ scene0 with
  | none => none
  | some (heap0, data0, root0) =>
    match create_scene_hash sample_hash256 3 heap0 data0 scene1 with
    | none => none
    | some (heap1, data1, root1) => some (heap1, data1, root0, root1)

/-- The entries of `make_diff` between two snapshots built by `build_two`. -/
def diff_of_two (scene0 scene1 : scene_data) : Option (List (List Nat × Hash)) :=
  match build_two scene0 scene1 with
  | none => none
  | some (heap, _, root0, root1) =>
    match make_diff 3 heap root0 root1 with
    | none => none
    | some (heap1, diff_root) => entries_at heap1 4 diff_root

/-! ## The shape of a built tree -/

/-- From the address `base` on the heap is a forest: the children of a node are pairwise
distinct, allocated after the node, and their `parent` pointers point back to the node. -/
def forest_from (heap : Heap) (base : Nat) : Prop :=
  ∀ (p : Nat) (n : Hash_Node), base ≤ p → heap[p]? = some n →
    n.children.Nodup ∧
    ∀ c ∈ n.children, p < c ∧ ∃ cn, heap[c]? = some cn ∧ cn.parent = some p

/-- The node `q` is reached from the node `p` through the children vectors. -/
inductive reaches (heap : Heap) (p : Nat) : Nat → Prop
  | self : reaches heap p p
  | child {q : Nat} {n : Hash_Node} {c : Nat} :
      reaches heap p q → heap[q]? = some n → c ∈ n.children → reaches heap p c

/-- The two heaps hold the same nodes up to their hashes. -/
def same_shape (heap heap1 : Heap) : Prop :=
  heap1.length = heap.length ∧
  ∀ (q : Nat) (n : Hash_Node), heap[q]? = some n →
    ∃ n1, heap1[q]? = some n1 ∧ n1.parent = n.parent ∧ n1.children = n.children ∧ n1.id = n.id

/-- The concatenation of the hashes of the roots of a list of trees. -/
def hashes_of (ts : List HTree) : Bytes := (ts.map HTree.hash).flatten

mutual
/-- What `update_node_hash` makes of a tree: a node without children keeps its hash, any
other node gets the hash of the concatenation of the new hashes of its children. -/
def rehash (hash256 : Bytes → Hash) : HTree → HTree
  | .node id hash [] => .node id hash []
  | .node id _ (t :: ts) =>
    .node id (make_hash hash256 (hashes_of (rehash_all hash256 (t :: ts))))
      (rehash_all hash256 (t :: ts))
/-- `rehash` on every tree of a list. -/
def rehash_all (hash256 : Bytes → Hash) : List HTree → List HTree
  | [] => []
  | t :: ts => rehash hash256 t :: rehash_all hash256 ts
end

/-! ## The tree that `create_scene_hash` builds -/

/-- The hash that `maybe_add` returns for a vector. -/
def leaf_hash (hash256 : Bytes → Hash) (vec : List Bytes) : Hash :=
  if vec = [] then invalid_hash else make_hash hash256 vec.flatten

/-- The store after `maybe_add` of the vectors of a list, in order. -/
def add_blobs (hash256 : Bytes → Hash) (data : Data_Table) : List (List Bytes) → Data_Table
  | [] => data
  | vec :: rest => add_blobs hash256 (Data_Table.maybe_add hash256 data vec).1 rest

/-- The leaf that `add_leaf_node` allocates below the node `parent`. -/
def leaf_node (hash256 : Bytes → Hash) (parent : Nat) (id : Nat) (vec : List Bytes) : Hash_Node :=
  ⟨some parent, [], leaf_hash hash256 vec, id⟩

/-- An entity of a scene as `create_scene_hash` stores it: a scalar entity is one leaf
with the hash of its value; a compound entity is a node with one leaf per vector. -/
inductive entity where
  | scalar (value : Bytes)
  | compound (vecs : List (List Bytes))

/-- The vectors behind the leaves of a shape node, in the order of `add_shape_node`. -/
def shape_vecs (shape : shape_data) : List (List Bytes) :=
  [shape.points, shape.lines, shape.triangles, shape.quads, shape.positions,
   shape.normals, shape.texcoords, shape.colors, shape.radius, shape.tangents]

/-- The vectors behind the leaves of a texture node; the last leaf holds the object
representation of the `texture_data`. -/
def texture_vecs (texture : texture_data) : List (List Bytes) :=
  [texture.pixelsf, texture.pixelsb, [texture.raw]]

/-- The vectors behind the leaves of a subdiv node; the last leaf holds the object
representation of the `subdiv_data`. -/
def subdiv_vecs (subdiv : subdiv_data) : List (List Bytes) :=
  [subdiv.quadspos, subdiv.quadsnorm, subdiv.quadstexcoord, subdiv.positions,
   subdiv.normals, subdiv.texcoords, [subdiv.raw]]

/-- The entities of the seven categories of a scene, in the order of the category nodes. -/
def scene_entities (scene : scene_data) : List (List entity) :=
  [scene.cameras.map entity.scalar, scene.instances.map entity.scalar,
   scene.environments.map entity.scalar,
   scene.shapes.map (fun s => entity.compound (shape_vecs s)),
   scene.textures.map (fun t => entity.compound (texture_vecs t)),
   scene.materials.map entity.scalar,
   scene.subdivs.map (fun s => entity.compound (subdiv_vecs s))]

/-- `add_leaf_node` for a scalar entity, `add_node` and a run of `add_leaf_node` for a
compound entity. -/
def add_entity (hash256 : Bytes → Hash) (heap : Heap) (data : Data_Table) (parent : Nat) :
    entity → Nat → Option (Heap × Data_Table × Nat)
  | .scalar value, id => add_leaf_node hash256 heap data parent [value] id
  | .compound vecs, id =>
    match add_node heap parent id with
    | none => none
    | some (heap1, node) =>
      match add_leaf_nodes hash256 node vecs heap1 data with
      | none => none
      | some (heap2, data2) => some (heap2, data2, node)

/-- The seven loops of `create_scene_hash` as one loop over the categories. -/
def fill_all (hash256 : Bytes → Hash) :
    List Nat → List (List entity) → Heap → Data_Table → Option (Heap × Data_Table)
  | category :: categories, entities :: rest, heap, data =>
    match add_entities (add_entity hash256) category entities 0 heap data with
    | none => none
    | some (heap1, data1) => fill_all hash256 categories rest heap1 data1
  | _, _, heap, data => some (heap, data)

/-- The tree of an entity before `update_node_hash`. -/
def entity_tree (hash256 : Bytes → Hash) : entity → Nat → HTree
  | .scalar value, id => .node id (leaf_hash hash256 [value]) []
  | .compound vecs, id =>
    .node id invalid_hash (vecs.map (fun vec => .node no_id (leaf_hash hash256 vec) []))

/-- The trees of the entities of a category, numbered from `i` on. -/
def entity_trees (hash256 : Bytes → Hash) : List entity → Nat → List HTree
  | [], _ => []
  | x :: rest, i => entity_tree hash256 x i :: entity_trees hash256 rest (i + 1)

/-- The trees of the categories, numbered from `k` on, before `update_node_hash`. -/
def category_trees (hash256 : Bytes → Hash) : List (List entity) → Nat → List HTree
  | [], _ => []
  | entities :: rest, k =>
    .node k invalid_hash (entity_trees hash256 entities 0) ::
      category_trees hash256 rest (k + 1)

/-- The tree of the snapshot that `create_scene_hash` returns for a scene. -/
def scene_tree (hash256 : Bytes → Hash) (scene : scene_data) : HTree :=
  rehash hash256 (.node no_id invalid_hash (category_trees hash256 (scene_entities scene) 0))

/-- The vectors that `create_scene_hash` hands to `maybe_add` for an entity, in order. -/
def entity_vecs : entity → List (List Bytes)
  | .scalar value => [[value]]
  | .compound vecs => vecs

/-- The vectors handed to `maybe_add` for the entities of a list. -/
def entities_vecs : List entity → List (List Bytes)
  | [] => []
  | x :: rest => entity_vecs x ++ entities_vecs rest

/-- The vectors handed to `maybe_add` for the entities of the categories of a list. -/
def categories_vecs : List (List entity) → List (List Bytes)
  | [] => []
  | entities :: rest => entities_vecs entities ++ categories_vecs rest

/-! ## Merkle consistency -/

mutual
/-- Every node of the tree that has a child carries the hash of the concatenation of the
hashes of its children, in order. -/
def HTree.merkle (hash256 : Bytes → Hash) : HTree → Prop
  | .node _ hash ts => (ts ≠ [] → hash = make_hash hash256 (hashes_of ts)) ∧ merkle_all hash256 ts
/-- Every tree of the list is Merkle consistent. -/
def merkle_all (hash256 : Bytes → Hash) : List HTree → Prop
  | [] => True
  | t :: ts => t.merkle hash256 ∧ merkle_all hash256 ts
end

/-- The hash stored in the node at `p` is the one that `make_hash` recomputes from the
hashes of its children. -/
def merkle_node (hash256 : Bytes → Hash) (heap : Heap) (p : Nat) : Prop :=
  ∃ n, heap[p]? = some n ∧ make_hash_node hash256 heap p = some n.hash

/-- The entries of `make_diff` between the sample snapshot and the snapshot that
`edit_node` returns for one of its nodes and a new value. -/
def diff_after_edit (node : Nat) (value : Bytes) : Option (List (List Nat × Hash)) :=
  match edit_node sample_hash256 3 sample_heap sample_data sample_type node value with
  | none => none
  | some (root1, heap1, _) =>
    match make_diff 3 heap1 0 root1 with
    | none => none
    | some (heap2, diff_root) => entries_at heap2 4 diff_root

/-- The projection of the first of two snapshots built by `build_two`, after `apply_diff`
with the result of `make_diff` between the two snapshots. -/
def patched_view (scene0 scene1 : scene_data) : Option Scene_View :=
  match build_two scene0 scene1 with
  | none => none
  | some (heap, data, root0, root1) =>
    match create_scene_view sample_yocto heap data root0 with
    | none => none
    | some view0 =>
      match Scene_Hash.make_diff 3 heap root0 root1 with
      | none => none
      | some (heap1, diff_root) => apply_diff sample_yocto heap1 data view0 diff_root

/-- The trees of the cameras after the first one in the snapshot of a scene. -/
def camera_trees (hash256 : Bytes → Hash) (scene : scene_data) : List HTree :=
  rehash_all hash256 (entity_trees hash256 (scene.cameras.tail.map entity.scalar) 1)

/-- The trees of the six categories after the cameras in the snapshot of a scene. -/
def category_trees_rest (hash256 : Bytes → Hash) (scene : scene_data) : List HTree :=
  rehash_all hash256 (category_trees hash256 (scene_entities scene).tail 1)

/-- The hash of a cameras node whose first camera has the hash `hash`. -/
def cameras_hash (hash256 : Bytes → Hash) (scene : scene_data) (hash : Hash) : Hash :=
  make_hash hash256 (hash ++ hashes_of (camera_trees hash256 scene))

/-- The tree of the snapshot of a scene whose first camera has the hash `hash`. -/
def scene_tree_with (hash256 : Bytes → Hash) (scene : scene_data) (hash : Hash) : HTree :=
  .node no_id
    (make_hash hash256
      (cameras_hash hash256 scene hash ++ hashes_of (category_trees_rest hash256 scene)))
    (.node 0 (cameras_hash hash256 scene hash)
        (.node 0 hash [] :: camera_trees hash256 scene) ::
      category_trees_rest hash256 scene)

/-! ## Stores -/

/-- Every blob of the store is stored under its own hash. -/
def content_addressed (hash256 : Bytes → Hash) (data : Data_Table) : Prop :=
  ∀ e ∈ data.map, e.1 = make_hash hash256 e.2

/-- The hash is the all-zero hash of the empty vector or the key of a stored blob. -/
def backed (data : Data_Table) (hash : Hash) : Prop :=
  hash = invalid_hash ∨ hash_map.find data.map hash ≠ none

/-- No id that occurs among the trees `bs` and not among the trees `as` occurs among the
diff nodes `ds`. -/
def additions_absent (as bs ds : List HTree) : Prop :=
  ∀ id, id ∈ bs.map HTree.id → id ∉ as.map HTree.id → id ∉ ds.map HTree.id

mutual
/-- Below every diff node of the list, found below the diff node of a visited pair whose
nodes have the children `as` and `bs`, no addition is reported. -/
def additions_absent_below (as bs : List HTree) : List HTree → Prop
  | [] => True
  | d :: ds => additions_absent_in as bs d ∧ additions_absent_below as bs ds
/-- The diff node has no children, or it is the diff node of the visited pair of a
child `c` of the node of the first tree and the child `c1` with the same id of the node
of the second tree: its children report no addition of `c1` over `c`, and so on below
them. -/
def additions_absent_in (as bs : List HTree) : HTree → Prop
  | .node id _ ds =>
    ds = [] ∨
    ∃ c c1, c ∈ as ∧ c.id = id ∧ find_id id bs = some c1 ∧
      additions_absent c.children c1.children ds ∧
      additions_absent_below c.children c1.children ds
end

/-- The heap after `build_two` on the scenes with the cameras `[1]` and `[1], [2]`. -/
def two_cameras_heap : Heap :=
  ((build_two (scene_of_cameras [[1]]) (scene_of_cameras [[1], [2]])).map (fun s => s.1)).getD []

/-- A shape with one point and no other elements. -/
def sample_shape (point : Bytes) : shape_data :=
  { points := [point], lines := [], triangles := [], quads := [], positions := [],
    normals := [], texcoords := [], colors := [], radius := [], tangents := [] }

/-- A scene with cameras and shapes only. -/
def scene_of_shapes (cameras : List Bytes) (shapes : List shape_data) : scene_data :=
  { cameras := cameras, instances := [], environments := [], shapes := shapes, textures := [],
    materials := [], subdivs := [] }

/-- A scene with one camera and one material. -/
def scene_of_camera_material (camera material : Bytes) : scene_data :=
  { cameras := [camera], instances := [], environments := [], shapes := [], textures := [],
    materials := [material], subdivs := [] }

/-- The projection of the first of two snapshots built by `build_two`. -/
def first_view (scene0 scene1 : scene_data) : Option Scene_View :=
  match build_two scene0 scene1 with
  | none => none
  | some (heap, data, root0, _) => create_scene_view sample_yocto heap data root0

/-! ## Projections -/

/-- The keys of a map are pairwise distinct, as in every `unordered_map`. -/
def distinct_keys {α : Type} (m : hash_map Nat α) : Prop := (m.map Prod.fst).Nodup

/-- The keys of each of the seven maps of a projection are pairwise distinct. -/
def Scene_View.distinct_keys (view : Scene_View) : Prop :=
  yash.distinct_keys view._cameras ∧ yash.distinct_keys view._instances ∧
  yash.distinct_keys view._environments ∧ yash.distinct_keys view._shapes ∧
  yash.distinct_keys view._textures ∧ yash.distinct_keys view._materials ∧
  yash.distinct_keys view._subdivs

/-- Two projections have the same entry, present or absent, for every id in each of the
seven categories. -/
def Scene_View.same_entries (view view1 : Scene_View) : Prop :=
  ∀ id : Nat,
    hash_map.find view._cameras id = hash_map.find view1._cameras id ∧
    hash_map.find view._instances id = hash_map.find view1._instances id ∧
    hash_map.find view._environments id = hash_map.find view1._environments id ∧
    hash_map.find view._shapes id = hash_map.find view1._shapes id ∧
    hash_map.find view._textures id = hash_map.find view1._textures id ∧
    hash_map.find view._materials id = hash_map.find view1._materials id ∧
    hash_map.find view._subdivs id = hash_map.find view1._subdivs id

/-- The heap and the diff root after `make_diff` between the sample snapshot and its
edited version. -/
def sample_diff : Heap × Nat := (Scene_Hash.make_diff 3 sample_heap1 0 13).getD ([], 0)

/-- The projection of the sample snapshot. -/
def sample_view : Scene_View :=
  (create_scene_view sample_yocto sample_heap sample_data 0).getD {}

/-- The projection of the sample snapshot after `apply_diff` with the sample diff, read
with the store after the edit. -/
def sample_patched : Scene_View :=
  (apply_diff sample_yocto sample_diff.1 sample_data1 sample_view sample_diff.2).getD {}

/-! ## btree.h -/

namespace btree

/-- The type `array<T, N>` of `basic/array.h`, a header that is not part of the sources
(`tree.h:3` has the include commented out).  Modelled from its uses in `btree.h` and
`tree.h`: `N` slots and the number `count` of slots in use; `a[i]` reads or writes the
slot `i` whatever `count` is; `add(x)` writes the slot `count` and increments `count`;
`insert(x, i)`, with the argument order of the call at `btree.h:133`, moves the slots
from `i` on up by one, writes `x` to the slot `i` and increments `count`; `is_empty()`
tests `count == 0`.  An access outside the `N` slots gives `none`. -/
structure array (α : Type) where
  slots : List α
  count : Nat
deriving DecidableEq

/-- The value `{}` of an `array<T, N>`. -/
def array.init {α : Type} (N : Nat) (d : α) : array α := ⟨List.replicate N d, 0⟩

/-- The read `a[i]`. -/
def array.at {α : Type} (a : array α) (i : Nat) : Option α := a.slots[i]?

/-- The write `a[i] = x`. -/
def array.put {α : Type} (a : array α) (i : Nat) (x : α) : Option (array α) :=
  if i < a.slots.length then some ⟨a.slots.set i x, a.count⟩ else none

/-- The call `a.add(x)`. -/
def array.add {α : Type} (a : array α) (x : α) : Option (array α) :=
  if a.count < a.slots.length then some ⟨a.slots.set a.count x, a.count + 1⟩ else none

/-- The call `a.insert(x, i)`. -/
def array.insert {α : Type} (a : array α) (x : α) (i : Nat) : Option (array α) :=
  if a.count < a.slots.length ∧ i ≤ a.count then
    some ⟨(a.slots.take i ++ x :: a.slots.drop i).take a.slots.length, a.count + 1⟩
  else none

/-- `struct Node<b>` (tree.h:12-17). -/
structure Node where
  children : array Int
  parent : Int
  data : Int
deriving DecidableEq

/-- `struct BTree<Type, t>` (btree.h:11-16) with keys of type `int`. -/
structure BTree where
  tree : List Node
  buckets : List (array Int)
  root : Int
deriving DecidableEq

/-- `make_btree` (btree.h:75-80). -/
def make_btree : BTree := ⟨[], [], -1⟩

/-- The element `v[i]` of a vector at an index of type `int`. -/
def index {α : Type} (v : List α) (i : Int) : Option α :=
  if 0 ≤ i then v[i.toNat]? else none

/-- `bucket(btree, node)` (btree.h:18-29); `none` when the assertion fails. -/
def bucket (btree : BTree) (node : Int) : Option (array Int) :=
  match index btree.tree node with
  | none => none
  | some n => if n.data = node then index btree.buckets n.data else none

/-- An assignment through the reference `bucket(btree, node)`. -/
def set_bucket (btree : BTree) (node : Int) (b : array Int) : Option BTree :=
  match bucket btree node with
  | none => none
  | some _ => some { btree with buckets := btree.buckets.set node.toNat b }

/-- `children(btree, node)` (btree.h:31-40). -/
def children (btree : BTree) (node : Int) : Option (array Int) :=
  (index btree.tree node).map (fun n => n.children)

/-- An assignment through the reference `children(btree, node)`. -/
def set_children (btree : BTree) (node : Int) (c : array Int) : Option BTree :=
  match index btree.tree node with
  | none => none
  | some n => some { btree with tree := btree.tree.set node.toNat { n with children := c } }

/-- The assignment `parent(btree, node) = p` (btree.h:47-50). -/
def set_parent (btree : BTree) (node p : Int) : Option BTree :=
  match index btree.tree node with
  | none => none
  | some n => some { btree with tree := btree.tree.set node.toNat { n with parent := p } }

/-- `size(btree, node)` (btree.h:52-55). -/
def size (btree : BTree) (node : Int) : Option Nat :=
  match index btree.tree node with
  | none => none
  | some n => (index btree.buckets n.data).map (fun b => b.count)

/-- `add_node(btree, parent)` (btree.h:57-63) for minimum degree `t`. -/
def add_node (t : Nat) (btree : BTree) (parent : Int) : BTree × Int :=
  ({ btree with
      tree := btree.tree ++ [⟨array.init (2 * t) 0, parent, btree.buckets.length⟩],
      buckets := btree.buckets ++ [array.init (2 * t - 1) 0] },
   btree.tree.length)

/-- `is_full(btree, node)` (btree.h:65-68). -/
def is_full (t : Nat) (btree : BTree) (node : Int) : Option Bool :=
  (size btree node).map (fun s => decide (s = 2 * t - 1))

/-- `is_leaf(btree, node)` (btree.h:70-73). -/
def is_leaf (btree : BTree) (node : Int) : Option Bool :=
  (children btree node).map (fun c => decide (c.count = 0))

/-- The loop `while (i < s and elem > cmp[i]) i += 1` of `search` (btree.h:93-95), with
`n = s - i` iterations left at most. -/
def search_scan (cmp : array Int) (elem : Int) : Nat → Nat → Option Nat
  | 0, i => some i
  | n + 1, i =>
    match cmp.at i with
    | none => none
    | some x => if elem > x then search_scan cmp elem n (i + 1) else some i

/-- `search(btree, elem, node)` (btree.h:87-102); the `while (true)` loop takes fuel. -/
def search_from (btree : BTree) (elem : Int) : Nat → Int → Option (Int × Int)
  | 0, _ => none
  | fuel + 1, node =>
    match bucket btree node, size btree node, is_leaf btree node, children btree node with
    | some cmp, some s, some leaf, some cs =>
      match search_scan cmp elem s 0 with
      | none => none
      | some i =>
        if i < s ∧ cmp.at i = some elem then some (node, i)
        else if leaf then some (-1, -1)
        else
          match cs.at i with
          | none => none
          | some child => search_from btree elem fuel child
    | _, _, _, _ => none

/-- `search(btree, elem)` (btree.h:104-107). -/
def search (btree : BTree) (elem : Int) (fuel : Nat) : Option (Int × Int) :=
  search_from btree elem fuel btree.root

/-- The loop `for (i = t; i < 2 * t - 1; ++i) bucket(new_node).add(bucket(node)[i])` of
`split_child` (btree.h:119-121), and the same loop over the children (btree.h:123-125):
`add` of the slots `i`, `i + 1`, ... of `src`, `n` of them. -/
def add_from {α : Type} (src : array α) : Nat → Nat → array α → Option (array α)
  | 0, _, dst => some dst
  | n + 1, i, dst =>
    match src.at i with
    | none => none
    | some x =>
      match dst.add x with
      | none => none
      | some dst1 => add_from src n (i + 1) dst1

/-- The loop `for (i = child_pos; i < count; i++) b[i + 1] = b[i]` of `split_child`
(btree.h:128-130), with `n = count - i` iterations left. -/
def shift_keys (b : array Int) : Nat → Nat → Option (array Int)
  | 0, _ => some b
  | n + 1, i =>
    match b.at i with
    | none => none
    | some x =>
      match b.put (i + 1) x with
      | none => none
      | some b1 => shift_keys b1 n (i + 1)

/-- The first part of `split_child` (btree.h:116-126): the new node and the copies of
the upper keys and children of `node` into it. -/
def split_copy (t : Nat) (btree : BTree) (p node : Int) : Option (BTree × Int) :=
  let r := add_node t btree p
  match bucket r.1 node, bucket r.1 r.2, children r.1 node, children r.1 r.2 with
  | some bn, some bnew, some cn, some cnew =>
    match add_from bn (t - 1) t bnew,
      (if cn.count ≠ 0 then add_from cn t t cnew else some cnew) with
    | some bnew1, some cnew1 =>
      match set_bucket r.1 r.2 bnew1 with
      | none => none
      | some btree1 => (set_children btree1 r.2 cnew1).map (fun btree2 => (btree2, r.2))
    | _, _ => none
  | _, _, _, _ => none

/-- The second part of `split_child` (btree.h:127-133): the median key of `node` and the
new node enter the parent `p`. -/
def split_link (t : Nat) (btree : BTree) (p node new_node : Int) (child_pos : Nat) :
    Option BTree :=
  match bucket btree p, bucket btree node with
  | some bp, some bn =>
    match shift_keys bp (bp.count - child_pos) child_pos, bn.at (t - 1) with
    | some bp1, some key =>
      match (array.mk bp1.slots (bp1.count + 1)).put child_pos key with
      | none => none
      | some bp2 =>
        match set_bucket btree p bp2 with
        | none => none
        | some btree1 =>
          match (children btree1 p).bind (fun cp => cp.insert new_node (child_pos + 1)) with
          | none => none
          | some cp1 => set_children btree1 p cp1
    | _, _ => none
  | _, _ => none

/-- The last part of `split_child` (btree.h:135-137): the node that was split shrinks. -/
def split_shrink (t : Nat) (btree : BTree) (node : Int) : Option BTree :=
  match bucket btree node, children btree node with
  | some bn, some cn =>
    match set_bucket btree node ⟨bn.slots, t - 1⟩ with
    | none => none
    | some btree1 => set_children btree1 node (if cn.count > t then ⟨cn.slots, t⟩ else cn)
  | _, _ => none

/-- `split_child(btree, p, child_pos)` (btree.h:109-138); `none` when an assertion fails. -/
def split_child (t : Nat) (btree : BTree) (p : Int) (child_pos : Nat) : Option BTree :=
  match (children btree p).bind (fun cp => cp.at child_pos) with
  | none => none
  | some node =>
    match is_full t btree node, is_full t btree p with
    | some true, some false =>
      match split_copy t btree p node with
      | none => none
      | some (btree1, new_node) =>
        match split_link t btree1 p node new_node child_pos with
        | none => none
        | some btree2 => split_shrink t btree2 node
    | _, _ => none

/-- The loop of `add_element_nonfull` on a leaf (btree.h:144-148), with `j = i + 1`:
returns the bucket and the final `i + 1`. -/
def shift_down (element : Int) : Nat → array Int → Option (array Int × Nat)
  | 0, b => some (b, 0)
  | j + 1, b =>
    match b.at j with
    | none => none
    | some x =>
      if element < x then
        match b.put (j + 1) x with
        | none => none
        | some b1 => shift_down element j b1
      else some (b, j + 1)

/-- The loop of `add_element_nonfull` on an inner node (btree.h:152-156), with
`j = i + 1`: returns the final `i + 1`. -/
def scan_down (b : array Int) (element : Int) : Nat → Option Nat
  | 0 => some 0
  | j + 1 =>
    match b.at j with
    | none => none
    | some x => if element < x then scan_down b element j else some (j + 1)

/-- `add_element_nonfull(btree, node, element)` (btree.h:140-163); the recursion takes
fuel. -/
def add_element_nonfull (t : Nat) : Nat → BTree → Int → Int → Option BTree
  | 0, _, _, _ => none
  | fuel + 1, btree, node, element =>
    match size btree node, is_leaf btree node, bucket btree node with
    | some s, some leaf, some b =>
      if leaf then
        match shift_down element s b with
        | none => none
        | some (b1, pos) =>
          match b1.put pos element with
          | none => none
          | some b2 => set_bucket btree node ⟨b2.slots, b2.count + 1⟩
      else
        match scan_down b element s with
        | none => none
        | some i =>
          match (children btree node).bind (fun c => c.at i) with
          | none => none
          | some child =>
            match is_full t btree child with
            | none => none
            | some false => add_element_nonfull t fuel btree child element
            | some true =>
              match split_child t btree node i with
              | none => none
              | some btree1 =>
                match (bucket btree1 node).bind (fun b1 => b1.at i) with
                | none => none
                | some key =>
                  let i1 := if element > key then i + 1 else i
                  match (children btree1 node).bind (fun c => c.at i1) with
                  | none => none
                  | some child1 => add_element_nonfull t fuel btree1 child1 element
    | _, _, _ => none

/-- `add_element(btree, element)` (btree.h:165-182). -/
def add_element (t : Nat) (fuel : Nat) (btree : BTree) (element : Int) : Option BTree :=
  if btree.tree.length = 0 then
    let (btree1, _) := add_node t btree (-1)
    match (bucket btree1 0).bind (fun b => b.add element) with
    | none => none
    | some b => (set_bucket btree1 0 b).map (fun btree2 => { btree2 with root := 0 })
  else
    let r := btree.root
    match is_full t btree r with
    | none => none
    | some false => add_element_nonfull t fuel btree btree.root element
    | some true =>
      let (btree1, root) := add_node t btree (-1)
      let btree2 : BTree := { btree1 with root := root }
      match (children btree2 root).bind (fun c => c.add r) with
      | none => none
      | some c =>
        match (set_children btree2 root c).bind (fun b => set_parent b r root) with
        | none => none
        | some btree3 =>
          match split_child t btree3 root 0 with
          | none => none
          | some btree4 => add_element_nonfull t fuel btree4 btree4.root element

/-- A run of `add_element`, one call per key of the list, in order. -/
def add_elements (t : Nat) (fuel : Nat) : List Int → BTree → Option BTree
  | [], btree => some btree
  | key :: rest, btree =>
    match add_element t fuel btree key with
    | none => none
    | some btree1 => add_elements t fuel rest btree1

end btree

/-! ## The path of an edit -/

/-- Going up from `node`, every node of the list has the node before it among its
children. -/
def child_chain (heap : Heap) : Nat → List Nat → Bool
  | _, [] => true
  | c, p :: ps =>
    decide (c ∈ ((heap[p]?).map Hash_Node.children).getD []) && child_chain heap p ps

/-- The last node of the path that goes up from `node` through `ps`: the root of the
tree that holds `node`. -/
def top : Nat → List Nat → Nat
  | node, [] => node
  | _, p :: ps => top p ps

/-- No node of the heap has a child that is not allocated. -/
def closed (heap : Heap) : Prop := ∀ n ∈ heap, ∀ c ∈ n.children, c < heap.length

/-- The ids of the children of the node at `p`, in the order of its children vector. -/
def children_ids (heap : Heap) (p : Nat) : Option (List Nat) :=
  match heap[p]? with
  | none => none
  | some n => all_some (fun c => (heap[c]?).map Hash_Node.id) n.children

/-! ## Typed scenes -/

/-- Every element of the vector has `sizeof` bytes. -/
def sized (sizeof : Nat) (vec : List Bytes) : Prop := ∀ x ∈ vec, x.length = sizeof

/-- The elements of the vectors of a `shape_data` have the sizes of their C++ types. -/
def shape_typed (shape : shape_data) : Prop :=
  sized sizeof_int shape.points ∧ sized sizeof_vec2i shape.lines ∧
  sized sizeof_vec3i shape.triangles ∧ sized sizeof_vec4i shape.quads ∧
  sized sizeof_vec3f shape.positions ∧ sized sizeof_vec3f shape.normals ∧
  sized sizeof_vec2f shape.texcoords ∧ sized sizeof_vec4f shape.colors ∧
  sized sizeof_float shape.radius ∧ sized sizeof_vec4f shape.tangents

/-- The object representation and the pixels of a `texture_data` have the sizes of
their C++ types. -/
def texture_typed (Y : Yocto) (texture : texture_data) : Prop :=
  sized sizeof_vec4f texture.pixelsf ∧ sized sizeof_vec4b texture.pixelsb ∧
  texture.raw.length = Y.texture_data.sizeof

/-- The object representation and the elements of the vectors of a `subdiv_data` have the
sizes of their C++ types. -/
def subdiv_typed (Y : Yocto) (subdiv : subdiv_data) : Prop :=
  sized sizeof_vec4i subdiv.quadspos ∧ sized sizeof_vec4i subdiv.quadsnorm ∧
  sized sizeof_vec4i subdiv.quadstexcoord ∧ sized sizeof_vec3f subdiv.positions ∧
  sized sizeof_vec3f subdiv.normals ∧ sized sizeof_vec2f subdiv.texcoords ∧
  subdiv.raw.length = Y.subdiv_data.sizeof

/-- Every entity of the scene is a value of its C++ type. -/
def scene_typed (Y : Yocto) (scene : scene_data) : Prop :=
  sized Y.camera_data.sizeof scene.cameras ∧ sized Y.instance_data.sizeof scene.instances ∧
  sized Y.environment_data.sizeof scene.environments ∧
  (∀ shape ∈ scene.shapes, shape_typed shape) ∧
  (∀ texture ∈ scene.textures, texture_typed Y texture) ∧
  sized Y.material_data.sizeof scene.materials ∧
  (∀ subdiv ∈ scene.subdivs, subdiv_typed Y subdiv)

/-- The hash function treated as free of collisions, as the design does: no two byte
strings have the same hash, and no byte string has the all-zero hash that `invalid_hash`
reserves. -/
def ideal_hash (hash256 : Bytes → Hash) : Prop :=
  Function.Injective hash256 ∧ ∀ bytes, hash256 bytes ≠ invalid_hash

/-! ## The two projection builders -/

/-- What `make_texture_view` makes of the node of a texture in a built snapshot: the
`pixelsb` of the texture when there are any, the bytes of `pixelsf` read as `vec4b`
otherwise. -/
def texture_view_of_node (Y : Yocto) (texture : texture_data) : Texture_View :=
  { info := Y.texture_info texture.raw, pixelsf := texture.pixelsf,
    pixelsb :=
      if texture.pixelsb.length ≠ 0 then texture.pixelsb
      else view_of sizeof_vec4b texture.pixelsf.flatten
        (texture.pixelsf.flatten.length / sizeof_vec4b) }

/-- What `make_subdiv_view` makes of the node of a subdiv in a built snapshot. -/
def subdiv_view_of_node (Y : Yocto) (subdiv : subdiv_data) : Subdiv_View :=
  { info := Y.subdiv_info subdiv.raw, shape := Y.invalidid,
    quadspos := subdiv.quadspos, quadsnorm := subdiv.quadsnorm,
    quadstexcoord := subdiv.quadstexcoord, positions := subdiv.positions,
    normals := subdiv.normals, texcoords := subdiv.texcoords }

/-- The projection `hv` of a texture read from a snapshot against the projection `dv` read
from the `texture_data`: the same `width`, `height`, `linear` and `pixelsf`; the same
`pixelsb` when `dv` has any, and otherwise the bytes of `pixelsf` as `vec4b`. -/
def Texture_View.agree (hv dv : Texture_View) : Prop :=
  hv.info = dv.info ∧ hv.pixelsf = dv.pixelsf ∧
  (dv.pixelsb ≠ [] → hv.pixelsb = dv.pixelsb) ∧
  (dv.pixelsb = [] →
    hv.pixelsb = view_of sizeof_vec4b dv.pixelsf.flatten (dv.pixelsf.flatten.length / sizeof_vec4b))

/-- The projection `hv` of a subdiv read from a snapshot against the projection `dv` read
from the `subdiv_data`: the same scalar fields other than `shape` and the same vectors. -/
def Subdiv_View.agree (hv dv : Subdiv_View) : Prop :=
  hv.info = dv.info ∧ hv.quadspos = dv.quadspos ∧ hv.quadsnorm = dv.quadsnorm ∧
  hv.quadstexcoord = dv.quadstexcoord ∧ hv.positions = dv.positions ∧
  hv.normals = dv.normals ∧ hv.texcoords = dv.texcoords

/-- Two entries of projections are both absent, or both present and related. -/
def agree_with {α : Type} (R : α → α → Prop) : Option α → Option α → Prop
  | some a, some b => R a b
  | none, none => True
  | _, _ => False

/-- A scene with textures and subdivs only. -/
def scene_of_textures (textures : List texture_data) (subdivs : List subdiv_data) : scene_data :=
  { cameras := [], instances := [], environments := [], shapes := [], textures := textures,
    materials := [], subdivs := subdivs }

/-- A texture with one float pixel and no byte pixels. -/
def sample_texture : texture_data :=
  { raw := [1], pixelsf := [[1, 2, 3, 4, 5, 6, 7, 8, 9, 10, 11, 12, 13, 14, 15, 16]],
    pixelsb := [] }

/-- A subdiv without elements whose object representation is the byte 4. -/
def sample_subdiv : subdiv_data :=
  { raw := [4], quadspos := [], quadsnorm := [], quadstexcoord := [], positions := [],
    normals := [], texcoords := [] }

/-! # Properties -/

/-! ## Lemmas on the heap -/

theorem lt_of_get {heap : Heap} {p : Nat} {n : Hash_Node} (h : heap[p]? = some n) :
    p < heap.length := by
  rcases Nat.lt_or_ge p heap.length with h1 | h1
  · exact h1
  · rw [List.getElem?_eq_none h1] at h; cases h

theorem get_append_of_get {heap : Heap} {p : Nat} {n : Hash_Node} (ext : Heap)
    (h : heap[p]? = some n) : (heap ++ ext)[p]? = some n := by
  rw [List.getElem?_append_left (lt_of_get h)]; exact h

theorem add_node_spec {heap : Heap} {parent id : Nat} {p : Hash_Node}
    (h : heap[parent]? = some p) :
    ∃ heap', add_node heap parent id = some (heap', heap.length) ∧
      heap'.length = heap.length + 1 ∧
      heap'[heap.length]? = some ⟨some parent, [], invalid_hash, id⟩ ∧
      heap'[parent]? = some { p with children := p.children ++ [heap.length] } ∧
      ∀ q, q ≠ parent → q < heap.length → heap'[q]? = heap[q]? := by
  have hlt := lt_of_get h
  refine ⟨_, by simp [add_node, h]; rfl, by simp, ?_, ?_, ?_⟩
  · rw [List.getElem?_set]
    simp [Nat.ne_of_lt hlt, Hash_Node.init]
  · rw [List.getElem?_set]
    simp [hlt]; omega
  · intro q hq hql
    rw [List.getElem?_set]
    simp [Ne.symm hq, List.getElem?_append_left hql]

theorem children_hashes_append {heap : Heap} (ext : Heap) :
    ∀ cs : List Nat, (∀ c ∈ cs, c < heap.length) →
      ∃ bytes, children_hashes heap cs = some bytes ∧
        children_hashes (heap ++ ext) cs = some bytes
  | [], _ => ⟨[], rfl, rfl⟩
  | c :: cs, h => by
    obtain ⟨bytes, h1, h2⟩ := children_hashes_append ext cs
      (fun x hx => h x (List.mem_cons_of_mem _ hx))
    have hc : c < heap.length := h c (List.mem_cons_self _ _)
    obtain ⟨n, hn⟩ : ∃ n, heap[c]? = some n := ⟨heap[c], List.getElem?_eq_getElem hc⟩
    exact ⟨n.hash ++ bytes, by simp [children_hashes, hn, h1],
      by simp [children_hashes, get_append_of_get ext hn, h2]⟩

theorem child_index_fresh {children : List Nat} {node bound : Nat}
    (h : ∀ c ∈ children, c < bound) (hn : bound ≤ node) : child_index children node = 0 := by
  unfold child_index
  rw [if_neg]
  intro hmem
  exact absurd (h node hmem) (by omega)

theorem get_last (heap : Heap) (nd : Hash_Node) : (heap ++ [nd])[heap.length]? = some nd := by
  rw [List.getElem?_append_right (Nat.le_refl _)]; simp

theorem Sub.refl (heap : Heap) : Sub heap heap := fun _ _ h => h

theorem Sub.trans {a b c : Heap} (h1 : Sub a b) (h2 : Sub b c) : Sub a c :=
  fun p n h => h2 p n (h1 p n h)

theorem Sub.append {heap0 heap : Heap} (h : Sub heap0 heap) (ext : Heap) :
    Sub heap0 (heap ++ ext) := fun p n hp => get_append_of_get ext (h p n hp)

theorem Sub.length_le {heap0 heap : Heap} (h : Sub heap0 heap) : heap0.length ≤ heap.length := by
  rcases Nat.lt_or_ge heap.length heap0.length with h1 | h1
  · have h2 : heap.length - 1 + 1 ≤ heap0.length := by omega
    have h3 := h heap.length heap0[heap.length] (List.getElem?_eq_getElem h1)
    exact absurd (lt_of_get h3) (Nat.lt_irrefl _)
  · exact h1

theorem children_hashes_sub {heap0 heap : Heap} (h : Sub heap0 heap) :
    ∀ cs : List Nat, (∀ c ∈ cs, c < heap0.length) →
      ∃ bytes, children_hashes heap0 cs = some bytes ∧ children_hashes heap cs = some bytes
  | [], _ => ⟨[], rfl, rfl⟩
  | c :: cs, hcs => by
    obtain ⟨bytes, h1, h2⟩ := children_hashes_sub h cs
      (fun x hx => hcs x (List.mem_cons_of_mem _ hx))
    have hc : c < heap0.length := hcs c (List.mem_cons_self _ _)
    have hn : heap0[c]? = some heap0[c] := List.getElem?_eq_getElem hc
    exact ⟨heap0[c].hash ++ bytes, by simp only [children_hashes, hn, h1],
      by simp only [children_hashes, h _ _ hn, h2]⟩

/-- What the loop of `edit_node` does on a heap `heap ++ [nd]` whose last node `nd` is
the node allocated last and whose ancestors `ps` lie in the part `heap0` of `heap`. -/
theorem edit_node_loop_spec (hash256 : Bytes → Hash) (heap0 : Heap) :
    ∀ (ps : List Nat) (par : Option Nat) (heap : Heap) (nd : Hash_Node) (fuel : Nat),
      Sub heap0 heap → nd.parent = par → Ancestors heap0 par ps → ps.length < fuel →
      edit_node_loop hash256 fuel (heap ++ [nd]) heap.length =
        some (heap ++ [nd] ++ edit_copies hash256 heap0 heap.length nd.hash ps,
              heap.length + ps.length) := by
  intro ps
  induction ps with
  | nil =>
    intro par heap nd fuel hsub hpar hanc hfuel
    cases hanc with
    | root =>
      obtain ⟨fuel, rfl⟩ : ∃ f, fuel = f + 1 := ⟨fuel - 1, by omega⟩
      simp only [edit_node_loop, get_last, hpar, edit_copies, List.append_nil, List.length_nil,
        Nat.add_zero]
  | cons p ps ih =>
    intro par heap nd fuel hsub hpar hanc hfuel
    cases hanc with
    | step hp hne hcl hrest =>
      rename_i pn
      obtain ⟨fuel, rfl⟩ : ∃ f, fuel = f + 1 := ⟨fuel - 1, by simp at hfuel; omega⟩
      rcases pn with ⟨pp, pcs, ph, pid⟩
      cases pcs with
      | nil => exact absurd rfl hne
      | cons c0 rest =>
        simp only at hrest hcl
        have hp' : (heap ++ [nd])[p]? = some ⟨pp, c0 :: rest, ph, pid⟩ :=
          get_append_of_get _ (hsub p _ hp)
        have hidx : child_index (c0 :: rest) heap.length = 0 :=
          child_index_fresh hcl hsub.length_le
        have hsub1 : Sub heap0 (heap ++ [nd] ++ [⟨pp, heap.length :: rest, ph, pid⟩]) :=
          (hsub.append _).append _
        obtain ⟨bytes, hb1, hb2⟩ := children_hashes_sub hsub1
          rest (fun c hc => hcl c (List.mem_cons_of_mem _ hc))
        have hlen : (heap ++ [nd]).length = heap.length + 1 := by simp
        have ih' := ih pp (heap ++ [nd])
          ⟨pp, heap.length :: rest, make_hash hash256 (nd.hash ++ bytes), pid⟩ fuel
          (hsub.append _) rfl hrest (by simp at hfuel; omega)
        have hnd1 : (heap ++ [nd] ++ [⟨pp, heap.length :: rest, ph, pid⟩])[heap.length]? =
            some nd := get_append_of_get _ (get_last heap nd)
        have hmk : make_hash_node hash256
            (heap ++ [nd] ++ [⟨pp, heap.length :: rest, ph, pid⟩])
            (heap ++ [nd]).length = some (make_hash hash256 (nd.hash ++ bytes)) := by
          simp only [make_hash_node, get_last, children_hashes, hb2, hnd1]
        have hset : set_hash
            (heap ++ [nd] ++ [⟨pp, heap.length :: rest, ph, pid⟩])
            (heap ++ [nd]).length (make_hash hash256 (nd.hash ++ bytes)) =
            some (heap ++ [nd] ++
              [⟨pp, heap.length :: rest, make_hash hash256 (nd.hash ++ bytes), pid⟩]) := by
          simp only [set_hash, get_last]
          rw [List.set_append_right _ _ (Nat.le_refl _)]
          simp
        simp only [edit_node_loop, get_last, hpar, hp', hidx, List.length_cons,
          Nat.zero_lt_succ, if_true, List.set_cons_zero, hmk, hset]
        rw [ih', hlen]
        simp only [edit_copies, hp, hb1, List.tail_cons, Option.getD_some, List.length_cons,
          List.append_assoc, List.singleton_append, List.set_cons_zero]
        congr 2
        omega

theorem edit_node_spec (hash256 : Bytes → Hash) {heap : Heap} (data : Data_Table) (T : TypeInfo)
    {node : Nat} (value : Bytes) {en : Hash_Node} {ps : List Nat} {fuel : Nat}
    (hnode : heap[node]? = some en) (hanc : Ancestors heap en.parent ps)
    (hfuel : ps.length < fuel) :
    edit_node hash256 fuel heap data T node value =
      some (heap.length + ps.length,
            heap ++ [⟨en.parent, en.children, make_hash hash256 value, en.id⟩] ++
              edit_copies hash256 heap heap.length (make_hash hash256 value) ps,
            (data.set T (make_hash hash256 value) value).1) := by
  have h := edit_node_loop_spec hash256 heap ps en.parent heap
    ⟨en.parent, en.children, make_hash hash256 value, en.id⟩ fuel (Sub.refl heap) rfl hanc hfuel
  simp only [edit_node, hnode, h]

/-! ## Lemmas on the store -/

theorem find_assign {Key Value : Type} [DecidableEq Key] (m : hash_map Key Value) (k : Key)
    (v : Value) (k' : Key) :
    hash_map.find (hash_map.assign m k v) k' = if k = k' then some v else hash_map.find m k' := by
  induction m with
  | nil => simp [hash_map.assign, hash_map.find]
  | cons e rest ih =>
    obtain ⟨a, b⟩ := e
    by_cases h1 : a = k
    · subst h1
      by_cases h2 : a = k' <;> simp [hash_map.assign, hash_map.find, h2]
    · by_cases h2 : a = k'
      · subst h2
        simp [hash_map.assign, hash_map.find, h1, Ne.symm h1]
      · simp [hash_map.assign, hash_map.find, h1, h2, ih]

theorem mem_of_find {Key Value : Type} [DecidableEq Key] {m : hash_map Key Value} {k : Key}
    {v : Value} (h : hash_map.find m k = some v) : (k, v) ∈ m := by
  induction m with
  | nil => simp [hash_map.find] at h
  | cons e rest ih =>
    obtain ⟨a, b⟩ := e
    by_cases h1 : a = k
    · subst h1
      simp [hash_map.find] at h
      simp [h]
    · simp [hash_map.find, h1] at h
      exact List.mem_cons_of_mem _ (ih h)

/-- The store after `set(make_hash(value), value)` answers every lookup as before, except
that the hash of `value` may have become a key. -/
theorem find_set (hash256 : Bytes → Hash) (data : Data_Table) (T : TypeInfo) (value : Bytes)
    (hstore : ∀ e ∈ data.map, e.1 = make_hash hash256 e.2)
    (hcoll : ∀ e ∈ data.map, make_hash hash256 e.2 = make_hash hash256 value → e.2 = value)
    (h : Hash) :
    (h = make_hash hash256 value → hash_map.find data.map h ≠ none ∨ value = T.default_value) →
    hash_map.find (data.set T (make_hash hash256 value) value).1.map h =
      hash_map.find data.map h := by
  intro hb
  unfold Data_Table.set
  by_cases hd : value = T.default_value
  · simp [hd]
  · simp only [hd, if_false, find_assign]
    by_cases hh : make_hash hash256 value = h
    · simp only [hh, if_true]
      rcases hb hh.symm with h1 | h1
      · cases hf : hash_map.find data.map h with
        | none => exact absurd hf h1
        | some b =>
          have hm := mem_of_find hf
          have e1 := hstore _ hm
          have e2 := hcoll _ hm (by simp only at e1 ⊢; rw [← e1, hh])
          simp only at e2
          rw [e2]
      · exact absurd h1 hd
    · simp only [hh, if_false]

/-! ## Reads through an extended heap -/

theorem at_loop_sub {heap0 heap : Heap} (h : Sub heap0 heap) (id : Nat) :
    ∀ (cs : List Nat) (r : Option Nat),
      Hash_Node.at_loop heap0 cs id = some r → Hash_Node.at_loop heap cs id = some r
  | [], r, hr => hr
  | c :: cs, r, hr => by
    cases hc : heap0[c]? with
    | none => simp [Hash_Node.at_loop, hc] at hr
    | some n =>
      simp only [Hash_Node.at_loop, hc, h c n hc] at hr ⊢
      by_cases hid : n.id = id
      · simpa [hid] using hr
      · simp only [hid, if_false] at hr ⊢
        exact at_loop_sub h id cs r hr

theorem at_id_sub {heap0 heap : Heap} (h : Sub heap0 heap) {p id : Nat} {r : Option Nat}
    (hr : Hash_Node.at_id heap0 p id = some r) : Hash_Node.at_id heap p id = some r := by
  cases hp : heap0[p]? with
  | none => simp [Hash_Node.at_id, hp] at hr
  | some n =>
    simp only [Hash_Node.at_id, hp, h p n hp] at hr ⊢
    exact at_loop_sub h id _ r hr

theorem category_sub {heap0 heap : Heap} (h : Sub heap0 heap) {root k : Nat} {cs : List Nat}
    (hc : Scene_Hash.category heap0 root k = some cs) :
    Scene_Hash.category heap root k = some cs := by
  simp only [Scene_Hash.category, Option.bind_eq_bind, Option.bind_eq_some] at hc ⊢
  obtain ⟨r, hr, c, hc, cn, hcn, he⟩ := hc
  exact ⟨r, h _ _ hr, c, hc, cn, h _ _ hcn, he⟩

theorem node_sub {heap0 heap : Heap} (h : Sub heap0 heap) {root k i q : Nat}
    (hq : Scene_Hash.node heap0 root k i = some q) : Scene_Hash.node heap root k i = some q := by
  simp only [Scene_Hash.node, Option.bind_eq_bind, Option.bind_eq_some] at hq ⊢
  obtain ⟨cs, hcs, hi⟩ := hq
  exact ⟨cs, category_sub h hcs, hi⟩

set_option maxRecDepth 100000

/-! ## C2: `edit_node` leaves the source snapshot unchanged -/

/-- C2. `edit_node` on a node whose chain of parents is well formed returns a result, and
the snapshot it was applied to is unchanged: every allocated node is found at its
address with the same parent, children, hash and id; every stored blob is still stored
under its hash; a lookup of a child by id gives the same node; and every entity read by
position, `data.get<T>(root->children[k]->children[i]->hash)`, returns what it returned
before (for a node that carries the hash of the new value this needs that the value was
stored already or is the default, in which case `set` stores nothing).  The stored blobs
are content addressed and none of them collides with the new value. -/
theorem edit_node_source_unchanged (hash256 : Bytes → Hash) (fuel : Nat) (heap : Heap)
    (data : Data_Table) (T : TypeInfo) (node : Nat) (value : Bytes) (en : Hash_Node)
    (ps : List Nat)
    (hnode : heap[node]? = some en) (hanc : Ancestors heap en.parent ps)
    (hfuel : ps.length < fuel)
    (hstore : ∀ e ∈ data.map, e.1 = make_hash hash256 e.2)
    (hcoll : ∀ e ∈ data.map, make_hash hash256 e.2 = make_hash hash256 value → e.2 = value) :
    ∃ root1 heap1 data1,
      edit_node hash256 fuel heap data T node value = some (root1, heap1, data1) ∧
      (∀ (p : Nat) (n : Hash_Node), heap[p]? = some n → heap1[p]? = some n) ∧
      (∀ (h : Hash) (b : Bytes),
        hash_map.find data.map h = some b → hash_map.find data1.map h = some b) ∧
      (∀ (p id : Nat) (r : Option Nat),
        Hash_Node.at_id heap p id = some r → Hash_Node.at_id heap1 p id = some r) ∧
      (∀ (root k i q : Nat) (n : Hash_Node) (T1 : TypeInfo),
        Scene_Hash.node heap root k i = some q → heap[q]? = some n →
        (n.hash = make_hash hash256 value →
          hash_map.find data.map n.hash ≠ none ∨ value = T.default_value) →
        Scene_Hash.node heap1 root k i = some q ∧
        Scene_Hash.get heap1 data1 root T1 k i = Scene_Hash.get heap data root T1 k i) := by
  have hsub : Sub heap
      (heap ++ [⟨en.parent, en.children, make_hash hash256 value, en.id⟩] ++
        edit_copies hash256 heap heap.length (make_hash hash256 value) ps) :=
    ((Sub.refl heap).append _).append _
  refine ⟨_, _, _, edit_node_spec hash256 data T value hnode hanc hfuel, hsub, ?_, ?_, ?_⟩
  · intro h b hb
    rw [find_set hash256 data T value hstore hcoll h (fun _ => Or.inl (by simp [hb]))]
    exact hb
  · intro p id r hr
    exact at_id_sub hsub hr
  · intro root k i q n T1 hq hn hback
    have hq1 := node_sub hsub hq
    refine ⟨hq1, ?_⟩
    simp only [Scene_Hash.get, hq, hq1, Option.bind_eq_bind, Option.some_bind, hn, hsub q n hn,
      Data_Table.get]
    rw [find_set hash256 data T value hstore hcoll n.hash hback]

theorem sample_ancestors_camera0 : Ancestors sample_heap (some 1) [1, 0] :=
  @Ancestors.step _ 1 ⟨some 0, [8, 9], [1, 1, 1, 1, 2], 0⟩ _ (by decide) (by decide)
    (by decide)
    (@Ancestors.step _ 0
      ⟨none, [1, 2, 3, 4, 5, 6, 7],
        sample_hash256 ([1, 1, 1, 1, 2] ++ [1, 1, 3] ++ List.replicate 160 0), no_id⟩ _
      (by decide) (by decide) (by decide) Ancestors.root)

/-- C2 at the first camera (node 8) of the sample snapshot, edited to the value `[7]`. -/
theorem edit_node_source_unchanged_witness :
    ∃ root1 heap1 data1,
      edit_node sample_hash256 3 sample_heap sample_data sample_type 8 [7] =
        some (root1, heap1, data1) ∧
      (∀ (p : Nat) (n : Hash_Node), sample_heap[p]? = some n → heap1[p]? = some n) ∧
      (∀ (h : Hash) (b : Bytes),
        hash_map.find sample_data.map h = some b → hash_map.find data1.map h = some b) ∧
      (∀ (p id : Nat) (r : Option Nat),
        Hash_Node.at_id sample_heap p id = some r → Hash_Node.at_id heap1 p id = some r) ∧
      (∀ (root k i q : Nat) (n : Hash_Node) (T1 : TypeInfo),
        Scene_Hash.node sample_heap root k i = some q → sample_heap[q]? = some n →
        (n.hash = make_hash sample_hash256 [7] →
          hash_map.find sample_data.map n.hash ≠ none ∨ [7] = sample_type.default_value) →
        Scene_Hash.node heap1 root k i = some q ∧
        Scene_Hash.get heap1 data1 root T1 k i =
          Scene_Hash.get sample_heap sample_data root T1 k i) :=
  edit_node_source_unchanged sample_hash256 3 sample_heap sample_data sample_type 8 [7]
    ⟨some 1, [], [1, 1], 0⟩ [1, 0] (by decide) sample_ancestors_camera0 (by decide)
    (by decide) (by decide)

/-! ## `make_diff` on represented trees -/

theorem represents_iff (heap : Heap) (p : Nat) (t : HTree) :
    represents heap p t ↔
      ∃ n, heap[p]? = some n ∧ n.id = t.id ∧ n.hash = t.hash ∧
        represents_all heap n.children t.children := by
  cases t; simp [represents, HTree.id, HTree.hash, HTree.children]

mutual
theorem represents_sub {heap0 heap : Heap} (h : Sub heap0 heap) :
    ∀ (p : Nat) (t : HTree), represents heap0 p t → represents heap p t
  | p, .node id hash ts => by
    intro hr
    simp only [represents] at hr ⊢
    obtain ⟨n, h1, h2, h3, h4⟩ := hr
    exact ⟨n, h p n h1, h2, h3, represents_all_sub h n.children ts h4⟩
theorem represents_all_sub {heap0 heap : Heap} (h : Sub heap0 heap) :
    ∀ (ps : List Nat) (ts : List HTree), represents_all heap0 ps ts → represents_all heap ps ts
  | [], [] => by simp [represents_all]
  | p :: ps, t :: ts => by
    intro hr
    simp only [represents_all] at hr ⊢
    exact ⟨represents_sub h p t hr.1, represents_all_sub h ps ts hr.2⟩
  | [], _ :: _ => by simp [represents_all]
  | _ :: _, [] => by simp [represents_all]
end

theorem at_loop_represents {heap0 heap : Heap} (hsub : Sub heap0 heap) (id : Nat) :
    ∀ (cs : List Nat) (bs : List HTree), represents_all heap0 cs bs →
      (find_id id bs = none → Hash_Node.at_loop heap cs id = some none) ∧
      (∀ b1, find_id id bs = some b1 →
        ∃ c1, Hash_Node.at_loop heap cs id = some (some c1) ∧ represents heap0 c1 b1)
  | [], [], _ => by simp [find_id, Hash_Node.at_loop]
  | [], _ :: _, h => by simp [represents_all] at h
  | _ :: _, [], h => by simp [represents_all] at h
  | c :: cs, b :: bs, h => by
    simp only [represents_all] at h
    obtain ⟨hc, hrest⟩ := h
    have ih := at_loop_represents hsub id cs bs hrest
    obtain ⟨n, hn, hid, -, -⟩ := (represents_iff heap0 c b).mp hc
    by_cases hb : b.id = id
    · have hnid : n.id = id := by rw [hid, hb]
      simp only [find_id, hb, if_true, Hash_Node.at_loop, hsub c n hn, hnid]
      refine ⟨by simp, ?_⟩
      intro b1 hb1
      cases hb1
      exact ⟨c, rfl, hc⟩
    · have hnid : ¬ n.id = id := by rw [hid]; exact hb
      simp only [find_id, hb, if_false, Hash_Node.at_loop, hsub c n hn, hnid]
      exact ih

theorem set_self {heap : Heap} {d : Nat} {dn : Hash_Node} (h : heap[d]? = some dn) :
    heap.set d dn = heap := by
  apply List.ext_getElem?
  intro i
  rw [List.getElem?_set]
  by_cases hi : d = i
  · subst hi; simp [h, lt_of_get h]
  · simp [hi]

theorem get_set_self {heap : Heap} {d : Nat} {dn : Hash_Node} (x : Hash_Node)
    (h : heap[d]? = some dn) : (heap.set d x)[d]? = some x := by
  rw [List.getElem?_set]; simp [lt_of_get h]

/-- `add_node(d, id)` followed by `node->hash = hash`. -/
theorem emit_spec {heap : Heap} {d : Nat} {dn : Hash_Node} (hd : heap[d]? = some dn)
    (id : Nat) (hash : Hash) :
    add_node heap d id =
        some ((heap ++ [Hash_Node.mk (some d) [] invalid_hash id]).set d
          (Hash_Node.mk dn.parent (dn.children ++ [heap.length]) dn.hash dn.id), heap.length) ∧
      set_hash ((heap ++ [Hash_Node.mk (some d) [] invalid_hash id]).set d
          (Hash_Node.mk dn.parent (dn.children ++ [heap.length]) dn.hash dn.id))
          heap.length hash =
        some (heap.set d (Hash_Node.mk dn.parent (dn.children ++ [heap.length]) dn.hash dn.id) ++
          [Hash_Node.mk (some d) [] hash id]) := by
  have hlt := lt_of_get hd
  constructor
  · simp only [add_node, hd, Hash_Node.init]
  · rw [List.set_append_left _ _ hlt]
    have h2 := get_last
      (heap.set d (Hash_Node.mk dn.parent (dn.children ++ [heap.length]) dn.hash dn.id))
      (Hash_Node.mk (some d) [] invalid_hash id)
    rw [List.length_set] at h2
    simp only [set_hash, h2]
    rw [List.set_append_right _ _ (by simp)]
    simp

theorem sub_set_append {heap0 heap : Heap} (h : Sub heap0 heap) {d : Nat}
    (hd : heap0.length ≤ d) (x : Hash_Node) (ext : Heap) : Sub heap0 (heap.set d x ++ ext) := by
  intro p n hp
  have hlt := lt_of_get hp
  apply get_append_of_get
  rw [List.getElem?_set]
  have hne : ¬ d = p := by omega
  simp only [hne, if_false]
  exact h p n hp

theorem with_new_children_nil {heap : Heap} {d : Nat} {dn : Hash_Node}
    (h : heap[d]? = some dn) : with_new_children heap d dn [] = heap := by
  simp only [with_new_children, List.length_nil, List.range'_zero, List.append_nil]
  exact set_self h

theorem with_new_children_cons {heap : Heap} {d : Nat} (dn : Hash_Node) (hlt : d < heap.length)
    (x : Hash_Node) (nodes : List Hash_Node) :
    with_new_children
        (heap.set d (Hash_Node.mk dn.parent (dn.children ++ [heap.length]) dn.hash dn.id) ++ [x])
        d (Hash_Node.mk dn.parent (dn.children ++ [heap.length]) dn.hash dn.id) nodes =
      with_new_children heap d dn (x :: nodes) := by
  simp only [with_new_children, List.length_append, List.length_set, List.length_singleton,
    List.length_cons]
  rw [List.set_append_left _ _ (by rw [List.length_set]; exact hlt), List.set_set,
    List.range'_succ]
  simp

theorem make_diff_children_spec {heap0 : Heap} {b d : Nat} {tb : HTree}
    (hb : represents heap0 b tb) (hd : heap0.length ≤ d) :
    ∀ (as : List HTree) (cs : List Nat) (heap : Heap) (dn : Hash_Node),
      Sub heap0 heap → represents_all heap0 cs as → heap[d]? = some dn →
      ∃ pushed,
        make_diff_children heap b d cs =
          some (with_new_children heap d dn (diff_nodes d (diff_scan tb.children as)),
            pushed) ∧
        (match (diff_scan tb.children as).2 with
         | none => pushed = none
         | some (a, b1) =>
           ∃ c0 c1, pushed = some (c0, c1, heap.length + (diff_scan tb.children as).1.length) ∧
             represents heap0 c0 a ∧ represents heap0 c1 b1)
  | [], [], heap, dn, _, _, hdn => by
    refine ⟨none, ?_, ?_⟩
    · simp only [make_diff_children, diff_scan, diff_nodes, List.map_nil, List.append_nil]
      rw [with_new_children_nil hdn]
    · simp [diff_scan]
  | [], _ :: _, _, _, _, h, _ => by simp [represents_all] at h
  | _ :: _, [], _, _, _, h, _ => by simp [represents_all] at h
  | a :: rest, c :: cs, heap, dn, hsub, h, hdn => by
    simp only [represents_all] at h
    obtain ⟨hc, hrest⟩ := h
    obtain ⟨n0, hn0, hid0, hh0, -⟩ := (represents_iff heap0 c a).mp hc
    obtain ⟨nb, hnb, -, -, hbs⟩ := (represents_iff heap0 b tb).mp hb
    have hat := at_loop_represents hsub a.id nb.children tb.children hbs
    have hlt := lt_of_get hdn
    cases hf : find_id a.id tb.children with
    | none =>
      have hat1 := hat.1 hf
      obtain ⟨e1, e2⟩ := emit_spec hdn a.id invalid_hash
      have hsub1 : Sub heap0 (heap.set d
          (Hash_Node.mk dn.parent (dn.children ++ [heap.length]) dn.hash dn.id) ++
          [Hash_Node.mk (some d) [] invalid_hash a.id]) := sub_set_append hsub hd _ _
      have hdn1 : (heap.set d
          (Hash_Node.mk dn.parent (dn.children ++ [heap.length]) dn.hash dn.id) ++
          [Hash_Node.mk (some d) [] invalid_hash a.id])[d]? =
          some (Hash_Node.mk dn.parent (dn.children ++ [heap.length]) dn.hash dn.id) :=
        get_append_of_get _ (get_set_self _ hdn)
      obtain ⟨pushed, ih1, ih2⟩ := make_diff_children_spec hb hd rest cs _ _ hsub1 hrest hdn1
      refine ⟨pushed, ?_, ?_⟩
      · simp only [make_diff_children, hsub c n0 hn0, Hash_Node.at_id, hsub b nb hnb, hid0, hat1,
          e1, e2, ih1]
        rw [with_new_children_cons dn hlt]
        simp only [diff_scan, hf, diff_nodes, List.map_cons, List.cons_append]
      · simp only [diff_scan, hf]
        cases hs : (diff_scan tb.children rest).2 with
        | none => simpa [hs] using ih2
        | some ab =>
          obtain ⟨a1, b1⟩ := ab
          simp only [hs] at ih2 ⊢
          obtain ⟨c0, c1, e, r0, r1⟩ := ih2
          refine ⟨c0, c1, ?_, r0, r1⟩
          rw [e]
          simp only [List.length_append, List.length_set, List.length_singleton,
            List.length_cons, List.length_nil, Nat.zero_add, Nat.add_assoc, Nat.add_comm 1]
    | some b1 =>
      obtain ⟨c1, hat1, hc1⟩ := hat.2 b1 hf
      obtain ⟨n1, hn1, -, hh1, -⟩ := (represents_iff heap0 c1 b1).mp hc1
      by_cases heq : a.hash = b1.hash
      · have heq' : n0.hash = n1.hash := by rw [hh0, hh1, heq]
        obtain ⟨pushed, ih1, ih2⟩ := make_diff_children_spec hb hd rest cs heap dn hsub hrest hdn
        refine ⟨pushed, ?_, ?_⟩
        · simp only [make_diff_children, hsub c n0 hn0, Hash_Node.at_id, hsub b nb hnb, hid0,
            hat1, hsub c1 n1 hn1, heq', if_true, ih1]
          simp only [diff_scan, hf, heq, if_true]
        · simpa only [diff_scan, hf, heq, if_true] using ih2
      · have heq' : ¬ n0.hash = n1.hash := by rw [hh0, hh1]; exact heq
        obtain ⟨e1, e2⟩ := emit_spec hdn a.id n1.hash
        refine ⟨some (c, c1, heap.length), ?_, ?_⟩
        · simp only [make_diff_children, hsub c n0 hn0, Hash_Node.at_id, hsub b nb hnb, hid0,
            hat1, hsub c1 n1 hn1, heq', if_false, e1, e2]
          simp [diff_scan, hf, heq, diff_nodes, hh1, with_new_children]
        · simp only [diff_scan, hf, heq, if_false]
          exact ⟨c, c1, by simp, hc, hc1⟩

theorem diff_below_eq (bs : List HTree) (a : HTree) :
    diff_below bs a = diff_trees bs a.children := by
  cases a; simp [diff_below, HTree.children]

theorem diff_trees_scan (bs : List HTree) :
    ∀ as : List HTree,
      diff_trees bs as =
        (diff_scan bs as).1.map (fun id => HTree.node id invalid_hash []) ++
          match (diff_scan bs as).2 with
          | none => []
          | some (a, b) => [HTree.node a.id b.hash (diff_trees b.children a.children)]
  | [] => by simp [diff_trees, diff_scan]
  | a :: rest => by
    have ih := diff_trees_scan bs rest
    cases hf : find_id a.id bs with
    | none => simp only [diff_trees, diff_scan, hf, List.map_cons, List.cons_append, ih]
    | some b =>
      by_cases heq : a.hash = b.hash
      · simp only [diff_trees, diff_scan, hf, heq, if_true, ih]
      · simp [diff_trees, diff_scan, hf, heq, diff_below_eq]

theorem height_children (t : HTree) : height_all t.children + 1 = t.height := by
  cases t; simp [HTree.height, HTree.children]

theorem diff_scan_height (bs : List HTree) :
    ∀ (as : List HTree) (a b : HTree),
      (diff_scan bs as).2 = some (a, b) → a.height ≤ height_all as
  | [], a, b, h => by simp [diff_scan] at h
  | x :: rest, a, b, h => by
    have ih := diff_scan_height bs rest a b
    cases hf : find_id x.id bs with
    | none =>
      simp only [diff_scan, hf] at h
      simp only [height_all]
      exact Nat.le_trans (ih h) (Nat.le_max_right _ _)
    | some y =>
      by_cases heq : x.hash = y.hash
      · simp only [diff_scan, hf, heq, if_true] at h
        simp only [height_all]
        exact Nat.le_trans (ih h) (Nat.le_max_right _ _)
      · simp only [diff_scan, hf, heq, if_false, Option.some.injEq, Prod.mk.injEq] at h
        simp only [height_all, ← h.1]
        exact Nat.le_max_left _ _

theorem with_new_children_length (heap : Heap) (d : Nat) (dn : Hash_Node)
    (nodes : List Hash_Node) :
    (with_new_children heap d dn nodes).length = heap.length + nodes.length := by
  simp [with_new_children]

theorem with_new_children_old {heap : Heap} {d : Nat} (dn : Hash_Node) (nodes : List Hash_Node)
    {q : Nat} (hq : q < heap.length) (hne : q ≠ d) :
    (with_new_children heap d dn nodes)[q]? = heap[q]? := by
  unfold with_new_children
  rw [List.getElem?_append_left (by rw [List.length_set]; exact hq), List.getElem?_set]
  simp [Ne.symm hne]

theorem with_new_children_parent {heap : Heap} {d : Nat} (dn : Hash_Node)
    (nodes : List Hash_Node) (hd : d < heap.length) :
    (with_new_children heap d dn nodes)[d]? =
      some (Hash_Node.mk dn.parent (dn.children ++ List.range' heap.length nodes.length)
        dn.hash dn.id) := by
  unfold with_new_children
  rw [List.getElem?_append_left (by rw [List.length_set]; exact hd), List.getElem?_set]
  simp [hd]

theorem with_new_children_new (heap : Heap) (d : Nat) (dn : Hash_Node) (nodes : List Hash_Node)
    (j : Nat) : (with_new_children heap d dn nodes)[heap.length + j]? = nodes[j]? := by
  unfold with_new_children
  rw [List.getElem?_append_right (by rw [List.length_set]; omega), List.length_set]
  simp

theorem represents_all_range (heap : Heap) :
    ∀ (trees : List HTree) (start : Nat),
      (∀ j t, trees[j]? = some t → represents heap (start + j) t) →
      represents_all heap (List.range' start trees.length) trees
  | [], _, _ => by simp [represents_all]
  | t :: ts, start, h => by
    simp only [List.length_cons, List.range'_succ, represents_all]
    refine ⟨by simpa using h 0 t (by simp), ?_⟩
    apply represents_all_range heap ts (start + 1)
    intro j t1 hj
    have := h (j + 1) t1 (by simpa using hj)
    rwa [show start + (j + 1) = start + 1 + j by omega] at this

theorem represents_all_nil_iff (heap : Heap) (ps : List Nat) :
    represents_all heap ps [] ↔ ps = [] := by
  cases ps <;> simp [represents_all]

/-- One run of the loop of `make_diff` from a stack holding the pair of the represented
trees `ta` and `tb` and the diff node `d`: the new children of `d` represent the diff of
the two trees, and nothing else that was allocated before is changed. -/
theorem make_diff_loop_spec (heap0 : Heap) :
    ∀ (fuel : Nat) (ta tb : HTree) (a b d : Nat) (heap : Heap) (dn : Hash_Node),
      Sub heap0 heap → represents heap0 a ta → represents heap0 b tb → heap0.length ≤ d →
      heap[d]? = some dn → ta.height ≤ fuel →
      ∃ heap1 new,
        make_diff_loop fuel heap [(a, b, d)] = some heap1 ∧ Sub heap0 heap1 ∧
        heap.length ≤ heap1.length ∧
        (∀ q, q < heap.length → q ≠ d → heap1[q]? = heap[q]?) ∧
        heap1[d]? = some (Hash_Node.mk dn.parent (dn.children ++ new) dn.hash dn.id) ∧
        represents_all heap1 new (diff_trees tb.children ta.children) := by
  intro fuel
  induction fuel with
  | zero =>
    intro ta tb a b d heap dn _ _ _ _ _ hfuel
    have := height_children ta
    omega
  | succ fuel ih =>
    intro ta tb a b d heap dn hsub ha hb hd hdn hfuel
    obtain ⟨n0, hn0, -, -, hcs⟩ := (represents_iff heap0 a ta).mp ha
    have hlt := lt_of_get hdn
    obtain ⟨pushed, hrun, hpushed⟩ :=
      make_diff_children_spec hb hd ta.children n0.children heap dn hsub hcs hdn
    have hscan := diff_trees_scan tb.children ta.children
    have hsub1 : Sub heap0
        (with_new_children heap d dn (diff_nodes d (diff_scan tb.children ta.children))) :=
      sub_set_append hsub hd _ _
    cases hs : (diff_scan tb.children ta.children).2 with
    | none =>
      simp only [hs] at hpushed hscan
      subst hpushed
      refine ⟨_, List.range' heap.length
        (diff_nodes d (diff_scan tb.children ta.children)).length, ?_, hsub1, ?_, ?_, ?_, ?_⟩
      · simp only [make_diff_loop, hsub a n0 hn0, hrun]
      · rw [with_new_children_length]; omega
      · intro q hq hne
        exact with_new_children_old dn _ hq hne
      · exact with_new_children_parent dn _ hlt
      · rw [hscan]
        have hlen : (diff_nodes d (diff_scan tb.children ta.children)).length =
            ((diff_scan tb.children ta.children).1.map
              (fun id => HTree.node id invalid_hash []) ++ []).length := by
          simp [diff_nodes, hs]
        rw [hlen]
        apply represents_all_range
        intro j t ht
        simp only [List.append_nil, List.getElem?_map, Option.map_eq_some'] at ht
        obtain ⟨id, hid, rfl⟩ := ht
        simp only [represents]
        refine ⟨Hash_Node.mk (some d) [] invalid_hash id, ?_, rfl, rfl, ?_⟩
        · rw [with_new_children_new]
          simp [diff_nodes, hs, hid]
        · simp [represents_all]
    | some ab =>
      obtain ⟨a1, b1⟩ := ab
      simp only [hs] at hpushed hscan
      obtain ⟨c0, c1, rfl, hc0, hc1⟩ := hpushed
      have hnodes : diff_nodes d (diff_scan tb.children ta.children) =
          (diff_scan tb.children ta.children).1.map
            (fun id => Hash_Node.mk (some d) [] invalid_hash id) ++
            [Hash_Node.mk (some d) [] b1.hash a1.id] := by
        simp [diff_nodes, hs]
      have he : (with_new_children heap d dn (diff_nodes d (diff_scan tb.children ta.children)))[
          heap.length + (diff_scan tb.children ta.children).1.length]? =
          some (Hash_Node.mk (some d) [] b1.hash a1.id) := by
        rw [with_new_children_new, hnodes]
        rw [List.getElem?_append_right (by simp)]
        simp
      have hheight : a1.height ≤ fuel := by
        have h1 := diff_scan_height tb.children ta.children a1 b1 hs
        have h2 := height_children ta
        omega
      obtain ⟨heap2, new2, hrun2, hsub2, hlen2, hframe2, he2, hrep2⟩ :=
        ih a1 b1 c0 c1 (heap.length + (diff_scan tb.children ta.children).1.length)
          _ _ hsub1 hc0 hc1 (by have := hsub.length_le; omega) he hheight
      have hlen1 : (with_new_children heap d dn
          (diff_nodes d (diff_scan tb.children ta.children))).length =
          heap.length + ((diff_scan tb.children ta.children).1.length + 1) := by
        rw [with_new_children_length, hnodes]; simp
      refine ⟨heap2, List.range' heap.length
        (diff_nodes d (diff_scan tb.children ta.children)).length, ?_, hsub2, ?_, ?_, ?_, ?_⟩
      · simp only [make_diff_loop, hsub a n0 hn0, hrun, hrun2]
      · omega
      · intro q hq hne
        rw [hframe2 q (by omega) (by omega)]
        exact with_new_children_old dn _ hq hne
      · rw [hframe2 d (by omega) (by omega)]
        exact with_new_children_parent dn _ hlt
      · rw [hscan]
        have hlen : (diff_nodes d (diff_scan tb.children ta.children)).length =
            ((diff_scan tb.children ta.children).1.map
              (fun id => HTree.node id invalid_hash []) ++
              [HTree.node a1.id b1.hash (diff_trees b1.children a1.children)]).length := by
          simp [hnodes]
        rw [hlen]
        apply represents_all_range
        intro j t ht
        rcases Nat.lt_or_ge j (diff_scan tb.children ta.children).1.length with hj | hj
        · rw [List.getElem?_append_left (by simpa using hj)] at ht
          simp only [List.getElem?_map, Option.map_eq_some'] at ht
          obtain ⟨id, hid, rfl⟩ := ht
          simp only [represents]
          refine ⟨Hash_Node.mk (some d) [] invalid_hash id, ?_, rfl, rfl, ?_⟩
          · rw [hframe2 _ (by omega) (by omega), with_new_children_new, hnodes,
              List.getElem?_append_left (by simpa using hj)]
            simp [hid]
          · simp [represents_all]
        · rw [List.getElem?_append_right (by simpa using hj)] at ht
          simp only [List.length_map] at ht
          cases hk : j - (diff_scan tb.children ta.children).1.length with
          | succ k => simp [hk] at ht
          | zero =>
            have hj0 : j = (diff_scan tb.children ta.children).1.length := by omega
            simp only [hk, List.getElem?_cons_zero, Option.some.injEq] at ht
            subst ht
            rw [hj0]
            simp only [represents]
            exact ⟨_, he2, rfl, rfl, by simpa using hrep2⟩

/-! ## C10: every diff node is justified -/

theorem diff_trees_mem (bs : List HTree) :
    ∀ (rest : List HTree) (d : HTree), d ∈ diff_trees bs rest →
      ∃ c, c ∈ rest ∧ c.id = d.id ∧
        (find_id c.id bs = none ∨ ∃ c1, find_id c.id bs = some c1 ∧ c.hash ≠ c1.hash)
  | [], d, h => by simp [diff_trees] at h
  | a :: rest, d, h => by
    have ih := diff_trees_mem bs rest d
    cases hf : find_id a.id bs with
    | none =>
      simp only [diff_trees, hf, List.mem_cons] at h
      rcases h with h | h
      · subst h
        exact ⟨a, List.mem_cons_self _ _, rfl, Or.inl hf⟩
      · obtain ⟨c, hc, h1, h2⟩ := ih h
        exact ⟨c, List.mem_cons_of_mem _ hc, h1, h2⟩
    | some b =>
      by_cases heq : a.hash = b.hash
      · simp only [diff_trees, hf, heq, if_true] at h
        obtain ⟨c, hc, h1, h2⟩ := ih h
        exact ⟨c, List.mem_cons_of_mem _ hc, h1, h2⟩
      · simp only [diff_trees, hf, heq, if_false, List.mem_singleton] at h
        subst h
        exact ⟨a, List.mem_cons_self _ _, rfl, Or.inr ⟨b, hf, heq⟩⟩

theorem diff_trees_pruned (as bs rest : List HTree) (hu : (as.map HTree.id).Nodup)
    (hsub : ∀ c ∈ rest, c ∈ as) : diff_pruned as bs (diff_trees bs rest) := by
  intro c hc c1 hf heq d hd hid
  obtain ⟨c2, hc2, hid2, h2⟩ := diff_trees_mem bs rest d hd
  have hsame : c2 = c :=
    List.inj_on_of_nodup_map hu (hsub c2 hc2) hc (by rw [hid2, hid])
  subst hsame
  rcases h2 with h2 | ⟨c3, h3, h4⟩
  · rw [h2] at hf; cases hf
  · rw [h3] at hf
    cases hf
    exact h4 heq

theorem unique_ids_iff (t : HTree) :
    t.unique_ids = true ↔
      (t.children.map HTree.id).Nodup ∧ unique_ids_all t.children = true := by
  cases t; simp [HTree.unique_ids, HTree.children]

theorem diff_trees_sound :
    ∀ (rest as bs : List HTree), (∀ c ∈ rest, c ∈ as) → unique_ids_all rest = true →
      diff_sound as bs (diff_trees bs rest)
  | [], _, _, _, _ => by simp [diff_trees, diff_sound]
  | a :: rest, as, bs, hsub, hu => by
    simp only [unique_ids_all, Bool.and_eq_true] at hu
    have ih := diff_trees_sound rest as bs
      (fun c hc => hsub c (List.mem_cons_of_mem _ hc)) hu.2
    have ha : a ∈ as := hsub a (List.mem_cons_self _ _)
    cases hf : find_id a.id bs with
    | none =>
      simp only [diff_trees, hf]
      simp only [diff_sound, diff_node_sound]
      refine ⟨⟨a, ha, rfl, Or.inl ?_⟩, ih⟩
      simp [hf]
    | some b =>
      by_cases heq : a.hash = b.hash
      · simpa only [diff_trees, hf, heq, if_true] using ih
      · simp only [diff_trees, hf, heq, if_false]
        simp only [diff_sound, diff_node_sound, and_true]
        have hua := (unique_ids_iff a).mp hu.1
        refine ⟨a, ha, rfl, Or.inr ⟨b, hf, rfl, heq, ?_, ?_⟩⟩
        · rw [diff_below_eq]
          exact diff_trees_pruned _ _ _ hua.1 (fun c hc => hc)
        · rw [diff_below_eq]
          cases a with
          | node id h cs =>
            exact diff_trees_sound cs cs b.children (fun c hc => hc) hua.2

theorem all_some_represents {heap : Heap} {f : Nat → Option HTree}
    (hf : ∀ p t, f p = some t → represents heap p t) :
    ∀ (ps : List Nat) (ts : List HTree), all_some f ps = some ts → represents_all heap ps ts
  | [], ts, h => by
    simp only [all_some, Option.some.injEq] at h
    subst h
    simp [represents_all]
  | p :: ps, ts, h => by
    cases h1 : f p with
    | none => simp [all_some, h1] at h
    | some t =>
      cases h2 : all_some f ps with
      | none => simp [all_some, h1, h2] at h
      | some ts1 =>
        simp only [all_some, h1, h2, Option.some.injEq] at h
        subst h
        simp only [represents_all]
        exact ⟨hf p t h1, all_some_represents hf ps ts1 h2⟩

theorem tree_at_represents (heap : Heap) :
    ∀ (fuel p : Nat) (t : HTree), tree_at heap fuel p = some t → represents heap p t
  | 0, _, _, h => by simp [tree_at] at h
  | fuel + 1, p, t, h => by
    cases h1 : heap[p]? with
    | none => simp [tree_at, h1] at h
    | some n =>
      cases h2 : all_some (tree_at heap fuel) n.children with
      | none => simp [tree_at, h1, h2] at h
      | some ts =>
        simp only [tree_at, h1, h2, Option.some.injEq] at h
        subst h
        simp only [represents]
        exact ⟨n, h1, rfl, rfl,
          all_some_represents (tree_at_represents heap fuel) n.children ts h2⟩


theorem tree_at_getD (heap : Heap) (fuel p : Nat) (t0 : HTree)
    (h : (tree_at heap fuel p).isSome = true) :
    represents heap p ((tree_at heap fuel p).getD t0) := by
  cases ht : tree_at heap fuel p with
  | none => simp [ht] at h
  | some t => exact tree_at_represents heap fuel p t ht

/-- `make_diff` on two represented trees returns a diff root whose tree is the diff of
the trees, and leaves every node of the heap unchanged. -/
theorem make_diff_spec {heap : Heap} {r0 r1 : Nat} {ta tb : HTree} {fuel : Nat}
    (ha : represents heap r0 ta) (hb : represents heap r1 tb) (hfuel : ta.height ≤ fuel) :
    ∃ heap1, make_diff fuel heap r0 r1 = some (heap1, heap.length) ∧ Sub heap heap1 ∧
      represents heap1 heap.length
        (HTree.node no_id invalid_hash (diff_trees tb.children ta.children)) := by
  obtain ⟨heap1, new, hrun, hsub, -, -, hd, hrep⟩ :=
    make_diff_loop_spec heap fuel ta tb r0 r1 heap.length (heap ++ [Hash_Node.init])
      Hash_Node.init ((Sub.refl heap).append _) ha hb (Nat.le_refl _)
      (get_last heap Hash_Node.init) hfuel
  refine ⟨heap1, ?_, hsub, ?_⟩
  · simp only [make_diff, hrun]
  · simp only [represents]
    exact ⟨_, hd, rfl, rfl, by simpa [Hash_Node.init] using hrep⟩

/-- C10. On two represented trees, the first with sibling-unique ids, `make_diff` (with
fuel for the height of the first tree) returns a diff root, and every node below the
diff root is justified: it carries the id of a child `c` of the visited node of the
first tree and is either a childless tombstone with hash `invalid_hash`, the visited
node of the second tree having no child with that id, or carries the hash of the child
with that id, which differs from the hash of `c`, and what lies below it is justified in
the same way by the pair of the two children; a child whose partner has the same hash
has no diff node at all.  (The ids of the second tree need not be unique.) -/
theorem make_diff_sound (fuel : Nat) (heap : Heap) (r0 r1 : Nat) (ta tb : HTree)
    (ha : represents heap r0 ta) (hb : represents heap r1 tb)
    (hu : ta.unique_ids = true) (hfuel : ta.height ≤ fuel) :
    ∃ heap1 ds, make_diff fuel heap r0 r1 = some (heap1, heap.length) ∧
      represents heap1 heap.length (HTree.node no_id invalid_hash ds) ∧
      diff_sound ta.children tb.children ds ∧ diff_pruned ta.children tb.children ds := by
  obtain ⟨heap1, hrun, -, hrep⟩ := make_diff_spec ha hb hfuel
  have hua := (unique_ids_iff ta).mp hu
  exact ⟨heap1, _, hrun, hrep,
    diff_trees_sound ta.children ta.children tb.children (fun c hc => hc) hua.2,
    diff_trees_pruned _ _ _ hua.1 (fun c hc => hc)⟩

/-- C10 on the sample snapshot (root 0) and its edited version (root 13). -/
theorem make_diff_sound_witness :
    ∃ heap1 ds, make_diff 3 sample_heap1 0 13 = some (heap1, sample_heap1.length) ∧
      represents heap1 sample_heap1.length (HTree.node no_id invalid_hash ds) ∧
      diff_sound sample_tree.children sample_tree1.children ds ∧
      diff_pruned sample_tree.children sample_tree1.children ds :=
  make_diff_sound 3 sample_heap1 0 13 sample_tree sample_tree1
    (tree_at_getD sample_heap1 4 0 _ (by decide!))
    (tree_at_getD sample_heap1 4 13 _ (by decide!)) (by decide!) (by decide!)

/-! ## `update_node_hash` on a represented tree -/

theorem reaches_ge {heap : Heap} {base : Nat} (hf : forest_from heap base) {c q : Nat}
    (hc : base ≤ c) (h : reaches heap c q) : c ≤ q := by
  induction h with
  | self => exact Nat.le_refl _
  | child _ hn hmem ih =>
    have := ((hf _ _ (Nat.le_trans hc ih) hn).2 _ hmem).1
    omega

theorem reaches_parent {heap : Heap} {base : Nat} (hf : forest_from heap base) {c q : Nat}
    (hc : base ≤ c) (h : reaches heap c q) :
    q = c ∨ ∃ q1 nq, reaches heap c q1 ∧ heap[q]? = some nq ∧ nq.parent = some q1 ∧ q1 < q := by
  cases h with
  | self => exact Or.inl rfl
  | child hr hn hmem =>
    rename_i q1 n1
    obtain ⟨hlt, cn, hcn, hpar⟩ := (hf _ _ (Nat.le_trans hc (reaches_ge hf hc hr)) hn).2 _ hmem
    exact Or.inr ⟨q1, cn, hr, hcn, hpar, hlt⟩

/-- Two distinct children of one node reach no common node. -/
theorem reaches_disjoint {heap : Heap} {base : Nat} (hf : forest_from heap base)
    {p c1 c2 : Nat} {n1 n2 : Hash_Node} (hb1 : base ≤ c1) (hb2 : base ≤ c2)
    (h1 : heap[c1]? = some n1) (h2 : heap[c2]? = some n2)
    (hp1 : n1.parent = some p) (hp2 : n2.parent = some p) (hlt1 : p < c1) (hlt2 : p < c2)
    (hne : c1 ≠ c2) : ∀ q, reaches heap c1 q → reaches heap c2 q → False := by
  intro q
  induction q using Nat.strong_induction_on with
  | _ q ih =>
    intro r1 r2
    rcases reaches_parent hf hb1 r1 with e1 | ⟨q1, nq1, rq1, hq1, hpq1, hlq1⟩
    · rcases reaches_parent hf hb2 r2 with e2 | ⟨q2, nq2, rq2, hq2, hpq2, _⟩
      · exact hne (e1.symm.trans e2)
      · subst e1
        rw [h1] at hq2
        cases hq2
        rw [hp1] at hpq2
        cases hpq2
        have := reaches_ge hf hb2 rq2
        omega
    · rcases reaches_parent hf hb2 r2 with e2 | ⟨q2, nq2, rq2, hq2, hpq2, _⟩
      · subst e2
        rw [h2] at hq1
        cases hq1
        rw [hp2] at hpq1
        cases hpq1
        have := reaches_ge hf hb1 rq1
        omega
      · rw [hq1] at hq2
        cases hq2
        rw [hpq1] at hpq2
        cases hpq2
        exact ih q1 hlq1 rq1 rq2

theorem same_shape.same (heap : Heap) : same_shape heap heap :=
  ⟨rfl, fun _ n h => ⟨n, h, rfl, rfl, rfl⟩⟩

theorem same_shape.chain {a b c : Heap} (h1 : same_shape a b) (h2 : same_shape b c) :
    same_shape a c := by
  refine ⟨h2.1.trans h1.1, ?_⟩
  intro q n hq
  obtain ⟨n1, hn1, e1, e2, e3⟩ := h1.2 q n hq
  obtain ⟨n2, hn2, f1, f2, f3⟩ := h2.2 q n1 hn1
  exact ⟨n2, hn2, f1.trans e1, f2.trans e2, f3.trans e3⟩

theorem same_shape.symm {a b : Heap} (h : same_shape a b) : same_shape b a := by
  refine ⟨h.1.symm, ?_⟩
  intro q n hq
  have hlt : q < a.length := by have := lt_of_get hq; rw [h.1] at this; exact this
  obtain ⟨n1, hn1, e1, e2, e3⟩ := h.2 q a[q] (List.getElem?_eq_getElem hlt)
  rw [hq] at hn1
  cases hn1
  exact ⟨a[q], List.getElem?_eq_getElem hlt, e1.symm, e2.symm, e3.symm⟩

theorem same_shape.forest {a b : Heap} (h : same_shape a b) {base : Nat}
    (hf : forest_from a base) : forest_from b base := by
  intro p n hp hn
  obtain ⟨n0, hn0, e1, e2, e3⟩ := h.symm.2 p n hn
  obtain ⟨hnd, hch⟩ := hf p n0 hp hn0
  rw [e2] at hnd hch
  refine ⟨hnd, ?_⟩
  intro c hc
  obtain ⟨hlt, cn, hcn, hpar⟩ := hch c hc
  obtain ⟨cn1, hcn1, f1, -, -⟩ := h.2 c cn hcn
  exact ⟨hlt, cn1, hcn1, f1.trans hpar⟩

theorem same_shape.reaches {a b : Heap} (h : same_shape a b) {p q : Nat}
    (hr : reaches a p q) : reaches b p q := by
  induction hr with
  | self => exact reaches.self
  | child _ hn hmem ih =>
    obtain ⟨n1, hn1, -, e2, -⟩ := h.2 _ _ hn
    exact reaches.child ih hn1 (by rw [e2]; exact hmem)

theorem reaches_trans_child {heap : Heap} {p c q : Nat} {n : Hash_Node}
    (hn : heap[p]? = some n) (hc : c ∈ n.children) (h : reaches heap c q) :
    reaches heap p q := by
  induction h with
  | self => exact reaches.child reaches.self hn hc
  | child _ hn1 hmem ih => exact reaches.child ih hn1 hmem

mutual
theorem represents_frame {heap heap1 : Heap} :
    ∀ (c : Nat) (t : HTree), represents heap c t →
      (∀ q, reaches heap c q → heap1[q]? = heap[q]?) → represents heap1 c t
  | c, .node id hash ts => by
    intro hr hfr
    simp only [represents] at hr ⊢
    obtain ⟨n, h1, h2, h3, h4⟩ := hr
    refine ⟨n, by rw [hfr c reaches.self]; exact h1, h2, h3, ?_⟩
    exact represents_all_frame n.children ts h4
      (fun c1 hc1 q hq => hfr q (reaches_trans_child h1 hc1 hq))
theorem represents_all_frame {heap heap1 : Heap} :
    ∀ (cs : List Nat) (ts : List HTree), represents_all heap cs ts →
      (∀ c ∈ cs, ∀ q, reaches heap c q → heap1[q]? = heap[q]?) → represents_all heap1 cs ts
  | [], [], _, _ => by simp [represents_all]
  | c :: cs, t :: ts, hr, hfr => by
    simp only [represents_all] at hr ⊢
    exact ⟨represents_frame c t hr.1 (hfr c (List.mem_cons_self _ _)),
      represents_all_frame cs ts hr.2 (fun c1 hc1 => hfr c1 (List.mem_cons_of_mem _ hc1))⟩
  | [], _ :: _, hr, _ => by simp [represents_all] at hr
  | _ :: _, [], hr, _ => by simp [represents_all] at hr
end

theorem represents_all_children_nil {heap : Heap} {c : Nat} {t : HTree} {n : Hash_Node}
    (hr : represents heap c t) (hn : heap[c]? = some n) : n.children = [] ↔ t.children = [] := by
  obtain ⟨n1, hn1, -, -, hall⟩ := (represents_iff heap c t).mp hr
  rw [hn] at hn1
  cases hn1
  constructor
  · intro h
    rw [h] at hall
    cases hts : t.children with
    | nil => rfl
    | cons a b => rw [hts] at hall; simp [represents_all] at hall
  · intro h
    rw [h] at hall
    exact (represents_all_nil_iff heap n.children).mp hall

theorem rehash_leaf (hash256 : Bytes → Hash) (t : HTree) (h : t.children = []) :
    rehash hash256 t = t := by
  cases t with
  | node id hash ts =>
    simp only [HTree.children] at h
    subst h
    simp [rehash]

theorem rehash_node (hash256 : Bytes → Hash) (t : HTree) (h : t.children ≠ []) :
    rehash hash256 t =
      HTree.node t.id (make_hash hash256 (hashes_of (rehash_all hash256 t.children)))
        (rehash_all hash256 t.children) := by
  cases t with
  | node id hash ts =>
    cases ts with
    | nil => exact absurd rfl h
    | cons a b => simp [rehash, HTree.id, HTree.children]

theorem children_hashes_represents {heap : Heap} :
    ∀ (cs : List Nat) (ts : List HTree), represents_all heap cs ts →
      children_hashes heap cs = some (hashes_of ts)
  | [], [], _ => by simp [children_hashes, hashes_of]
  | c :: cs, t :: ts, h => by
    simp only [represents_all] at h
    obtain ⟨n, hn, -, hh, -⟩ := (represents_iff heap c t).mp h.1
    simp [children_hashes, hn, children_hashes_represents cs ts h.2, hashes_of, hh]
  | [], _ :: _, h => by simp [represents_all] at h
  | _ :: _, [], h => by simp [represents_all] at h

/-- The first loop of `update_node_hash` over pairwise distinct children of one node. -/
theorem update_children_spec (hash256 : Bytes → Hash) (base fuel : Nat)
    (ih : ∀ (t : HTree) (heap : Heap) (p : Nat), forest_from heap base → base ≤ p →
      represents heap p t → t.children ≠ [] → t.height ≤ fuel + 1 →
      ∃ heap1, update_node_hash hash256 fuel heap p = some heap1 ∧ same_shape heap heap1 ∧
        (∀ q, ¬ reaches heap p q → heap1[q]? = heap[q]?) ∧
        represents heap1 p (rehash hash256 t)) (par : Nat) :
    ∀ (cs : List Nat) (ts : List HTree) (heap : Heap),
      forest_from heap base → represents_all heap cs ts → cs.Nodup →
      (∀ c ∈ cs, par < c ∧ base ≤ c ∧ ∃ cn, heap[c]? = some cn ∧ cn.parent = some par) →
      height_all ts ≤ fuel + 1 →
      ∃ heap1, update_children (update_node_hash hash256 fuel) heap cs = some heap1 ∧
        same_shape heap heap1 ∧
        (∀ q, (∀ c ∈ cs, ¬ reaches heap c q) → heap1[q]? = heap[q]?) ∧
        represents_all heap1 cs (rehash_all hash256 ts)
  | [], [], heap, _, _, _, _, _ =>
    ⟨heap, rfl, same_shape.same heap, fun _ _ => rfl, by simp [rehash_all, represents_all]⟩
  | [], _ :: _, _, _, h, _, _, _ => by simp [represents_all] at h
  | _ :: _, [], _, _, h, _, _, _ => by simp [represents_all] at h
  | c :: cs, t :: ts, heap, hf, hr, hnd, hch, hh => by
    simp only [represents_all] at hr
    obtain ⟨hrc, hrs⟩ := hr
    obtain ⟨hltc, hbc, nc, hnc, hpc⟩ := hch c (List.mem_cons_self _ _)
    have hnd' := List.nodup_cons.mp hnd
    simp only [height_all] at hh
    have hdisj : ∀ c1 ∈ cs, ∀ q, reaches heap c q → reaches heap c1 q → False := by
      intro c1 hc1 q r1 r2
      obtain ⟨hlt1, hb1, n1, hn1, hp1⟩ := hch c1 (List.mem_cons_of_mem _ hc1)
      exact reaches_disjoint hf hbc hb1 hnc hn1 hpc hp1 hltc hlt1
        (fun e => hnd'.1 (e ▸ hc1)) q r1 r2
    by_cases hleaf : nc.children = []
    · have htl := (represents_all_children_nil hrc hnc).mp hleaf
      obtain ⟨heap1, hrun, hss, hfr, hrep⟩ :=
        update_children_spec hash256 base fuel ih par cs ts heap hf hrs hnd'.2
          (fun c1 hc1 => hch c1 (List.mem_cons_of_mem _ hc1)) (by omega)
      refine ⟨heap1, ?_, hss, ?_, ?_⟩
      · simp only [update_children, hnc, hleaf, if_true, hrun]
      · intro q hq
        exact hfr q (fun c1 hc1 => hq c1 (List.mem_cons_of_mem _ hc1))
      · simp only [rehash_all, represents_all, rehash_leaf hash256 t htl]
        refine ⟨represents_frame c t hrc ?_, hrep⟩
        intro q hq
        exact hfr q (fun c1 hc1 h1 => hdisj c1 hc1 q hq h1)
    · have htl : t.children ≠ [] := fun h => hleaf ((represents_all_children_nil hrc hnc).mpr h)
      obtain ⟨heap1, hrun1, hss1, hfr1, hrep1⟩ := ih t heap c hf hbc hrc htl (by omega)
      have hrs1 : represents_all heap1 cs ts :=
        represents_all_frame cs ts hrs
          (fun c1 hc1 q hq => hfr1 q (fun h1 => hdisj c1 hc1 q h1 hq))
      have hch1 : ∀ c1 ∈ cs, par < c1 ∧ base ≤ c1 ∧
          ∃ cn, heap1[c1]? = some cn ∧ cn.parent = some par := by
        intro c1 hc1
        obtain ⟨hlt1, hb1, n1, hn1, hp1⟩ := hch c1 (List.mem_cons_of_mem _ hc1)
        obtain ⟨m1, hm1, e1, -, -⟩ := hss1.2 c1 n1 hn1
        exact ⟨hlt1, hb1, m1, hm1, e1.trans hp1⟩
      obtain ⟨heap2, hrun2, hss2, hfr2, hrep2⟩ :=
        update_children_spec hash256 base fuel ih par cs ts heap1 (hss1.forest hf) hrs1 hnd'.2
          hch1 (by omega)
      refine ⟨heap2, ?_, hss1.chain hss2, ?_, ?_⟩
      · simp only [update_children, hnc, hleaf, if_false, hrun1, hrun2]
      · intro q hq
        rw [hfr2 q (fun c1 hc1 h1 =>
          hq c1 (List.mem_cons_of_mem _ hc1) (hss1.symm.reaches h1))]
        exact hfr1 q (hq c (List.mem_cons_self _ _))
      · simp only [rehash_all, represents_all]
        refine ⟨represents_frame c _ hrep1 ?_, hrep2⟩
        intro q hq
        exact hfr2 q (fun c1 hc1 h1 =>
          hdisj c1 hc1 q (hss1.symm.reaches hq) (hss1.symm.reaches h1))

theorem rehash_all_length (hash256 : Bytes → Hash) :
    ∀ ts : List HTree, (rehash_all hash256 ts).length = ts.length
  | [] => rfl
  | _ :: ts => by simp [rehash_all, rehash_all_length hash256 ts]

/-- `update_node_hash` on a represented tree inside a forest turns it into the rehashed
tree, changes no pointer, and changes nothing outside of the tree. -/
theorem update_node_hash_spec (hash256 : Bytes → Hash) (base : Nat) :
    ∀ (fuel : Nat) (t : HTree) (heap : Heap) (p : Nat), forest_from heap base → base ≤ p →
      represents heap p t → t.children ≠ [] → t.height ≤ fuel + 1 →
      ∃ heap1, update_node_hash hash256 fuel heap p = some heap1 ∧ same_shape heap heap1 ∧
        (∀ q, ¬ reaches heap p q → heap1[q]? = heap[q]?) ∧
        represents heap1 p (rehash hash256 t) := by
  intro fuel
  induction fuel with
  | zero =>
    intro t heap p _ _ _ hne hh
    exfalso
    have h1 := height_children t
    cases hc : t.children with
    | nil => exact hne hc
    | cons a b =>
      rw [hc] at h1
      simp only [height_all] at h1
      have := height_children a
      omega
  | succ fuel ih =>
    intro t heap p hf hb hr hne hh
    obtain ⟨n, hn, hid, hhash, hall⟩ := (represents_iff heap p t).mp hr
    have hnne : n.children ≠ [] := fun h => hne ((represents_all_children_nil hr hn).mp h)
    obtain ⟨hnd, hch⟩ := hf p n hb hn
    have hh1 := height_children t
    obtain ⟨heap1, hrun1, hss1, hfr1, hrep1⟩ :=
      update_children_spec hash256 base fuel ih p n.children t.children heap hf hall hnd
        (fun c hc => ⟨(hch c hc).1, by have := (hch c hc).1; omega, (hch c hc).2⟩) (by omega)
    obtain ⟨n1, hn1, e1, e2, e3⟩ := hss1.2 p n hn
    have hmk : make_hash_node hash256 heap1 p =
        some (make_hash hash256 (hashes_of (rehash_all hash256 t.children))) := by
      simp only [make_hash_node, hn1, e2, children_hashes_represents _ _ hrep1]
    have hnotp : ∀ c ∈ n.children, ∀ q, reaches heap c q → q ≠ p := by
      intro c hc q hq e
      have h1 := (hch c hc).1
      have h2 := reaches_ge hf (by omega : base ≤ c) hq
      omega
    refine ⟨heap1.set p ⟨n1.parent, n1.children,
      make_hash hash256 (hashes_of (rehash_all hash256 t.children)), n1.id⟩, ?_, ?_, ?_, ?_⟩
    · simp only [update_node_hash, hn, hnne, if_false, hrun1, hmk, set_hash, hn1]
    · refine ⟨by rw [List.length_set]; exact hss1.1, ?_⟩
      intro q m hq
      obtain ⟨m1, hm1, f1, f2, f3⟩ := hss1.2 q m hq
      by_cases hqp : p = q
      · subst hqp
        rw [hn1] at hm1
        cases hm1
        exact ⟨_, get_set_self _ hn1, f1, f2, f3⟩
      · exact ⟨m1, by rw [List.getElem?_set]; simp only [hqp, if_false]; exact hm1, f1, f2, f3⟩
    · intro q hq
      have hqp : ¬ p = q := fun e => hq (e ▸ reaches.self)
      rw [List.getElem?_set]
      simp only [hqp, if_false]
      exact hfr1 q (fun c hc h1 => hq (reaches_trans_child hn hc h1))
    · rw [rehash_node hash256 t hne]
      simp only [represents]
      refine ⟨_, get_set_self _ hn1, e3.trans hid, rfl, ?_⟩
      simp only [e2]
      apply represents_all_frame _ _ hrep1
      intro c hc q hq
      have hqp : ¬ p = q := fun e => hnotp c hc q (hss1.symm.reaches hq) e.symm
      rw [List.getElem?_set]
      simp only [hqp, if_false]

/-! ## The build of `create_scene_hash` -/

theorem maybe_add_hash (hash256 : Bytes → Hash) (data : Data_Table) (vec : List Bytes) :
    (Data_Table.maybe_add hash256 data vec).2 = leaf_hash hash256 vec := by
  unfold Data_Table.maybe_add leaf_hash
  by_cases h : vec = []
  · simp [h]
  · simp only [h, if_false]
    cases hash_map.find data.map (make_hash hash256 vec.flatten) <;> rfl

theorem with_new_children_one (heap : Heap) (d : Nat) (dn x : Hash_Node) :
    with_new_children heap d dn [x] =
      heap.set d (Hash_Node.mk dn.parent (dn.children ++ [heap.length]) dn.hash dn.id) ++ [x] := by
  simp [with_new_children]

theorem add_leaf_node_spec (hash256 : Bytes → Hash) {heap : Heap} (data : Data_Table)
    {e : Nat} {en : Hash_Node} (he : heap[e]? = some en) (vec : List Bytes) (id : Nat) :
    add_leaf_node hash256 heap data e vec id =
      some (with_new_children heap e en [leaf_node hash256 e id vec],
        (Data_Table.maybe_add hash256 data vec).1, heap.length) := by
  obtain ⟨e1, e2⟩ := emit_spec he id (leaf_hash hash256 vec)
  simp only [add_leaf_node, e1, maybe_add_hash, e2, with_new_children_one, leaf_node]

theorem add_leaf_nodes_spec (hash256 : Bytes → Hash) (e : Nat) :
    ∀ (vecs : List (List Bytes)) (heap : Heap) (data : Data_Table) (en : Hash_Node),
      heap[e]? = some en →
      add_leaf_nodes hash256 e vecs heap data =
        some (with_new_children heap e en (vecs.map (leaf_node hash256 e no_id)),
          add_blobs hash256 data vecs)
  | [], heap, data, en, he => by
    simp only [add_leaf_nodes, List.map_nil, with_new_children_nil he, add_blobs]
  | vec :: rest, heap, data, en, he => by
    have h1 := add_leaf_node_spec hash256 data he vec no_id
    have he1 : (with_new_children heap e en [leaf_node hash256 e no_id vec])[e]? =
        some (Hash_Node.mk en.parent (en.children ++ [heap.length]) en.hash en.id) := by
      rw [with_new_children_parent en _ (lt_of_get he)]; simp
    have ih := add_leaf_nodes_spec hash256 e rest _
      (Data_Table.maybe_add hash256 data vec).1 _ he1
    simp only [add_leaf_nodes, h1, ih, add_blobs, List.map_cons]
    rw [with_new_children_one, with_new_children_cons en (lt_of_get he)]

theorem add_nodes_spec (parent : Nat) :
    ∀ (ids : List Nat) (heap : Heap) (pn : Hash_Node), heap[parent]? = some pn →
      add_nodes parent ids heap =
        some (with_new_children heap parent pn
            (ids.map (fun id => Hash_Node.mk (some parent) [] invalid_hash id)),
          List.range' heap.length ids.length)
  | [], heap, pn, hp => by
    simp only [add_nodes, List.map_nil, with_new_children_nil hp, List.length_nil,
      List.range'_zero]
  | id :: rest, heap, pn, hp => by
    obtain ⟨e1, e2⟩ := emit_spec hp id invalid_hash
    have hlt := lt_of_get hp
    have hheap : (heap ++ [Hash_Node.mk (some parent) [] invalid_hash id]).set parent
        (Hash_Node.mk pn.parent (pn.children ++ [heap.length]) pn.hash pn.id) =
        heap.set parent (Hash_Node.mk pn.parent (pn.children ++ [heap.length]) pn.hash pn.id) ++
          [Hash_Node.mk (some parent) [] invalid_hash id] := by
      rw [List.set_append_left _ _ hlt]
    have hp1 : (heap.set parent
        (Hash_Node.mk pn.parent (pn.children ++ [heap.length]) pn.hash pn.id) ++
          [Hash_Node.mk (some parent) [] invalid_hash id])[parent]? =
        some (Hash_Node.mk pn.parent (pn.children ++ [heap.length]) pn.hash pn.id) :=
      get_append_of_get _ (get_set_self _ hp)
    have ih := add_nodes_spec parent rest _ _ hp1
    simp only [add_nodes, e1, hheap, ih, List.map_cons, List.length_cons]
    rw [with_new_children_cons pn hlt]
    simp [List.range'_succ]

theorem add_entities_map {α β : Type}
    (add1 : Heap → Data_Table → Nat → α → Nat → Option (Heap × Data_Table × Nat))
    (add2 : Heap → Data_Table → Nat → β → Nat → Option (Heap × Data_Table × Nat))
    (f : α → β) (h : ∀ heap data p x id, add1 heap data p x id = add2 heap data p (f x) id)
    (parent : Nat) :
    ∀ (xs : List α) (i : Nat) (heap : Heap) (data : Data_Table),
      add_entities add1 parent xs i heap data = add_entities add2 parent (xs.map f) i heap data
  | [], _, _, _ => rfl
  | x :: xs, i, heap, data => by
    simp only [add_entities, List.map_cons, h]
    cases add2 heap data parent (f x) i with
    | none => rfl
    | some r => exact add_entities_map add1 add2 f h parent xs (i + 1) r.1 r.2.1

theorem add_leaf_node_value_eq (hash256 : Bytes → Hash) (heap : Heap) (data : Data_Table)
    (p : Nat) (value : Bytes) (id : Nat) :
    add_leaf_node_value hash256 heap data p value id =
      add_entity hash256 heap data p (entity.scalar value) id := rfl

theorem add_shape_node_eq (hash256 : Bytes → Hash) (heap : Heap) (data : Data_Table)
    (p : Nat) (shape : shape_data) (id : Nat) :
    add_shape_node hash256 heap data p shape id =
      add_entity hash256 heap data p (entity.compound (shape_vecs shape)) id := rfl

theorem add_leaf_nodes_append (hash256 : Bytes → Hash) (e : Nat) :
    ∀ (vecs rest : List (List Bytes)) (heap : Heap) (data : Data_Table),
      add_leaf_nodes hash256 e (vecs ++ rest) heap data =
        match add_leaf_nodes hash256 e vecs heap data with
        | none => none
        | some (heap1, data1) => add_leaf_nodes hash256 e rest heap1 data1
  | [], rest, heap, data => by simp [add_leaf_nodes]
  | vec :: vecs, rest, heap, data => by
    simp only [List.cons_append, add_leaf_nodes]
    cases add_leaf_node hash256 heap data e vec no_id with
    | none => rfl
    | some r => exact add_leaf_nodes_append hash256 e vecs rest r.1 r.2.1

theorem add_leaf_nodes_one (hash256 : Bytes → Hash) (e : Nat) (value : Bytes) (heap : Heap)
    (data : Data_Table) :
    add_leaf_nodes hash256 e [[value]] heap data =
      match add_leaf_node_value hash256 heap data e value no_id with
      | none => none
      | some (heap1, data1, _) => some (heap1, data1) := by
  simp only [add_leaf_nodes]
  rw [show add_leaf_node_value hash256 heap data e value no_id =
    add_leaf_node hash256 heap data e [value] no_id from rfl]

theorem add_texture_node_eq (hash256 : Bytes → Hash) (heap : Heap) (data : Data_Table)
    (p : Nat) (texture : texture_data) (id : Nat) :
    add_texture_node hash256 heap data p texture id =
      add_entity hash256 heap data p (entity.compound (texture_vecs texture)) id := by
  simp only [add_texture_node, add_entity, texture_vecs]
  cases add_node heap p id with
  | none => rfl
  | some r =>
    obtain ⟨heap1, node⟩ := r
    simp only
    rw [show [texture.pixelsf, texture.pixelsb, [texture.raw]] =
      [texture.pixelsf, texture.pixelsb] ++ [[texture.raw]] from rfl, add_leaf_nodes_append]
    cases add_leaf_nodes hash256 node [texture.pixelsf, texture.pixelsb] heap1 data with
    | none => rfl
    | some r2 =>
      obtain ⟨heap2, data2⟩ := r2
      simp only [add_leaf_nodes_one]
      cases add_leaf_node_value hash256 heap2 data2 node texture.raw no_id <;> rfl

theorem add_subdiv_node_eq (hash256 : Bytes → Hash) (heap : Heap) (data : Data_Table)
    (p : Nat) (subdiv : subdiv_data) (id : Nat) :
    add_subdiv_node hash256 heap data p subdiv id =
      add_entity hash256 heap data p (entity.compound (subdiv_vecs subdiv)) id := by
  simp only [add_subdiv_node, add_entity, subdiv_vecs]
  cases add_node heap p id with
  | none => rfl
  | some r =>
    obtain ⟨heap1, node⟩ := r
    simp only
    rw [show [subdiv.quadspos, subdiv.quadsnorm, subdiv.quadstexcoord, subdiv.positions,
        subdiv.normals, subdiv.texcoords, [subdiv.raw]] =
      [subdiv.quadspos, subdiv.quadsnorm, subdiv.quadstexcoord, subdiv.positions,
        subdiv.normals, subdiv.texcoords] ++ [[subdiv.raw]] from rfl, add_leaf_nodes_append]
    cases add_leaf_nodes hash256 node [subdiv.quadspos, subdiv.quadsnorm, subdiv.quadstexcoord,
        subdiv.positions, subdiv.normals, subdiv.texcoords] heap1 data with
    | none => rfl
    | some r2 =>
      obtain ⟨heap2, data2⟩ := r2
      simp only [add_leaf_nodes_one]
      cases add_leaf_node_value hash256 heap2 data2 node subdiv.raw no_id <;> rfl

/-- The seven loops of `create_scene_hash` are one loop over the categories. -/
theorem add_scene_eq (hash256 : Bytes → Hash) (heap : Heap) (data : Data_Table)
    (scene : scene_data) (c0 c1 c2 c3 c4 c5 c6 : Nat) :
    add_scene hash256 heap data scene [c0, c1, c2, c3, c4, c5, c6] =
      fill_all hash256 [c0, c1, c2, c3, c4, c5, c6] (scene_entities scene) heap data := by
  simp only [add_scene, scene_entities, fill_all,
    add_entities_map _ _ entity.scalar (add_leaf_node_value_eq hash256),
    add_entities_map _ _ (fun s => entity.compound (shape_vecs s)) (add_shape_node_eq hash256),
    add_entities_map _ _ (fun t => entity.compound (texture_vecs t))
      (add_texture_node_eq hash256),
    add_entities_map _ _ (fun s => entity.compound (subdiv_vecs s)) (add_subdiv_node_eq hash256)]
  cases add_entities (add_entity hash256) c0 (List.map entity.scalar scene.cameras) 0 heap data with
  | none => rfl
  | some r0 =>
  obtain ⟨heap0, data0⟩ := r0
  simp only
  cases add_entities (add_entity hash256) c1 (List.map entity.scalar scene.instances) 0
    heap0 data0 with
  | none => rfl
  | some r1 =>
  obtain ⟨heap1, data1⟩ := r1
  simp only
  cases add_entities (add_entity hash256) c2 (List.map entity.scalar scene.environments) 0
    heap1 data1 with
  | none => rfl
  | some r2 =>
  obtain ⟨heap2, data2⟩ := r2
  simp only
  cases add_entities (add_entity hash256) c3
    (List.map (fun s => entity.compound (shape_vecs s)) scene.shapes) 0 heap2 data2 with
  | none => rfl
  | some r3 =>
  obtain ⟨heap3, data3⟩ := r3
  simp only
  cases add_entities (add_entity hash256) c4
    (List.map (fun t => entity.compound (texture_vecs t)) scene.textures) 0 heap3 data3 with
  | none => rfl
  | some r4 =>
  obtain ⟨heap4, data4⟩ := r4
  simp only
  cases add_entities (add_entity hash256) c5 (List.map entity.scalar scene.materials) 0
    heap4 data4 with
  | none => rfl
  | some r5 =>
  obtain ⟨heap5, data5⟩ := r5
  simp only
  cases add_entities (add_entity hash256) c6
    (List.map (fun s => entity.compound (subdiv_vecs s)) scene.subdivs) 0 heap5 data5 with
  | none => rfl
  | some r6 => rfl

theorem with_new_children_cases {heap : Heap} {d : Nat} (dn : Hash_Node)
    (nodes : List Hash_Node) (hd : d < heap.length) {q : Nat} {m : Hash_Node}
    (h : (with_new_children heap d dn nodes)[q]? = some m) :
    (q < heap.length ∧ q ≠ d ∧ heap[q]? = some m) ∨
    (q = d ∧ m = Hash_Node.mk dn.parent (dn.children ++ List.range' heap.length nodes.length)
      dn.hash dn.id) ∨
    (∃ j, q = heap.length + j ∧ nodes[j]? = some m) := by
  rcases Nat.lt_or_ge q heap.length with hq | hq
  · by_cases hqd : q = d
    · subst hqd
      rw [with_new_children_parent dn nodes hd] at h
      cases h
      exact Or.inr (Or.inl ⟨rfl, rfl⟩)
    · rw [with_new_children_old dn nodes hq hqd] at h
      exact Or.inl ⟨hq, hqd, h⟩
  · obtain ⟨j, rfl⟩ : ∃ j, q = heap.length + j := ⟨q - heap.length, by omega⟩
    rw [with_new_children_new] at h
    exact Or.inr (Or.inr ⟨j, rfl, h⟩)

/-- Allocating childless nodes below a node of a forest gives a forest. -/
theorem forest_with_new_children {heap : Heap} {base d : Nat} {dn : Hash_Node}
    {nodes : List Hash_Node} (hf : forest_from heap base) (hb : base ≤ d)
    (hd : heap[d]? = some dn) (hn : ∀ x ∈ nodes, x.parent = some d ∧ x.children = []) :
    forest_from (with_new_children heap d dn nodes) base := by
  have hdlt := lt_of_get hd
  have hold : ∀ (p : Nat) (n : Hash_Node), base ≤ p → heap[p]? = some n →
      ∀ c ∈ n.children, p < c ∧
        ∃ cn, (with_new_children heap d dn nodes)[c]? = some cn ∧ cn.parent = some p := by
    intro p n hp hpn c hc
    obtain ⟨hlt, cn, hcn, hpar⟩ := (hf p n hp hpn).2 c hc
    refine ⟨hlt, ?_⟩
    by_cases hcd : c = d
    · subst hcd
      rw [hd] at hcn
      cases hcn
      exact ⟨_, with_new_children_parent dn nodes hdlt, hpar⟩
    · exact ⟨cn, by rw [with_new_children_old dn nodes (lt_of_get hcn) hcd]; exact hcn, hpar⟩
  intro p n hp hpn
  rcases with_new_children_cases dn nodes hdlt hpn with ⟨_, _, h1⟩ | ⟨h1, h2⟩ | ⟨j, h1, h2⟩
  · exact ⟨(hf p n hp h1).1, hold p n hp h1⟩
  · subst h1 h2
    obtain ⟨hnd, hch⟩ := hf p dn hp hd
    constructor
    · simp only
      rw [List.nodup_append]
      refine ⟨hnd, List.nodup_range' _ _, ?_⟩
      intro c hc1 hc2
      obtain ⟨_, cn, hcn, _⟩ := hch c hc1
      have h3 := lt_of_get hcn
      simp only [List.mem_range'_1] at hc2
      omega
    · intro c hc
      simp only [List.mem_append] at hc
      rcases hc with hc | hc
      · exact hold p dn hp hd c hc
      · simp only [List.mem_range'_1] at hc
        obtain ⟨j, rfl⟩ : ∃ j, c = heap.length + j := ⟨c - heap.length, by omega⟩
        have hj : j < nodes.length := by omega
        refine ⟨by omega, nodes[j], ?_, (hn _ (List.getElem_mem hj)).1⟩
        rw [with_new_children_new]
        exact List.getElem?_eq_getElem hj
  · have hm := List.getElem?_mem h2
    rw [(hn n hm).2]
    exact ⟨List.nodup_nil, fun c hc => absurd hc (List.not_mem_nil c)⟩

theorem add_node_with (heap : Heap) {parent : Nat} {pn : Hash_Node} (id : Nat)
    (hp : heap[parent]? = some pn) :
    add_node heap parent id =
      some (with_new_children heap parent pn [Hash_Node.mk (some parent) [] invalid_hash id],
        heap.length) := by
  rw [(emit_spec hp id invalid_hash).1, with_new_children_one,
    List.set_append_left _ _ (lt_of_get hp)]

theorem add_blobs_append (hash256 : Bytes → Hash) :
    ∀ (a b : List (List Bytes)) (data : Data_Table),
      add_blobs hash256 data (a ++ b) = add_blobs hash256 (add_blobs hash256 data a) b
  | [], _, _ => rfl
  | vec :: a, b, data => by
    show add_blobs hash256 (Data_Table.maybe_add hash256 data vec).1 (a ++ b) = _
    rw [add_blobs_append hash256 a b]
    rfl

theorem reaches_lt {heap : Heap} {base : Nat} (hf : forest_from heap base) {c q : Nat}
    (hb : base ≤ c) (hc : c < heap.length) (h : reaches heap c q) : q < heap.length := by
  cases h with
  | self => exact hc
  | child hr hn hmem =>
    obtain ⟨_, cn, hcn, _⟩ := (hf _ _ (Nat.le_trans hb (reaches_ge hf hb hr)) hn).2 _ hmem
    exact lt_of_get hcn

/-- One entity added below a category node of a forest. -/
theorem add_entity_spec (hash256 : Bytes → Hash) {heap : Heap} {base cat : Nat}
    {cn : Hash_Node} (hf : forest_from heap base) (hb : base ≤ cat)
    (hc : heap[cat]? = some cn) (data : Data_Table) (x : entity) (id : Nat) :
    ∃ heap1,
      add_entity hash256 heap data cat x id =
        some (heap1, add_blobs hash256 data (entity_vecs x), heap.length) ∧
      heap.length < heap1.length ∧
      (∀ q, q < heap.length → q ≠ cat → heap1[q]? = heap[q]?) ∧
      heap1[cat]? =
        some (Hash_Node.mk cn.parent (cn.children ++ [heap.length]) cn.hash cn.id) ∧
      forest_from heap1 base ∧ represents heap1 heap.length (entity_tree hash256 x id) := by
  have hclt := lt_of_get hc
  cases x with
  | scalar value =>
    refine ⟨with_new_children heap cat cn [leaf_node hash256 cat id [value]],
      ?_, ?_, ?_, ?_, ?_, ?_⟩
    · simp only [add_entity, add_leaf_node_spec hash256 data hc, entity_vecs, add_blobs]
    · rw [with_new_children_length]; simp
    · intro q hq hne
      exact with_new_children_old cn _ hq hne
    · rw [with_new_children_parent cn _ hclt]; simp
    · apply forest_with_new_children hf hb hc
      intro y hy
      simp only [List.mem_singleton] at hy
      subst hy
      exact ⟨rfl, rfl⟩
    · simp only [entity_tree, represents]
      refine ⟨leaf_node hash256 cat id [value], ?_, rfl, rfl, ?_⟩
      · have := with_new_children_new heap cat cn [leaf_node hash256 cat id [value]] 0
        simpa using this
      · simp [leaf_node, represents_all]
  | compound vecs =>
    have hadd := add_node_with heap id hc
    have hf1 : forest_from (with_new_children heap cat cn
        [Hash_Node.mk (some cat) [] invalid_hash id]) base := by
      apply forest_with_new_children hf hb hc
      intro y hy
      simp only [List.mem_singleton] at hy
      subst hy
      exact ⟨rfl, rfl⟩
    have hlen1 : (with_new_children heap cat cn
        [Hash_Node.mk (some cat) [] invalid_hash id]).length = heap.length + 1 := by
      rw [with_new_children_length]; simp
    have he : (with_new_children heap cat cn
        [Hash_Node.mk (some cat) [] invalid_hash id])[heap.length]? =
        some (Hash_Node.mk (some cat) [] invalid_hash id) := by
      have := with_new_children_new heap cat cn [Hash_Node.mk (some cat) [] invalid_hash id] 0
      simpa using this
    have hleaves := add_leaf_nodes_spec hash256 heap.length vecs _ data _ he
    have helt : heap.length < (with_new_children heap cat cn
        [Hash_Node.mk (some cat) [] invalid_hash id]).length := by omega
    refine ⟨with_new_children
      (with_new_children heap cat cn [Hash_Node.mk (some cat) [] invalid_hash id]) heap.length
      (Hash_Node.mk (some cat) [] invalid_hash id)
      (vecs.map (leaf_node hash256 heap.length no_id)), ?_, ?_, ?_, ?_, ?_, ?_⟩
    · simp only [add_entity, hadd, hleaves, entity_vecs]
    · rw [with_new_children_length, hlen1]; omega
    · intro q hq hne
      rw [with_new_children_old _ _ (by omega) (by omega)]
      exact with_new_children_old cn _ hq hne
    · rw [with_new_children_old _ _ (by omega) (by omega),
        with_new_children_parent cn _ hclt]
      simp
    · apply forest_with_new_children hf1 (by omega) he
      intro y hy
      simp only [List.mem_map] at hy
      obtain ⟨v, _, rfl⟩ := hy
      exact ⟨rfl, rfl⟩
    · simp only [entity_tree, represents]
      refine ⟨_, with_new_children_parent _ _ helt, rfl, rfl, ?_⟩
      simp only [List.nil_append, List.length_map]
      have hlen : vecs.length =
          (vecs.map (fun vec => HTree.node no_id (leaf_hash hash256 vec) [])).length := by simp
      rw [hlen]
      apply represents_all_range
      intro j t ht
      simp only [List.getElem?_map, Option.map_eq_some'] at ht
      obtain ⟨v, hv, rfl⟩ := ht
      simp only [represents]
      refine ⟨leaf_node hash256 heap.length no_id v, ?_, rfl, rfl, ?_⟩
      · rw [with_new_children_new]
        simp [hv]
      · simp [leaf_node, represents_all]

/-- The entities of one category added below its node. -/
theorem add_entities_spec (hash256 : Bytes → Hash) (base cat : Nat) (hb : base ≤ cat) :
    ∀ (xs : List entity) (i : Nat) (heap : Heap) (data : Data_Table) (cn : Hash_Node),
      forest_from heap base → heap[cat]? = some cn →
      ∃ heap1 new,
        add_entities (add_entity hash256) cat xs i heap data =
          some (heap1, add_blobs hash256 data (entities_vecs xs)) ∧
        heap.length ≤ heap1.length ∧
        (∀ q, q < heap.length → q ≠ cat → heap1[q]? = heap[q]?) ∧
        heap1[cat]? = some (Hash_Node.mk cn.parent (cn.children ++ new) cn.hash cn.id) ∧
        forest_from heap1 base ∧ represents_all heap1 new (entity_trees hash256 xs i) ∧
        (∀ c ∈ new, heap.length ≤ c)
  | [], i, heap, data, cn, hf, hc => by
    refine ⟨heap, [], rfl, Nat.le_refl _, fun _ _ _ => rfl, ?_, hf, ?_, ?_⟩
    · simp [hc]
    · simp [entity_trees, represents_all]
    · simp
  | x :: xs, i, heap, data, cn, hf, hc => by
    obtain ⟨heap1, hrun1, hlen1, hfr1, hc1, hf1, hrep1⟩ :=
      add_entity_spec hash256 hf hb hc data x i
    obtain ⟨heap2, new, hrun2, hlen2, hfr2, hc2, hf2, hrep2, hnew2⟩ :=
      add_entities_spec hash256 base cat hb xs (i + 1) heap1
        (add_blobs hash256 data (entity_vecs x)) _ hf1 hc1
    have hclt := lt_of_get hc
    refine ⟨heap2, heap.length :: new, ?_, by omega, ?_, ?_, hf2, ?_, ?_⟩
    · simp only [add_entities, hrun1, hrun2, entities_vecs, add_blobs_append]
    · intro q hq hne
      rw [hfr2 q (by omega) hne]
      exact hfr1 q hq hne
    · rw [hc2]; simp
    · simp only [entity_trees, represents_all]
      refine ⟨represents_frame _ _ hrep1 ?_, hrep2⟩
      intro q hq
      have h1 := reaches_ge hf1 (by omega : base ≤ heap.length) hq
      have h2 := reaches_lt hf1 (by omega : base ≤ heap.length) hlen1 hq
      exact hfr2 q h2 (by omega)
    · intro c hc'
      simp only [List.mem_cons] at hc'
      rcases hc' with rfl | hc'
      · exact Nat.le_refl _
      · have := hnew2 c hc'
        omega

/-- The categories filled one after the other: every category node ends up representing
the tree of its entities. -/
theorem fill_all_spec (hash256 : Bytes → Hash) (base root : Nat) (hb : base ≤ root) :
    ∀ (cats : List Nat) (ess : List (List entity)) (k : Nat) (heap : Heap) (data : Data_Table),
      cats.length = ess.length → forest_from heap base → cats.Nodup →
      (∀ j c, cats[j]? = some c →
        root < c ∧ heap[c]? = some (Hash_Node.mk (some root) [] invalid_hash (k + j))) →
      ∃ heap1,
        fill_all hash256 cats ess heap data =
          some (heap1, add_blobs hash256 data (categories_vecs ess)) ∧
        heap.length ≤ heap1.length ∧
        (∀ q, q < heap.length → q ∉ cats → heap1[q]? = heap[q]?) ∧
        forest_from heap1 base ∧ represents_all heap1 cats (category_trees hash256 ess k)
  | [], [], k, heap, data, _, hf, _, _ =>
    ⟨heap, rfl, Nat.le_refl _, fun _ _ _ => rfl, hf, by simp [category_trees, represents_all]⟩
  | [], _ :: _, _, _, _, h, _, _, _ => by simp at h
  | _ :: _, [], _, _, _, h, _, _, _ => by simp at h
  | c :: cats, es :: ess, k, heap, data, hlen, hf, hnd, hpend => by
    obtain ⟨hrc, hc⟩ := hpend 0 c (by simp)
    have hnd' := List.nodup_cons.mp hnd
    have hclt := lt_of_get hc
    obtain ⟨heap1, new, hrun1, hlen1, hfr1, hc1, hf1, hrep1, -⟩ :=
      add_entities_spec hash256 base c (by omega) es 0 heap data _ hf hc
    have hpend1 : ∀ j c1, cats[j]? = some c1 →
        root < c1 ∧ heap1[c1]? = some (Hash_Node.mk (some root) [] invalid_hash (k + 1 + j)) := by
      intro j c1 hj
      obtain ⟨h1, h2⟩ := hpend (j + 1) c1 (by simpa using hj)
      refine ⟨h1, ?_⟩
      rw [hfr1 c1 (lt_of_get h2) (fun e => hnd'.1 (e ▸ List.getElem?_mem hj)), h2]
      congr 2
      omega
    obtain ⟨heap2, hrun2, hlen2, hfr2, hf2, hrep2⟩ :=
      fill_all_spec hash256 base root hb cats ess (k + 1) heap1
        (add_blobs hash256 data (entities_vecs es)) (by simpa using hlen) hf1 hnd'.2 hpend1
    refine ⟨heap2, ?_, by omega, ?_, hf2, ?_⟩
    · simp only [fill_all, hrun1, hrun2, categories_vecs, add_blobs_append]
    · intro q hq hmem
      simp only [List.mem_cons, not_or] at hmem
      rw [hfr2 q (by omega) hmem.2]
      exact hfr1 q hq hmem.1
    · simp only [category_trees, represents_all]
      refine ⟨?_, hrep2⟩
      have hrepc : represents heap1 c
          (HTree.node k invalid_hash (entity_trees hash256 es 0)) := by
        simp only [represents]
        exact ⟨_, hc1, by simp, rfl, by simpa using hrep1⟩
      apply represents_frame _ _ hrepc
      intro q hq
      have hqlt := reaches_lt hf1 (by omega : base ≤ c) (lt_of_get hc1) hq
      apply hfr2 q hqlt
      intro hmem
      obtain ⟨j, hj⟩ := List.getElem?_of_mem hmem
      obtain ⟨hr1, hq1⟩ := hpend1 j q hj
      exact reaches_disjoint hf1 (by omega : base ≤ c) (by omega : base ≤ q) hc1 hq1 rfl rfl
        hrc hr1 (fun e => hnd'.1 (e ▸ hmem)) q hq reaches.self

theorem entity_tree_height (hash256 : Bytes → Hash) (x : entity) (i : Nat) :
    (entity_tree hash256 x i).height ≤ 2 := by
  cases x with
  | scalar value => simp [entity_tree, HTree.height, height_all]
  | compound vecs =>
    simp only [entity_tree, HTree.height]
    have : ∀ vs : List (List Bytes),
        height_all (vs.map (fun vec => HTree.node no_id (leaf_hash hash256 vec) [])) ≤ 1 := by
      intro vs
      induction vs with
      | nil => simp [height_all]
      | cons v vs ih => simp [height_all, HTree.height, ih]
    have := this vecs
    omega

theorem entity_trees_height (hash256 : Bytes → Hash) :
    ∀ (xs : List entity) (i : Nat), height_all (entity_trees hash256 xs i) ≤ 2
  | [], _ => by simp [entity_trees, height_all]
  | x :: xs, i => by
    simp only [entity_trees, height_all]
    exact Nat.max_le.mpr ⟨entity_tree_height hash256 x i, entity_trees_height hash256 xs (i + 1)⟩

theorem category_trees_height (hash256 : Bytes → Hash) :
    ∀ (ess : List (List entity)) (k : Nat), height_all (category_trees hash256 ess k) ≤ 3
  | [], _ => by simp [category_trees, height_all]
  | es :: ess, k => by
    simp only [category_trees, height_all, HTree.height]
    have h1 := entity_trees_height hash256 es 0
    have h2 := category_trees_height hash256 ess (k + 1)
    omega

/-- `create_scene_hash` with fuel 3 or more returns a snapshot whose root is the first
new node; the nodes allocated before are unchanged, the new nodes form a forest, the
root represents the tree of the scene, and the store is the old store after `maybe_add`
of the vectors of the entities. -/
theorem create_scene_hash_spec (hash256 : Bytes → Hash) (fuel : Nat) (heap0 : Heap)
    (data : Data_Table) (scene : scene_data) (hfuel : 3 ≤ fuel) :
    ∃ heap1,
      create_scene_hash hash256 fuel heap0 data scene =
        some (heap1, add_blobs hash256 data (categories_vecs (scene_entities scene)),
          heap0.length) ∧
      Sub heap0 heap1 ∧ forest_from heap1 heap0.length ∧
      represents heap1 heap0.length (scene_tree hash256 scene) ∧
      ∃ rn, heap1[heap0.length]? = some rn ∧ rn.parent = none := by
  have hroot : (heap0 ++ [Hash_Node.init])[heap0.length]? = some Hash_Node.init :=
    get_last heap0 Hash_Node.init
  have hadd := add_nodes_spec heap0.length [0, 1, 2, 3, 4, 5, 6] _ _ hroot
  have hcats : List.range' (heap0 ++ [Hash_Node.init]).length
      [0, 1, 2, 3, 4, 5, 6].length =
      [heap0.length + 1, heap0.length + 1 + 1, heap0.length + 1 + 1 + 1,
        heap0.length + 1 + 1 + 1 + 1, heap0.length + 1 + 1 + 1 + 1 + 1,
        heap0.length + 1 + 1 + 1 + 1 + 1 + 1, heap0.length + 1 + 1 + 1 + 1 + 1 + 1 + 1] := by
    simp [List.range']
  have hf0 : forest_from (heap0 ++ [Hash_Node.init]) heap0.length := by
    intro p n hp hn
    have hlt := lt_of_get hn
    have hpe : p = heap0.length := by simp at hlt; omega
    subst hpe
    rw [hroot] at hn
    cases hn
    exact ⟨List.nodup_nil, fun c hc => absurd hc (List.not_mem_nil c)⟩
  have hf1 := @forest_with_new_children _ _ _ _
    ([0, 1, 2, 3, 4, 5, 6].map (fun id => Hash_Node.mk (some heap0.length) [] invalid_hash id))
    hf0 (Nat.le_refl _) hroot (by
      intro y hy
      simp only [List.mem_map] at hy
      obtain ⟨v, _, rfl⟩ := hy
      exact ⟨rfl, rfl⟩)
  obtain ⟨heap2, hrun2, hlen2, hfr2, hf2, hrep2⟩ :=
    fill_all_spec hash256 heap0.length heap0.length (Nat.le_refl _)
      [heap0.length + 1, heap0.length + 1 + 1, heap0.length + 1 + 1 + 1,
        heap0.length + 1 + 1 + 1 + 1, heap0.length + 1 + 1 + 1 + 1 + 1,
        heap0.length + 1 + 1 + 1 + 1 + 1 + 1, heap0.length + 1 + 1 + 1 + 1 + 1 + 1 + 1]
      (scene_entities scene) 0 _ data (by simp [scene_entities]) hf1
      (by rw [← hcats]; exact List.nodup_range' _ _)
      (by
        intro j c hj
        rw [← hcats] at hj
        have hjl : j < 7 := by
          by_contra hge
          rw [List.getElem?_eq_none (by simp; omega)] at hj
          cases hj
        rw [List.getElem?_range' _ _ (by simpa using hjl)] at hj
        simp only [Option.some.injEq, List.length_append, List.length_singleton, one_mul] at hj
        subst hj
        refine ⟨by omega, ?_⟩
        have hnew := with_new_children_new (heap0 ++ [Hash_Node.init]) heap0.length
          Hash_Node.init ([0, 1, 2, 3, 4, 5, 6].map
            (fun id => Hash_Node.mk (some heap0.length) [] invalid_hash id)) j
        simp only [List.length_append, List.length_singleton] at hnew
        rw [hnew, List.getElem?_map]
        have hr : ([0, 1, 2, 3, 4, 5, 6] : List Nat)[j]? = some j := by
          have h7 : ([0, 1, 2, 3, 4, 5, 6] : List Nat) = List.range 7 := by decide
          rw [h7, List.getElem?_range hjl]
        rw [hr]
        simp)
  have hlen1 : (with_new_children (heap0 ++ [Hash_Node.init]) heap0.length Hash_Node.init
      ([0, 1, 2, 3, 4, 5, 6].map
        (fun id => Hash_Node.mk (some heap0.length) [] invalid_hash id))).length =
      heap0.length + 8 := by
    rw [with_new_children_length]; simp
  have hrootn : heap2[heap0.length]? = some (Hash_Node.mk none
      [heap0.length + 1, heap0.length + 1 + 1, heap0.length + 1 + 1 + 1,
        heap0.length + 1 + 1 + 1 + 1, heap0.length + 1 + 1 + 1 + 1 + 1,
        heap0.length + 1 + 1 + 1 + 1 + 1 + 1, heap0.length + 1 + 1 + 1 + 1 + 1 + 1 + 1]
      invalid_hash no_id) := by
    rw [hfr2 heap0.length (by omega) (by simp; omega),
      with_new_children_parent _ _ (by simp)]
    simp only [List.length_map, hcats]
    rfl
  have hrep : represents heap2 heap0.length
      (HTree.node no_id invalid_hash (category_trees hash256 (scene_entities scene) 0)) :=
    (represents_iff _ _ _).mpr ⟨_, hrootn, rfl, rfl, hrep2⟩
  obtain ⟨heap3, hrun3, hshape, hfr3, hrep3⟩ :=
    update_node_hash_spec hash256 heap0.length fuel _ heap2 heap0.length hf2 (Nat.le_refl _)
      hrep (by simp [scene_entities, category_trees, HTree.children])
      (by
        have h := category_trees_height hash256 (scene_entities scene) 0
        simp only [HTree.height]
        omega)
  obtain ⟨rn3, hrn3, hpar3, -, -⟩ := hshape.2 _ _ hrootn
  refine ⟨heap3, ?_, ?_, hshape.forest hf2, hrep3, rn3, hrn3, hpar3⟩
  · simp only [create_scene_hash, hadd, hcats, add_scene_eq, hrun2, hrun3]
  · intro p n hp
    have hplt := lt_of_get hp
    have hnr : ¬ reaches heap2 heap0.length p := fun hr => by
      have := reaches_ge hf2 (Nat.le_refl _) hr
      omega
    rw [hfr3 p hnr, hfr2 p (by omega) (by simp; omega),
      with_new_children_old _ _ (by simp; omega) (by omega)]
    exact get_append_of_get _ hp

theorem rehash_id (hash256 : Bytes → Hash) (t : HTree) : (rehash hash256 t).id = t.id := by
  cases t with
  | node id hash ts => cases ts <;> simp [rehash, HTree.id]

theorem rehash_all_ids (hash256 : Bytes → Hash) :
    ∀ ts : List HTree, (rehash_all hash256 ts).map HTree.id = ts.map HTree.id
  | [] => rfl
  | t :: ts => by simp [rehash_all, rehash_id, rehash_all_ids hash256 ts]

mutual
theorem rehash_height (hash256 : Bytes → Hash) :
    ∀ t : HTree, (rehash hash256 t).height = t.height
  | .node id hash [] => by simp [rehash]
  | .node id hash (t :: ts) => by
    simp only [rehash, HTree.height, rehash_all_height hash256 (t :: ts)]
theorem rehash_all_height (hash256 : Bytes → Hash) :
    ∀ ts : List HTree, height_all (rehash_all hash256 ts) = height_all ts
  | [] => rfl
  | t :: ts => by
    simp only [rehash_all, height_all, rehash_height hash256 t, rehash_all_height hash256 ts]
end

theorem category_trees_ids (hash256 : Bytes → Hash) :
    ∀ (ess : List (List entity)) (k : Nat),
      (category_trees hash256 ess k).map HTree.id = List.range' k ess.length
  | [], _ => rfl
  | es :: ess, k => by
    simp [category_trees, HTree.id, category_trees_ids hash256 ess (k + 1), List.range']

theorem find_id_self :
    ∀ (ts : List HTree) (a : HTree), (ts.map HTree.id).Nodup → a ∈ ts →
      find_id a.id ts = some a
  | [], _, _, h => absurd h (List.not_mem_nil _)
  | t :: ts, a, hnd, h => by
    simp only [List.map_cons, List.nodup_cons] at hnd
    rcases List.mem_cons.mp h with rfl | hmem
    · simp [find_id]
    · have hne : t.id ≠ a.id := fun he =>
        hnd.1 (he ▸ List.mem_map_of_mem HTree.id hmem)
      simp [find_id, hne, find_id_self ts a hnd.2 hmem]

theorem diff_trees_fixed (bs : List HTree) :
    ∀ rest : List HTree, (∀ a ∈ rest, find_id a.id bs = some a) → diff_trees bs rest = []
  | [], _ => by simp [diff_trees]
  | a :: rest, h => by
    have ha := h a (List.mem_cons_self _ _)
    simp only [diff_trees, ha, if_true]
    exact diff_trees_fixed bs rest (fun x hx => h x (List.mem_cons_of_mem _ hx))

/-- The diff of a list of trees with pairwise distinct ids against itself is empty. -/
theorem diff_trees_self (ts : List HTree) (h : (ts.map HTree.id).Nodup) :
    diff_trees ts ts = [] :=
  diff_trees_fixed ts ts (fun a ha => find_id_self ts a h ha)

theorem scene_tree_children (hash256 : Bytes → Hash) (scene : scene_data) :
    (scene_tree hash256 scene).children =
      rehash_all hash256 (category_trees hash256 (scene_entities scene) 0) := by
  rw [scene_tree, rehash_node _ _ (by simp [scene_entities, category_trees, HTree.children])]
  rfl

theorem scene_tree_height (hash256 : Bytes → Hash) (scene : scene_data) :
    (scene_tree hash256 scene).height ≤ 4 := by
  rw [scene_tree, rehash_height]
  have h := category_trees_height hash256 (scene_entities scene) 0
  simp only [HTree.height]
  omega

/-- C9: for every scene, heap and store, the snapshot that `create_scene_hash` returns
(with fuel for its three levels of internal nodes) diffed against itself by `make_diff`
(with fuel for the at most four levels of the tree) gives a diff root without
children. -/
theorem make_diff_self_empty (hash256 : Bytes → Hash) (fuel fuel1 : Nat) (heap0 : Heap)
    (data : Data_Table) (scene : scene_data) (hfuel : 3 ≤ fuel) (hfuel1 : 4 ≤ fuel1) :
    ∃ heap1 data1 root heap2 diff_root,
      create_scene_hash hash256 fuel heap0 data scene = some (heap1, data1, root) ∧
      Scene_Hash.make_diff fuel1 heap1 root root = some (heap2, diff_root) ∧
      ∃ dn, heap2[diff_root]? = some dn ∧ dn.children = [] := by
  obtain ⟨heap1, hrun, -, -, hrep, -⟩ :=
    create_scene_hash_spec hash256 fuel heap0 data scene hfuel
  obtain ⟨heap2, hdiff, -, hd⟩ := make_diff_spec hrep hrep
    (Nat.le_trans (scene_tree_height hash256 scene) hfuel1)
  rw [diff_trees_self _ (by
    rw [scene_tree_children, rehash_all_ids, category_trees_ids]
    exact List.nodup_range' _ _)] at hd
  obtain ⟨dn, hdn, -, -, hch⟩ := (represents_iff _ _ _).mp hd
  refine ⟨heap1, _, _, heap2, _, hrun, hdiff, dn, hdn, ?_⟩
  cases hc : dn.children with
  | nil => rfl
  | cons c cs => rw [hc] at hch; simp [HTree.children, represents_all] at hch

theorem make_diff_self_empty_witness :
    3 ≤ 3 ∧ 4 ≤ 4 ∧
    ∃ heap1 data1 root heap2 diff_root,
      create_scene_hash sample_hash256 3 [] ⟨[]⟩ sample_scene = some (heap1, data1, root) ∧
      Scene_Hash.make_diff 4 heap1 root root = some (heap2, diff_root) ∧
      ∃ dn, heap2[diff_root]? = some dn ∧ dn.children = [] :=
  ⟨by decide, by decide,
    make_diff_self_empty sample_hash256 3 4 [] ⟨[]⟩ sample_scene (by decide) (by decide)⟩

mutual
theorem rehash_merkle (hash256 : Bytes → Hash) : ∀ t : HTree, (rehash hash256 t).merkle hash256
  | .node id hash [] => by simp [rehash, HTree.merkle, merkle_all]
  | .node id hash (t :: ts) => by
    simp only [rehash, HTree.merkle]
    exact ⟨by simp, rehash_all_merkle hash256 (t :: ts)⟩
theorem rehash_all_merkle (hash256 : Bytes → Hash) :
    ∀ ts : List HTree, merkle_all hash256 (rehash_all hash256 ts)
  | [] => by simp [rehash_all, merkle_all]
  | t :: ts => by
    simp only [rehash_all, merkle_all]
    exact ⟨rehash_merkle hash256 t, rehash_all_merkle hash256 ts⟩
end

theorem merkle_iff (hash256 : Bytes → Hash) (t : HTree) :
    t.merkle hash256 ↔
      (t.children ≠ [] → t.hash = make_hash hash256 (hashes_of t.children)) ∧
        merkle_all hash256 t.children := by
  cases t; simp [HTree.merkle, HTree.children, HTree.hash]

theorem represents_all_mem {heap : Heap} :
    ∀ (cs : List Nat) (ts : List HTree), represents_all heap cs ts → ∀ c ∈ cs,
      ∃ t ∈ ts, represents heap c t
  | [], _, _, _, hc => absurd hc (List.not_mem_nil _)
  | _ :: _, [], h, _, _ => by simp [represents_all] at h
  | c0 :: cs, t :: ts, h, c, hc => by
    simp only [represents_all] at h
    rcases List.mem_cons.mp hc with rfl | hmem
    · exact ⟨t, List.mem_cons_self _ _, h.1⟩
    · obtain ⟨t1, ht1, hr1⟩ := represents_all_mem cs ts h.2 c hmem
      exact ⟨t1, List.mem_cons_of_mem _ ht1, hr1⟩

theorem merkle_all_mem (hash256 : Bytes → Hash) :
    ∀ ts : List HTree, merkle_all hash256 ts → ∀ t ∈ ts, t.merkle hash256
  | [], _, _, ht => absurd ht (List.not_mem_nil _)
  | t0 :: ts, h, t, ht => by
    simp only [merkle_all] at h
    rcases List.mem_cons.mp ht with rfl | hmem
    · exact h.1
    · exact merkle_all_mem hash256 ts h.2 t hmem

/-- Below a node that represents a Merkle consistent tree, every reachable node represents
a Merkle consistent tree. -/
theorem reaches_merkle {hash256 : Bytes → Hash} {heap : Heap} {p q : Nat} {t : HTree}
    (hr : represents heap p t) (hm : t.merkle hash256) (h : reaches heap p q) :
    ∃ tq, represents heap q tq ∧ tq.merkle hash256 := by
  induction h with
  | self => exact ⟨t, hr, hm⟩
  | child _ hn hmem ih =>
    obtain ⟨tx, hrx, hmx⟩ := ih
    obtain ⟨n1, hn1, -, -, hall⟩ := (represents_iff _ _ _).mp hrx
    rw [hn] at hn1
    cases hn1
    obtain ⟨tc, htc, hrc⟩ := represents_all_mem _ _ hall _ hmem
    exact ⟨tc, hrc, merkle_all_mem hash256 _ ((merkle_iff hash256 tx).mp hmx).2 tc htc⟩

/-- A node with children that represents a Merkle consistent tree stores the hash that
`make_hash` recomputes from its children. -/
theorem merkle_node_of_represents {hash256 : Bytes → Hash} {heap : Heap} {q : Nat} {t : HTree}
    {n : Hash_Node} (hr : represents heap q t) (hm : t.merkle hash256) (hn : heap[q]? = some n)
    (hc : n.children ≠ []) : make_hash_node hash256 heap q = some n.hash := by
  have hne : t.children ≠ [] := fun h => hc ((represents_all_children_nil hr hn).mpr h)
  obtain ⟨n1, hn1, -, hh, hall⟩ := (represents_iff _ _ _).mp hr
  rw [hn] at hn1
  cases hn1
  simp only [make_hash_node, hn, children_hashes_represents _ _ hall]
  rw [hh, ((merkle_iff hash256 t).mp hm).1 hne]

theorem represents_all_length {heap : Heap} :
    ∀ (cs : List Nat) (ts : List HTree), represents_all heap cs ts → cs.length = ts.length
  | [], [], _ => rfl
  | [], _ :: _, h => by simp [represents_all] at h
  | _ :: _, [], h => by simp [represents_all] at h
  | _ :: cs, _ :: ts, h => by
    simp only [represents_all] at h
    simp [represents_all_length cs ts h.2]

theorem category_trees_hash (hash256 : Bytes → Hash) :
    ∀ (ess : List (List entity)) (k : Nat), ∀ t ∈ category_trees hash256 ess k,
      t.hash = invalid_hash
  | [], _, _, h => by simp [category_trees] at h
  | es :: ess, k, t, h => by
    simp only [category_trees, List.mem_cons] at h
    rcases h with rfl | h
    · rfl
    · exact category_trees_hash hash256 ess (k + 1) t h

theorem rehash_all_childless (hash256 : Bytes → Hash) (hash : Hash) :
    ∀ ts : List HTree, (∀ t0 ∈ ts, t0.hash = hash) →
      ∀ t ∈ rehash_all hash256 ts, t.children = [] → t.hash = hash
  | [], _, _, h, _ => by simp [rehash_all] at h
  | t0 :: ts, h0, t, h, hc => by
    simp only [rehash_all, List.mem_cons] at h
    rcases h with rfl | h
    · have h1 := h0 t0 (List.mem_cons_self _ _)
      cases t0 with
      | node id hs cs =>
        cases cs with
        | nil => simpa [rehash] using h1
        | cons a b => simp [rehash, rehash_all, HTree.children] at hc
    · exact rehash_all_childless hash256 hash ts
        (fun x hx => h0 x (List.mem_cons_of_mem _ hx)) t h hc

/-- C4, as stated, fails on the scene without entities: whatever the hash function, as
long as the hash of the empty byte string is not the all-zero hash, the snapshot built
from the empty scene has a category node whose stored hash is not the Merkle hash of its
(empty) children list. -/
theorem empty_category_not_merkle :
    ¬ ∃ hash256 : Bytes → Hash, hash256 [] ≠ invalid_hash ∧
      ∀ heap data root,
        create_scene_hash hash256 3 [] ⟨[]⟩ (scene_of_cameras []) = some (heap, data, root) →
        ∀ rn, heap[root]? = some rn → ∀ c ∈ rn.children, merkle_node hash256 heap c := by
  rintro ⟨hash256, hne, hall⟩
  obtain ⟨heap1, hrun, -, -, hrep, -⟩ :=
    create_scene_hash_spec hash256 3 [] ⟨[]⟩ (scene_of_cameras []) (Nat.le_refl _)
  obtain ⟨rn, hrn, -, -, hch⟩ := (represents_iff _ _ _).mp hrep
  have hm := hall _ _ _ hrun rn hrn
  rw [scene_tree_children] at hch
  simp only [scene_entities, scene_of_cameras, List.map_nil, category_trees, entity_trees,
    rehash_all, rehash] at hch
  cases hcs : rn.children with
  | nil => rw [hcs] at hch; simp [represents_all] at hch
  | cons c cs =>
    rw [hcs] at hch
    simp only [represents_all] at hch
    obtain ⟨n, hn, -, hh, hnc⟩ := (represents_iff _ _ _).mp hch.1
    simp only [HTree.children, represents_all_nil_iff] at hnc
    obtain ⟨n1, hn1, hmk⟩ := hm c (by rw [hcs]; exact List.mem_cons_self _ _)
    rw [hn] at hn1
    cases hn1
    simp only [make_hash_node, hn, hnc, children_hashes, make_hash, Option.some.injEq] at hmk
    exact hne (hmk.trans hh)

/-- C4, amended: for every scene, heap and store, `create_scene_hash` (with fuel for its
three levels of internal nodes) returns a snapshot in which every node reachable from the
root that has at least one child stores the hash of the concatenation of the hashes of
its children, in order; a category node without entities keeps the all-zero hash. -/
theorem create_scene_hash_merkle (hash256 : Bytes → Hash) (fuel : Nat) (heap0 : Heap)
    (data : Data_Table) (scene : scene_data) (hfuel : 3 ≤ fuel) :
    ∃ heap data1 root rn,
      create_scene_hash hash256 fuel heap0 data scene = some (heap, data1, root) ∧
      heap[root]? = some rn ∧ rn.children.length = 7 ∧
      (∀ p n, reaches heap root p → heap[p]? = some n → n.children ≠ [] →
        make_hash_node hash256 heap p = some n.hash) ∧
      (∀ c ∈ rn.children, ∀ cn, heap[c]? = some cn → cn.children = [] →
        cn.hash = invalid_hash) := by
  obtain ⟨heap1, hrun, -, -, hrep, -⟩ :=
    create_scene_hash_spec hash256 fuel heap0 data scene hfuel
  obtain ⟨rn, hrn, -, -, hch⟩ := (represents_iff _ _ _).mp hrep
  rw [scene_tree_children] at hch
  refine ⟨heap1, _, _, rn, hrun, hrn, ?_, ?_, ?_⟩
  · rw [represents_all_length _ _ hch, rehash_all_length]
    have h := congrArg List.length (category_trees_ids hash256 (scene_entities scene) 0)
    simpa [scene_entities] using h
  · intro p n hreach hn hc
    obtain ⟨tq, hrq, hmq⟩ := reaches_merkle hrep (rehash_merkle hash256 _) hreach
    exact merkle_node_of_represents hrq hmq hn hc
  · intro c hc cn hcn hnil
    obtain ⟨t, ht, hrt⟩ := represents_all_mem _ _ hch c hc
    obtain ⟨n1, hn1, -, hh, -⟩ := (represents_iff _ _ _).mp hrt
    rw [hcn] at hn1
    cases hn1
    rw [hh]
    exact rehash_all_childless hash256 invalid_hash _
      (category_trees_hash hash256 _ 0) t ht ((represents_all_children_nil hrt hcn).mp hnil)

theorem create_scene_hash_merkle_witness :
    3 ≤ 3 ∧
    ∃ heap data1 root rn,
      create_scene_hash sample_hash256 3 [] ⟨[]⟩ sample_scene = some (heap, data1, root) ∧
      heap[root]? = some rn ∧ rn.children.length = 7 ∧
      (∀ p n, reaches heap root p → heap[p]? = some n → n.children ≠ [] →
        make_hash_node sample_hash256 heap p = some n.hash) ∧
      (∀ c ∈ rn.children, ∀ cn, heap[c]? = some cn → cn.children = [] →
        cn.hash = invalid_hash) :=
  ⟨by decide, create_scene_hash_merkle sample_hash256 3 [] ⟨[]⟩ sample_scene (by decide)⟩

/-! ## `edit_node` and `make_diff` on the sample data -/

/-- C1 at the second camera of the sample snapshot (node 9: position 1, id 1, value
`[2]`) edited to `[7]`, whose hash is `[1, 7]`: in the snapshot that `edit_node` returns,
`cameras(1)` still reads `[2]` and `cameras(0)` reads `[7]`; the cameras node has two
children with id 1, the second one with the old hash `[1, 2]`.  And at the instance (node
10: category 1, position 0, id 0, value `[3]`) edited to `[7]`: in the new snapshot
`instances(0)` still reads `[3]`, the node with id 0 below the instances node carries
the old hash `[1, 3]`, and the new value is read by `cameras(0)`. -/
theorem edit_node_read_back_sample :
    Scene_Hash.node sample_heap 0 0 1 = some 9 ∧
    Scene_Hash.cameras_at sample_yocto sample_heap sample_data 0 1 = some [2] ∧
    make_hash sample_hash256 [7] = [1, 7] ∧
    (edit_node sample_hash256 3 sample_heap sample_data sample_type 9 [7]).bind
      (fun s => Scene_Hash.cameras_at sample_yocto s.2.1 s.2.2 s.1 1) = some [2] ∧
    (edit_node sample_hash256 3 sample_heap sample_data sample_type 9 [7]).bind
      (fun s => Scene_Hash.cameras_at sample_yocto s.2.1 s.2.2 s.1 0) = some [7] ∧
    (edit_node sample_hash256 3 sample_heap sample_data sample_type 9 [7]).bind
      (fun s => (Scene_Hash.cameras s.2.1 s.1).map
        (List.map (fun c => s.2.1[c]?.map (fun n => (n.id, n.hash))))) =
      some [some (1, [1, 7]), some (1, [1, 2])] ∧
    Scene_Hash.node sample_heap 0 1 0 = some 10 ∧
    Scene_Hash.instances_at sample_yocto sample_heap sample_data 0 0 = some [3] ∧
    (edit_node sample_hash256 3 sample_heap sample_data sample_type 10 [7]).bind
      (fun s => Scene_Hash.instances_at sample_yocto s.2.1 s.2.2 s.1 0) = some [3] ∧
    (edit_node sample_hash256 3 sample_heap sample_data sample_type 10 [7]).bind
      (fun s => Scene_Hash.cameras_at sample_yocto s.2.1 s.2.2 s.1 0) = some [7] ∧
    (edit_node sample_hash256 3 sample_heap sample_data sample_type 10 [7]).bind
      (fun s => (Scene_Hash.instances s.2.1 s.1).map
        (List.map (fun c => s.2.1[c]?.map (fun n => (n.id, n.hash))))) =
      some [some (0, [1, 3])] := by
  decide!

/-- C3 at the second camera of the sample snapshot (node 9) edited to `[7]`: the cameras
node 1 has the children `[8, 9]` and the edited leaf is its child at position 1; the new
leaf is node 11, and the copy of the cameras node (node 12) has the children `[11, 9]`:
position 0, which is not on the path, was replaced, and position 1 still holds the old
leaf.  The new root 13 has the children `[12, 2, 3, 4, 5, 6, 7]`. -/
theorem edit_node_children_sample :
    sample_heap[1]?.map Hash_Node.children = some [8, 9] ∧
    sample_heap[0]?.map Hash_Node.children = some [1, 2, 3, 4, 5, 6, 7] ∧
    sample_heap.length = 11 ∧
    (edit_node sample_hash256 3 sample_heap sample_data sample_type 9 [7]).map
      (fun s => (s.1, s.2.1[11]?, s.2.1[12]?.map Hash_Node.children,
        s.2.1[13]?.map Hash_Node.children)) =
      some (13, some (Hash_Node.mk (some 1) [] [1, 7] 1), some [11, 9],
        some [12, 2, 3, 4, 5, 6, 7]) := by
  decide!

/-- C7 at the scenes with the cameras `[1], [2]` and `[5], [6]`: both cameras have the
same ids and different hashes in the two snapshots, the pair of the cameras nodes is
visited, and the diff has an entry for the camera with id 0 only. -/
theorem make_diff_two_changed_sample :
    ((build_two (scene_of_cameras [[1], [2]]) (scene_of_cameras [[5], [6]])).bind
      (fun s => entries_at s.1 4 s.2.2.1)).map (List.take 3) =
      some [([0], [1, 1, 1, 1, 2]), ([0, 0], [1, 1]), ([0, 1], [1, 2])] ∧
    ((build_two (scene_of_cameras [[1], [2]]) (scene_of_cameras [[5], [6]])).bind
      (fun s => entries_at s.1 4 s.2.2.2)).map (List.take 3) =
      some [([0], [1, 1, 5, 1, 6]), ([0, 0], [1, 5]), ([0, 1], [1, 6])] ∧
    diff_of_two (scene_of_cameras [[1], [2]]) (scene_of_cameras [[5], [6]]) =
      some [([0], [1, 1, 5, 1, 6]), ([0, 0], [1, 5])] := by
  decide!

/-- C8 at the scenes with the cameras `[1], [2]` and `[5]`: the second snapshot has no
camera with id 1, the pair of the cameras nodes is visited, and the diff has the entry of
the changed camera with id 0 and no tombstone for the camera with id 1. -/
theorem make_diff_missing_sample :
    ((build_two (scene_of_cameras [[1], [2]]) (scene_of_cameras [[5]])).bind
      (fun s => entries_at s.1 4 s.2.2.1)).map (List.take 3) =
      some [([0], [1, 1, 1, 1, 2]), ([0, 0], [1, 1]), ([0, 1], [1, 2])] ∧
    ((build_two (scene_of_cameras [[1], [2]]) (scene_of_cameras [[5]])).bind
      (fun s => entries_at s.1 4 s.2.2.2)).map (List.take 2) =
      some [([0], [1, 1, 5]), ([0, 0], [1, 5])] ∧
    diff_of_two (scene_of_cameras [[1], [2]]) (scene_of_cameras [[5]]) =
      some [([0], [1, 1, 5]), ([0, 0], [1, 5])] := by
  decide!

/-! ## `edit_node` on the first child of the first child of a root -/

theorem represents_all_lt {heap : Heap} {cs : List Nat} {ts : List HTree}
    (h : represents_all heap cs ts) : ∀ c ∈ cs, c < heap.length := by
  intro c hc
  obtain ⟨t, -, hr⟩ := represents_all_mem cs ts h c hc
  obtain ⟨n, hn, -⟩ := (represents_iff heap c t).mp hr
  exact lt_of_get hn

/-- `edit_node` on the leaf `l` at position 0 below the node `k0` at position 0 below
the root `b`: the three allocated nodes. -/
theorem edit_two_levels (hash256 : Bytes → Hash) {heap : Heap} (data : Data_Table)
    (T : TypeInfo) (value : Bytes) {b k0 l : Nat} {rn kn ln : Hash_Node}
    {krest lrest : List Nat} {tcats tcams : List HTree} {fuel : Nat}
    (hb : heap[b]? = some rn) (hrp : rn.parent = none) (hrc : rn.children = k0 :: krest)
    (hk : heap[k0]? = some kn) (hkp : kn.parent = some b) (hkc : kn.children = l :: lrest)
    (hl : heap[l]? = some ln) (hlp : ln.parent = some k0) (hlc : ln.children = [])
    (hcats : represents_all heap krest tcats) (hcams : represents_all heap lrest tcams)
    (hfuel : 3 ≤ fuel) :
    edit_node hash256 fuel heap data T l value =
      some (heap.length + 2,
        heap ++ [Hash_Node.mk (some k0) [] (make_hash hash256 value) ln.id,
          Hash_Node.mk (some b) (heap.length :: lrest)
            (make_hash hash256 (make_hash hash256 value ++ hashes_of tcams)) kn.id,
          Hash_Node.mk none ((heap.length + 1) :: krest)
            (make_hash hash256
              (make_hash hash256 (make_hash hash256 value ++ hashes_of tcams) ++
                hashes_of tcats)) rn.id],
        (data.set T (make_hash hash256 value) value).1) := by
  have hanc : Ancestors heap ln.parent [k0, b] := by
    rw [hlp]
    refine Ancestors.step hk (by rw [hkc]; simp) ?_ ?_
    · intro c hc
      rw [hkc] at hc
      rcases List.mem_cons.mp hc with rfl | hc
      · exact lt_of_get hl
      · exact represents_all_lt hcams c hc
    · rw [hkp]
      refine Ancestors.step hb (by rw [hrc]; simp) ?_ (by rw [hrp]; exact Ancestors.root)
      intro c hc
      rw [hrc] at hc
      rcases List.mem_cons.mp hc with rfl | hc
      · exact lt_of_get hk
      · exact represents_all_lt hcats c hc
  rw [edit_node_spec hash256 data T value hl hanc (by simpa using hfuel)]
  simp only [edit_copies, hk, hb, hkc, hrc, List.tail_cons, List.set_cons_zero,
    children_hashes_represents _ _ hcams, children_hashes_represents _ _ hcats,
    Option.getD_some, hkp, hrp, hlp, hlc, List.length_cons, List.length_nil, List.append_assoc,
    List.singleton_append]

/-- The heap after `edit_node` on the first child of the first child of a root: the new
root represents the tree with the new leaf and the new hashes. -/
theorem edit_two_levels_represents {heap : Heap} {krest lrest : List Nat}
    {tcats tcams : List HTree} (k0 b rid kid lid : Nat) (hr hk hv : Hash)
    (hcats : represents_all heap krest tcats) (hcams : represents_all heap lrest tcams) :
    represents
      (heap ++ [Hash_Node.mk (some k0) [] hv lid,
        Hash_Node.mk (some b) (heap.length :: lrest) hk kid,
        Hash_Node.mk none ((heap.length + 1) :: krest) hr rid])
      (heap.length + 2)
      (.node rid hr (.node kid hk (.node lid hv [] :: tcams) :: tcats)) := by
  have hsub : Sub heap (heap ++ [Hash_Node.mk (some k0) [] hv lid,
      Hash_Node.mk (some b) (heap.length :: lrest) hk kid,
      Hash_Node.mk none ((heap.length + 1) :: krest) hr rid]) := (Sub.refl heap).append _
  have h0 : (heap ++ [Hash_Node.mk (some k0) [] hv lid,
      Hash_Node.mk (some b) (heap.length :: lrest) hk kid,
      Hash_Node.mk none ((heap.length + 1) :: krest) hr rid])[heap.length]? =
      some (Hash_Node.mk (some k0) [] hv lid) := by
    rw [List.getElem?_append_right (Nat.le_refl _)]; simp
  have h1 : (heap ++ [Hash_Node.mk (some k0) [] hv lid,
      Hash_Node.mk (some b) (heap.length :: lrest) hk kid,
      Hash_Node.mk none ((heap.length + 1) :: krest) hr rid])[heap.length + 1]? =
      some (Hash_Node.mk (some b) (heap.length :: lrest) hk kid) := by
    rw [List.getElem?_append_right (by omega)]; simp
  have h2 : (heap ++ [Hash_Node.mk (some k0) [] hv lid,
      Hash_Node.mk (some b) (heap.length :: lrest) hk kid,
      Hash_Node.mk none ((heap.length + 1) :: krest) hr rid])[heap.length + 2]? =
      some (Hash_Node.mk none ((heap.length + 1) :: krest) hr rid) := by
    rw [List.getElem?_append_right (by omega)]; simp
  refine (represents_iff _ _ _).mpr ⟨_, h2, rfl, rfl, ?_⟩
  simp only [HTree.children, represents_all]
  refine ⟨(represents_iff _ _ _).mpr ⟨_, h1, rfl, rfl, ?_⟩, represents_all_sub hsub _ _ hcats⟩
  simp only [HTree.children, represents_all]
  exact ⟨(represents_iff _ _ _).mpr ⟨_, h0, rfl, rfl, by simp [HTree.children, represents_all]⟩,
    represents_all_sub hsub _ _ hcams⟩

theorem rehash_first_camera (hash256 : Bytes → Hash) (c0 : Bytes) (cs : List entity)
    (rest : List (List entity)) :
    rehash hash256
        (.node no_id invalid_hash (category_trees hash256 ((entity.scalar c0 :: cs) :: rest) 0)) =
      .node no_id
        (make_hash hash256
          (make_hash hash256
              (make_hash hash256 c0 ++ hashes_of (rehash_all hash256 (entity_trees hash256 cs 1))) ++
            hashes_of (rehash_all hash256 (category_trees hash256 rest 1))))
        (.node 0
            (make_hash hash256
              (make_hash hash256 c0 ++ hashes_of (rehash_all hash256 (entity_trees hash256 cs 1))))
            (.node 0 (make_hash hash256 c0) [] :: rehash_all hash256 (entity_trees hash256 cs 1)) ::
          rehash_all hash256 (category_trees hash256 rest 1)) := by
  simp [category_trees, entity_trees, entity_tree, rehash, rehash_all, hashes_of, leaf_hash,
    make_hash, HTree.hash]

theorem scene_tree_first_camera (hash256 : Bytes → Hash) (scene : scene_data) (c0 : Bytes)
    (cs : List Bytes) (hcam : scene.cameras = c0 :: cs) :
    scene_tree hash256 scene = scene_tree_with hash256 scene (make_hash hash256 c0) := by
  have e1 : scene_entities scene =
      (entity.scalar c0 :: cs.map entity.scalar) :: (scene_entities scene).tail := by
    simp [scene_entities, hcam]
  rw [scene_tree, scene_tree_with, cameras_hash, camera_trees, category_trees_rest, hcam,
    List.tail_cons]
  generalize (scene_entities scene).tail = rest at e1 ⊢
  rw [e1, rehash_first_camera]

/-- The nodes on the path to the first camera in a built snapshot. -/
theorem first_camera_nodes (hash256 : Bytes → Hash) (fuel : Nat) (heap0 : Heap)
    (data : Data_Table) (scene : scene_data) (c0 : Bytes) (cs : List Bytes)
    (hcam : scene.cameras = c0 :: cs) (hfuel : 3 ≤ fuel) :
    ∃ heap k0 l krest lrest,
      create_scene_hash hash256 fuel heap0 data scene =
        some (heap, add_blobs hash256 data (categories_vecs (scene_entities scene)),
          heap0.length) ∧
      Sub heap0 heap ∧
      heap[heap0.length]? = some (Hash_Node.mk none (k0 :: krest)
        (make_hash hash256 (cameras_hash hash256 scene (make_hash hash256 c0) ++
          hashes_of (category_trees_rest hash256 scene))) no_id) ∧
      heap[k0]? = some (Hash_Node.mk (some heap0.length) (l :: lrest)
        (cameras_hash hash256 scene (make_hash hash256 c0)) 0) ∧
      heap[l]? = some (Hash_Node.mk (some k0) [] (make_hash hash256 c0) 0) ∧
      represents_all heap krest (category_trees_rest hash256 scene) ∧
      represents_all heap lrest (camera_trees hash256 scene) ∧
      represents heap heap0.length (scene_tree_with hash256 scene (make_hash hash256 c0)) := by
  obtain ⟨heap, hrun, hsub, hf, hrep, rn0, hrn0, hpar⟩ :=
    create_scene_hash_spec hash256 fuel heap0 data scene hfuel
  rw [scene_tree_first_camera hash256 scene c0 cs hcam] at hrep
  have hrep0 := hrep
  rw [scene_tree_with] at hrep
  obtain ⟨rn, hrn, hrid, hrh, hrc⟩ := (represents_iff _ _ _).mp hrep
  rw [hrn0] at hrn
  cases hrn
  simp only [HTree.children, HTree.id, HTree.hash] at hrid hrh hrc
  rcases rn0 with ⟨rp, rcs, rh, rid⟩
  simp only at hpar hrid hrh hrc
  subst hpar hrid hrh
  cases rcs with
  | nil => simp [represents_all] at hrc
  | cons k0 krest =>
    simp only [represents_all] at hrc
    obtain ⟨hk0, hkrest⟩ := hrc
    obtain ⟨kn, hkn, hkid, hkh, hkc⟩ := (represents_iff _ _ _).mp hk0
    simp only [HTree.children, HTree.id, HTree.hash] at hkid hkh hkc
    obtain ⟨-, kn1, hkn1, hkp⟩ := (hf _ _ (Nat.le_refl _) hrn0).2 k0 (List.mem_cons_self _ _)
    have hk0b : heap0.length < k0 := ((hf _ _ (Nat.le_refl _) hrn0).2 k0 (List.mem_cons_self _ _)).1
    rw [hkn] at hkn1
    cases hkn1
    rcases kn with ⟨kp, kcs, kh, kid⟩
    simp only at hkp hkid hkh hkc
    subst hkp hkid hkh
    cases kcs with
    | nil => simp [represents_all] at hkc
    | cons l lrest =>
      simp only [represents_all] at hkc
      obtain ⟨hl0, hlrest⟩ := hkc
      obtain ⟨ln, hln, hlid, hlh, hlc⟩ := (represents_iff _ _ _).mp hl0
      simp only [HTree.children, HTree.id, HTree.hash, represents_all_nil_iff] at hlid hlh hlc
      obtain ⟨-, ln1, hln1, hlp⟩ := (hf _ _ (by omega) hkn).2 l (List.mem_cons_self _ _)
      rw [hln] at hln1
      cases hln1
      rcases ln with ⟨lp, lcs, lh, lid⟩
      simp only at hlp hlid hlh hlc
      subst hlp hlid hlh hlc
      exact ⟨heap, k0, l, krest, lrest, hrun, hsub, hrn0, hkn, hln, hkrest, hlrest, hrep0⟩

theorem scene_tree_with_ids (hash256 : Bytes → Hash) (scene : scene_data) (hash : Hash) :
    ((scene_tree_with hash256 scene hash).children.map HTree.id).Nodup := by
  simp only [scene_tree_with, HTree.children, List.map_cons, HTree.id, category_trees_rest,
    rehash_all_ids, category_trees_ids, List.nodup_cons, List.mem_range']
  refine ⟨?_, List.nodup_range' _ _⟩
  rintro ⟨i, -, h⟩
  omega

theorem scene_tree_with_height (hash256 : Bytes → Hash) (scene : scene_data) (c0 : Bytes)
    (cs : List Bytes) (hcam : scene.cameras = c0 :: cs) :
    (scene_tree_with hash256 scene (make_hash hash256 c0)).height ≤ 4 := by
  rw [← scene_tree_first_camera hash256 scene c0 cs hcam]
  exact scene_tree_height hash256 scene

/-- The diff between the tree of a snapshot and the tree with another hash at the first
camera, for a hash function without collisions. -/
theorem diff_trees_first_camera (hash256 : Bytes → Hash) (hinj : Function.Injective hash256)
    (scene : scene_data) (h0 hv : Hash) :
    diff_trees (scene_tree_with hash256 scene hv).children
        (scene_tree_with hash256 scene h0).children =
      if hv = h0 then []
      else [.node 0 (cameras_hash hash256 scene hv) [.node 0 hv []]] := by
  by_cases h : hv = h0
  · subst h
    rw [if_pos rfl]
    exact diff_trees_self _ (scene_tree_with_ids hash256 scene hv)
  · rw [if_neg h]
    have hne : cameras_hash hash256 scene h0 ≠ cameras_hash hash256 scene hv := by
      intro he
      simp only [cameras_hash, make_hash] at he
      exact h (List.append_cancel_right (hinj he)).symm
    have hne' : h0 ≠ hv := fun e => h e.symm
    simp [scene_tree_with, HTree.children, diff_trees, diff_below, find_id, HTree.id,
      HTree.hash, hne, hne']

/-- C6, amended: for a hash function without collisions and every scene with at least one
camera, the snapshot `S` that `create_scene_hash` returns and the snapshot that
`edit_node` returns for the first camera of `S` and a value `value`: `make_diff` between
the two returns a diff tree that is empty when the hash of `value` is the hash of the
camera, and otherwise has exactly two nodes below the diff root, one for the cameras node
with its id and the hash of its copy in the edited snapshot, and below it one for the
camera with its id and the hash of `value`. -/
theorem make_diff_edit_first_camera (hash256 : Bytes → Hash)
    (hinj : Function.Injective hash256) (fuel fuel1 fuel2 : Nat) (heap0 : Heap)
    (data : Data_Table) (scene : scene_data) (T : TypeInfo) (value : Bytes)
    (hfuel : 3 ≤ fuel) (hfuel1 : 3 ≤ fuel1) (hfuel2 : 4 ≤ fuel2)
    (hcam : scene.cameras ≠ []) :
    ∃ heap data1 root leaf ln root1 heap1 data2 rn1 cameras1 cn1 heap2 diff_root,
      create_scene_hash hash256 fuel heap0 data scene = some (heap, data1, root) ∧
      Scene_Hash.node heap root 0 0 = some leaf ∧ heap[leaf]? = some ln ∧
      edit_node hash256 fuel1 heap data1 T leaf value = some (root1, heap1, data2) ∧
      heap1[root1]? = some rn1 ∧ rn1.children[0]? = some cameras1 ∧
      heap1[cameras1]? = some cn1 ∧
      make_diff fuel2 heap1 root root1 = some (heap2, diff_root) ∧
      represents heap2 diff_root
        (.node no_id invalid_hash
          (if make_hash hash256 value = ln.hash then []
           else [.node cn1.id cn1.hash [.node ln.id (make_hash hash256 value) []]])) := by
  cases hc : scene.cameras with
  | nil => exact absurd hc hcam
  | cons c0 cs =>
    obtain ⟨heap, k0, l, krest, lrest, hrun, -, hb, hk, hl, hcats, hcams, hrep0⟩ :=
      first_camera_nodes hash256 fuel heap0 data scene c0 cs hc hfuel
    have hedit := edit_two_levels hash256
      (add_blobs hash256 data (categories_vecs (scene_entities scene))) T value
      hb rfl rfl hk rfl rfl hl rfl rfl hcats hcams hfuel1
    have hrep1 := edit_two_levels_represents k0 heap0.length no_id 0 0
      (make_hash hash256 (cameras_hash hash256 scene (make_hash hash256 value) ++
        hashes_of (category_trees_rest hash256 scene)))
      (cameras_hash hash256 scene (make_hash hash256 value)) (make_hash hash256 value)
      hcats hcams
    have hsub : Sub heap (heap ++ [Hash_Node.mk (some k0) [] (make_hash hash256 value) 0,
        Hash_Node.mk (some heap0.length) (heap.length :: lrest)
          (cameras_hash hash256 scene (make_hash hash256 value)) 0,
        Hash_Node.mk none ((heap.length + 1) :: krest)
          (make_hash hash256 (cameras_hash hash256 scene (make_hash hash256 value) ++
            hashes_of (category_trees_rest hash256 scene))) no_id]) :=
      (Sub.refl heap).append _
    obtain ⟨heap2, hdiff, -, hd⟩ := make_diff_spec (represents_sub hsub _ _ hrep0) hrep1
      (Nat.le_trans (scene_tree_with_height hash256 scene c0 cs hc) hfuel2)
    have hd' := hd
    rw [show (HTree.node no_id
        (make_hash hash256 (cameras_hash hash256 scene (make_hash hash256 value) ++
          hashes_of (category_trees_rest hash256 scene)))
        (HTree.node 0 (cameras_hash hash256 scene (make_hash hash256 value))
            (HTree.node 0 (make_hash hash256 value) [] :: camera_trees hash256 scene) ::
          category_trees_rest hash256 scene)) =
        scene_tree_with hash256 scene (make_hash hash256 value) from rfl,
      diff_trees_first_camera hash256 hinj] at hd'
    refine ⟨heap, _, _, l, _, _, _, _,
      Hash_Node.mk none ((heap.length + 1) :: krest)
        (make_hash hash256 (cameras_hash hash256 scene (make_hash hash256 value) ++
          hashes_of (category_trees_rest hash256 scene))) no_id,
      heap.length + 1,
      Hash_Node.mk (some heap0.length) (heap.length :: lrest)
        (cameras_hash hash256 scene (make_hash hash256 value)) 0,
      heap2, _, hrun, ?_, hl, hedit, ?_, by simp, ?_, hdiff, hd'⟩
    · simp [Scene_Hash.node, Scene_Hash.category, hb, hk]
    · rw [List.getElem?_append_right (by omega)]; simp [cameras_hash]
    · rw [List.getElem?_append_right (by omega)]; simp [cameras_hash]

theorem make_diff_edit_first_camera_witness :
    Function.Injective sample_hash256 ∧ 3 ≤ 3 ∧ 3 ≤ 3 ∧ 4 ≤ 4 ∧ sample_scene.cameras ≠ [] ∧
    ∃ heap data1 root leaf ln root1 heap1 data2 rn1 cameras1 cn1 heap2 diff_root,
      create_scene_hash sample_hash256 3 [] ⟨[]⟩ sample_scene = some (heap, data1, root) ∧
      Scene_Hash.node heap root 0 0 = some leaf ∧ heap[leaf]? = some ln ∧
      edit_node sample_hash256 3 heap data1 sample_type leaf [7] = some (root1, heap1, data2) ∧
      heap1[root1]? = some rn1 ∧ rn1.children[0]? = some cameras1 ∧
      heap1[cameras1]? = some cn1 ∧
      make_diff 4 heap1 root root1 = some (heap2, diff_root) ∧
      represents heap2 diff_root
        (.node no_id invalid_hash
          (if make_hash sample_hash256 [7] = ln.hash then []
           else [.node cn1.id cn1.hash [.node ln.id (make_hash sample_hash256 [7]) []]])) :=
  ⟨fun a b h => by simpa [sample_hash256] using h, by decide, by decide, by decide, by decide,
    make_diff_edit_first_camera sample_hash256 (fun a b h => by simpa [sample_hash256] using h)
      3 3 4 [] ⟨[]⟩ sample_scene sample_type [7] (by decide) (by decide) (by decide)
      (by decide)⟩

/-- C6, as stated, fails at the first camera of the sample snapshot (node 8, value `[1]`)
edited to its own value: the path from the leaf to the root has two nodes below the
root, and the diff has no entry. -/
theorem make_diff_edit_same_value :
    Scene_Hash.node sample_heap 0 0 0 = some 8 ∧
    Scene_Hash.cameras_at sample_yocto sample_heap sample_data 0 0 = some [1] ∧
    diff_after_edit 8 [1] = some [] := by
  decide!

/-! ## The store of a built and edited snapshot -/

theorem find_append {Key Value : Type} [DecidableEq Key] (m : hash_map Key Value) (k : Key)
    (v : Value) (k1 : Key) :
    hash_map.find (m ++ [(k, v)]) k1 =
      match hash_map.find m k1 with
      | some x => some x
      | none => if k = k1 then some v else none := by
  induction m with
  | nil => simp [hash_map.find]
  | cons e rest ih =>
    obtain ⟨a, b⟩ := e
    by_cases h : a = k1
    · simp [hash_map.find, h]
    · simp [hash_map.find, h, ih]

theorem maybe_add_content (hash256 : Bytes → Hash) (data : Data_Table) (vec : List Bytes)
    (h : content_addressed hash256 data) :
    content_addressed hash256 (Data_Table.maybe_add hash256 data vec).1 := by
  unfold Data_Table.maybe_add
  by_cases hv : vec = []
  · simpa [hv] using h
  · simp only [hv, if_false]
    cases hf : hash_map.find data.map (make_hash hash256 vec.flatten) with
    | some x => exact h
    | none =>
      intro e he
      rcases List.mem_append.mp he with he | he
      · exact h e he
      · simp only [List.mem_singleton] at he
        subst he
        rfl

theorem maybe_add_find (hash256 : Bytes → Hash) (data : Data_Table) (vec : List Bytes)
    (k : Hash) (hk : hash_map.find data.map k ≠ none) :
    hash_map.find (Data_Table.maybe_add hash256 data vec).1.map k ≠ none := by
  unfold Data_Table.maybe_add
  by_cases hv : vec = []
  · simpa [hv] using hk
  · simp only [hv, if_false]
    cases hf : hash_map.find data.map (make_hash hash256 vec.flatten) with
    | some x => exact hk
    | none =>
      simp only [find_append]
      cases hk1 : hash_map.find data.map k with
      | none => exact absurd hk1 hk
      | some y => simp

theorem maybe_add_backed (hash256 : Bytes → Hash) (data : Data_Table) (vec : List Bytes) :
    backed (Data_Table.maybe_add hash256 data vec).1 (leaf_hash hash256 vec) := by
  unfold Data_Table.maybe_add leaf_hash backed
  by_cases hv : vec = []
  · simp [hv]
  · simp only [hv, if_false]
    right
    cases hf : hash_map.find data.map (make_hash hash256 vec.flatten) with
    | some x => simp [hf]
    | none => simp [find_append, hf]

theorem add_blobs_content (hash256 : Bytes → Hash) :
    ∀ (vecs : List (List Bytes)) (data : Data_Table), content_addressed hash256 data →
      content_addressed hash256 (add_blobs hash256 data vecs)
  | [], _, h => h
  | vec :: rest, data, h =>
    add_blobs_content hash256 rest _ (maybe_add_content hash256 data vec h)

theorem add_blobs_find (hash256 : Bytes → Hash) (k : Hash) :
    ∀ (vecs : List (List Bytes)) (data : Data_Table), hash_map.find data.map k ≠ none →
      hash_map.find (add_blobs hash256 data vecs).map k ≠ none
  | [], _, h => h
  | vec :: rest, data, h => add_blobs_find hash256 k rest _ (maybe_add_find hash256 data vec k h)

/-- After `maybe_add` of the vectors of a list, the hash of each of them is the all-zero
hash or the key of a blob. -/
theorem add_blobs_backed (hash256 : Bytes → Hash) :
    ∀ (vecs : List (List Bytes)) (data : Data_Table), ∀ vec ∈ vecs,
      backed (add_blobs hash256 data vecs) (leaf_hash hash256 vec)
  | [], _, _, h => absurd h (List.not_mem_nil _)
  | v :: rest, data, vec, h => by
    rcases List.mem_cons.mp h with rfl | h
    · rcases maybe_add_backed hash256 data vec with h0 | h1
      · exact Or.inl h0
      · exact Or.inr (add_blobs_find hash256 _ rest _ h1)
    · exact add_blobs_backed hash256 rest _ vec h

theorem represents_rehash_children {hash256 : Bytes → Hash} {heap : Heap} {p : Nat} {t : HTree}
    (h : represents heap p (rehash hash256 t)) :
    ∃ n, heap[p]? = some n ∧ represents_all heap n.children (rehash_all hash256 t.children) := by
  cases t with
  | node id hash ts =>
    cases ts with
    | nil =>
      obtain ⟨n, hn, -, -, hall⟩ := (represents_iff _ _ _).mp h
      exact ⟨n, hn, by simpa [rehash, HTree.children, rehash_all] using hall⟩
    | cons a b =>
      obtain ⟨n, hn, -, -, hall⟩ := (represents_iff _ _ _).mp h
      exact ⟨n, hn, by simpa [rehash, HTree.children] using hall⟩

theorem rehash_all_mem (hash256 : Bytes → Hash) :
    ∀ (ts : List HTree) (t : HTree), t ∈ rehash_all hash256 ts →
      ∃ t0 ∈ ts, t = rehash hash256 t0
  | [], _, h => by simp [rehash_all] at h
  | a :: ts, t, h => by
    simp only [rehash_all, List.mem_cons] at h
    rcases h with rfl | h
    · exact ⟨a, List.mem_cons_self _ _, rfl⟩
    · obtain ⟨t0, h0, e⟩ := rehash_all_mem hash256 ts t h
      exact ⟨t0, List.mem_cons_of_mem _ h0, e⟩

theorem entity_trees_mem (hash256 : Bytes → Hash) :
    ∀ (es : List entity) (i : Nat) (t : HTree), t ∈ entity_trees hash256 es i →
      ∃ e ∈ es, ∃ id, t = entity_tree hash256 e id
  | [], _, _, h => by simp [entity_trees] at h
  | e :: es, i, t, h => by
    simp only [entity_trees, List.mem_cons] at h
    rcases h with rfl | h
    · exact ⟨e, List.mem_cons_self _ _, i, rfl⟩
    · obtain ⟨e1, h1, id, e2⟩ := entity_trees_mem hash256 es (i + 1) t h
      exact ⟨e1, List.mem_cons_of_mem _ h1, id, e2⟩

theorem mem_entities_vecs (vec : List Bytes) :
    ∀ es : List entity, vec ∈ entities_vecs es ↔ ∃ e ∈ es, vec ∈ entity_vecs e
  | [] => by simp [entities_vecs]
  | e :: es => by simp [entities_vecs, mem_entities_vecs vec es]

theorem mem_categories_vecs (vec : List Bytes) :
    ∀ ess : List (List entity), vec ∈ categories_vecs ess ↔ ∃ es ∈ ess, vec ∈ entities_vecs es
  | [] => by simp [categories_vecs]
  | es :: ess => by simp [categories_vecs, mem_categories_vecs vec ess]

theorem node_eq_some {heap : Heap} {root k i q : Nat} :
    Scene_Hash.node heap root k i = some q ↔
      ∃ r c cn, heap[root]? = some r ∧ r.children[k]? = some c ∧ heap[c]? = some cn ∧
        cn.children[i]? = some q := by
  simp only [Scene_Hash.node, Scene_Hash.category, Option.bind_eq_bind, Option.bind_eq_some,
    Option.some.injEq]
  constructor
  · rintro ⟨cs, ⟨r, hr, c, hc, cn, hcn, rfl⟩, hq⟩
    exact ⟨r, c, cn, hr, hc, hcn, hq⟩
  · rintro ⟨r, c, cn, hr, hc, hcn, hq⟩
    exact ⟨_, ⟨r, hr, c, hc, cn, hcn, rfl⟩, hq⟩

theorem num_eq {heap : Heap} {root k c : Nat} {r cn : Hash_Node} (hr : heap[root]? = some r)
    (hc : r.children[k]? = some c) (hcn : heap[c]? = some cn) :
    Scene_Hash.num heap root k = some cn.children.length := by
  have hlt : ¬ r.children.length ≤ k := by
    intro h
    rw [List.getElem?_eq_none h] at hc
    cases hc
  simp [Scene_Hash.num, hr, hlt, hc, hcn]

theorem num_eq_zero {heap : Heap} {root k : Nat} {r : Hash_Node} (hr : heap[root]? = some r)
    (hk : r.children.length ≤ k) : Scene_Hash.num heap root k = some 0 := by
  simp [Scene_Hash.num, hr, hk]

theorem apply_diff_category_skip {heap : Heap} {α : Type} {root k : Nat} {r : Hash_Node}
    (hr : heap[root]? = some r) (hk : r.children.length ≤ k) (resolve : Nat → Option α)
    (m : hash_map Nat α) : apply_diff_category heap root k resolve m = some m := by
  simp only [apply_diff_category, num_eq_zero hr hk, apply_diff_loop]

theorem find_none_of_not_key {Key Value : Type} [DecidableEq Key] :
    ∀ (m : hash_map Key Value) (k : Key), (∀ e ∈ m, e.1 ≠ k) → hash_map.find m k = none
  | [], _, _ => rfl
  | (a, b) :: rest, k, h => by
    have h1 : a ≠ k := h (a, b) (List.mem_cons_self _ _)
    simp only [hash_map.find, h1, if_false]
    exact find_none_of_not_key rest k (fun e he => h e (List.mem_cons_of_mem _ he))

theorem view_of_flatten (sizeof : Nat) :
    ∀ xs : List Bytes, (∀ x ∈ xs, x.length = sizeof) → view_of sizeof xs.flatten xs.length = xs
  | [], _ => rfl
  | x :: xs, h => by
    have hx : x.length = sizeof := h x (List.mem_cons_self _ _)
    simp only [List.flatten_cons, List.length_cons, view_of]
    rw [← hx, List.take_left, List.drop_left, hx,
      view_of_flatten sizeof xs (fun y hy => h y (List.mem_cons_of_mem _ hy))]

theorem length_flatten_of_sizeof (sizeof : Nat) :
    ∀ xs : List Bytes, (∀ x ∈ xs, x.length = sizeof) → xs.flatten.length = xs.length * sizeof
  | [], _ => by simp
  | x :: xs, h => by
    have hx : x.length = sizeof := h x (List.mem_cons_self _ _)
    simp only [List.flatten_cons, List.length_append, List.length_cons, hx,
      length_flatten_of_sizeof sizeof xs (fun y hy => h y (List.mem_cons_of_mem _ hy))]
    rw [Nat.add_mul, Nat.one_mul, Nat.add_comm]

/-- C15: `maybe_add` of a buffer right after `maybe_add` of the same buffer returns the
same hash, leaves the store as the first call left it, and the store has then at most
one entry more than before the two calls. -/
theorem maybe_add_twice (hash256 : Bytes → Hash) (data : Data_Table) (x : List Bytes) :
    (Data_Table.maybe_add hash256 (Data_Table.maybe_add hash256 data x).1 x).2 =
      (Data_Table.maybe_add hash256 data x).2 ∧
    (Data_Table.maybe_add hash256 (Data_Table.maybe_add hash256 data x).1 x).1 =
      (Data_Table.maybe_add hash256 data x).1 ∧
    (Data_Table.maybe_add hash256 (Data_Table.maybe_add hash256 data x).1 x).1.map.length ≤
      data.map.length + 1 := by
  by_cases hx : x = []
  · simp [Data_Table.maybe_add, hx]
  · cases hf : hash_map.find data.map (make_hash hash256 x.flatten) with
    | some b => simp [Data_Table.maybe_add, hx, hf]
    | none => simp [Data_Table.maybe_add, hx, hf, find_append]

/-- C16, as stated, fails for the empty buffer: whatever the hash function, as long as
the hash of the empty byte string is not the all-zero hash, `maybe_add` of the empty
buffer does not return the content hash of the buffer. -/
theorem maybe_add_empty_not_content_hash :
    ¬ ∃ hash256 : Bytes → Hash, hash256 [] ≠ invalid_hash ∧
      (Data_Table.maybe_add hash256 ⟨[]⟩ []).2 = make_hash hash256 ([] : List Bytes).flatten := by
  rintro ⟨hash256, hne, h⟩
  simp [Data_Table.maybe_add, make_hash] at h
  exact hne h.symm

/-- C16, amended: `maybe_add` of a buffer that is not empty returns the content hash of
the buffer; if no blob was stored under that hash, the store afterwards is the old store
with one more entry, the bytes of the buffer under that hash; if one was stored, the
store is unchanged.  `maybe_add` of the empty buffer returns `invalid_hash` and leaves
the store unchanged. -/
theorem maybe_add_result (hash256 : Bytes → Hash) (data : Data_Table) (x : List Bytes) :
    (x = [] → Data_Table.maybe_add hash256 data x = (data, invalid_hash)) ∧
    (x ≠ [] →
      (Data_Table.maybe_add hash256 data x).2 = make_hash hash256 x.flatten ∧
      (hash_map.find data.map (make_hash hash256 x.flatten) = none →
        (Data_Table.maybe_add hash256 data x).1.map =
          data.map ++ [(make_hash hash256 x.flatten, x.flatten)] ∧
        hash_map.find (Data_Table.maybe_add hash256 data x).1.map
          (make_hash hash256 x.flatten) = some x.flatten) ∧
      (hash_map.find data.map (make_hash hash256 x.flatten) ≠ none →
        (Data_Table.maybe_add hash256 data x).1 = data)) := by
  refine ⟨fun hx => by simp [Data_Table.maybe_add, hx], fun hx => ?_⟩
  cases hf : hash_map.find data.map (make_hash hash256 x.flatten) with
  | some b => simp [Data_Table.maybe_add, hx, hf]
  | none => simp [Data_Table.maybe_add, hx, hf, find_append]

/-- C17, as stated, fails for `set` with a hash under which another blob is stored: the
store holds the blob `[1]` under its hash, and after `set` of the value `[2]` under that
hash the entry holds `[2]`. -/
theorem set_replaces_entry :
    hash_map.find (Data_Table.mk [(sample_hash256 [1], [1])]).map (sample_hash256 [1]) =
      some [1] ∧
    hash_map.find
      ((Data_Table.mk [(sample_hash256 [1], [1])]).set sample_type (sample_hash256 [1]) [2]).1.map
      (sample_hash256 [1]) = some [2] := by
  decide

/-- C17, amended: `maybe_add` keeps every entry of the store; `set` of a value under the
hash `h` keeps every entry under another hash, keeps every entry when the value is the
default value, and keeps every entry when `h` is the hash of the value, the store is
content addressed and no stored blob collides with the value. -/
theorem store_entries_kept (hash256 : Bytes → Hash) (data : Data_Table) :
    (∀ (x : List Bytes) (h : Hash) (b : Bytes), hash_map.find data.map h = some b →
      hash_map.find (Data_Table.maybe_add hash256 data x).1.map h = some b) ∧
    (∀ (T : TypeInfo) (h : Hash) (value : Bytes) (h1 : Hash) (b : Bytes), h1 ≠ h →
      hash_map.find data.map h1 = some b →
      hash_map.find (data.set T h value).1.map h1 = some b) ∧
    (∀ (T : TypeInfo) (h h1 : Hash) (b : Bytes), hash_map.find data.map h1 = some b →
      hash_map.find (data.set T h T.default_value).1.map h1 = some b) ∧
    (∀ (T : TypeInfo) (value : Bytes), content_addressed hash256 data →
      (∀ e ∈ data.map, make_hash hash256 e.2 = make_hash hash256 value → e.2 = value) →
      ∀ (h1 : Hash) (b : Bytes), hash_map.find data.map h1 = some b →
        hash_map.find (data.set T (make_hash hash256 value) value).1.map h1 = some b) := by
  refine ⟨?_, ?_, ?_, ?_⟩
  · intro x h b hb
    by_cases hx : x = []
    · simpa [Data_Table.maybe_add, hx] using hb
    · cases hf : hash_map.find data.map (make_hash hash256 x.flatten) with
      | some b1 => simpa [Data_Table.maybe_add, hx, hf] using hb
      | none => simp [Data_Table.maybe_add, hx, hf, find_append, hb]
  · intro T h value h1 b hne hb
    by_cases hd : value = T.default_value
    · simpa [Data_Table.set, hd] using hb
    · simp only [Data_Table.set, hd, if_false, find_assign, hb]
      rw [if_neg (fun e => hne e.symm)]
  · intro T h h1 b hb
    simpa [Data_Table.set] using hb
  · intro T value hstore hcoll h1 b hb
    rw [find_set hash256 data T value hstore hcoll h1 (fun _ => Or.inl (by simp [hb]))]
    exact hb

/-- C18: for a hash that is not a key of the store, `get` returns the default value and
`get_view` returns the empty view; both are functions of the store that return no
store. -/
theorem get_absent (data : Data_Table) (T : TypeInfo) (sizeof : Nat) (hash : Hash)
    (h : ∀ e ∈ data.map, e.1 ≠ hash) :
    data.get T hash = some T.default_value ∧ data.get_view sizeof hash = [] ∧
      (data.get_view sizeof hash).length = 0 := by
  simp [Data_Table.get, Data_Table.get_view, find_none_of_not_key data.map hash h]

theorem get_absent_witness :
    (∀ e ∈ sample_data.map, e.1 ≠ [9]) ∧
    sample_data.get sample_type [9] = some sample_type.default_value ∧
    sample_data.get_view 4 [9] = [] ∧ (sample_data.get_view 4 [9]).length = 0 :=
  ⟨by decide!, get_absent sample_data sample_type 4 [9] (by decide!)⟩

/-- C19: `set` of the default value returns `false` and the store unchanged; `set` of
another value of the size of `T` returns `true` and a store that maps the hash to the
`sizeof(T)` bytes of the value and every other hash to what it was mapped to before. -/
theorem set_result (data : Data_Table) (T : TypeInfo) (h : Hash) (value : Bytes)
    (hsize : value.length = T.sizeof) :
    (value = T.default_value → data.set T h value = (data, false)) ∧
    (value ≠ T.default_value →
      (data.set T h value).2 = true ∧
      hash_map.find (data.set T h value).1.map h = some value ∧
      (∃ b, hash_map.find (data.set T h value).1.map h = some b ∧ b.length = T.sizeof) ∧
      ∀ h1, h1 ≠ h →
        hash_map.find (data.set T h value).1.map h1 = hash_map.find data.map h1) := by
  refine ⟨fun hd => by simp [Data_Table.set, hd], fun hd => ?_⟩
  simp only [Data_Table.set, hd, if_false, find_assign, if_true, true_and]
  exact ⟨⟨value, rfl, hsize⟩, fun h1 hne => if_neg (fun e => hne e.symm)⟩

theorem set_result_witness :
    ([7] : Bytes).length = sample_type.sizeof ∧
    (([7] : Bytes) = sample_type.default_value →
      sample_data.set sample_type [1, 7] [7] = (sample_data, false)) ∧
    (([7] : Bytes) ≠ sample_type.default_value →
      (sample_data.set sample_type [1, 7] [7]).2 = true ∧
      hash_map.find (sample_data.set sample_type [1, 7] [7]).1.map [1, 7] = some [7] ∧
      (∃ b, hash_map.find (sample_data.set sample_type [1, 7] [7]).1.map [1, 7] = some b ∧
        b.length = sample_type.sizeof) ∧
      ∀ h1, h1 ≠ [1, 7] →
        hash_map.find (sample_data.set sample_type [1, 7] [7]).1.map h1 =
          hash_map.find sample_data.map h1) :=
  ⟨by decide, set_result sample_data sample_type [1, 7] [7] (by decide)⟩

/-- C20: for a hash function without collisions, a content addressed store, an element
size that is not 0 and an array `xs` of elements of that size that is not empty: after
`maybe_add(xs)` the store holds under the returned hash a blob whose length is
`length(xs)` times the element size, and `get_view` of the returned hash has
`length(xs)` elements, which are the elements of `xs` in order. -/
theorem get_view_maybe_add (hash256 : Bytes → Hash) (hinj : Function.Injective hash256)
    (data : Data_Table) (hstore : content_addressed hash256 data) (sizeof : Nat)
    (hpos : 0 < sizeof) (xs : List Bytes) (hne : xs ≠ [])
    (hlen : ∀ x ∈ xs, x.length = sizeof) :
    ∃ blob,
      hash_map.find (Data_Table.maybe_add hash256 data xs).1.map
        (Data_Table.maybe_add hash256 data xs).2 = some blob ∧
      blob.length = xs.length * sizeof ∧ blob.length / sizeof = xs.length ∧
      (Data_Table.maybe_add hash256 data xs).1.get_view sizeof
        (Data_Table.maybe_add hash256 data xs).2 = xs ∧
      ((Data_Table.maybe_add hash256 data xs).1.get_view sizeof
        (Data_Table.maybe_add hash256 data xs).2).length = xs.length := by
  have hl := length_flatten_of_sizeof sizeof xs hlen
  have hdiv : xs.flatten.length / sizeof = xs.length := by
    rw [hl]; exact Nat.mul_div_cancel _ hpos
  have hfind : hash_map.find (Data_Table.maybe_add hash256 data xs).1.map
      (Data_Table.maybe_add hash256 data xs).2 = some xs.flatten := by
    cases hf : hash_map.find data.map (make_hash hash256 xs.flatten) with
    | some b =>
      have hb : b = xs.flatten := hinj (hstore _ (mem_of_find hf)).symm
      simp [Data_Table.maybe_add, hne, hf, hb]
    | none => simp [Data_Table.maybe_add, hne, hf, find_append]
  refine ⟨xs.flatten, hfind, hl, hdiv, ?_, ?_⟩
  · simp only [Data_Table.get_view, hfind, hdiv]
    exact view_of_flatten sizeof xs hlen
  · simp only [Data_Table.get_view, hfind, hdiv]
    rw [view_of_flatten sizeof xs hlen]

theorem get_view_maybe_add_witness :
    Function.Injective sample_hash256 ∧ content_addressed sample_hash256 sample_data ∧
    0 < 2 ∧ ([[1, 2], [3, 4]] : List Bytes) ≠ [] ∧
    (∀ x ∈ ([[1, 2], [3, 4]] : List Bytes), x.length = 2) ∧
    ∃ blob,
      hash_map.find (Data_Table.maybe_add sample_hash256 sample_data [[1, 2], [3, 4]]).1.map
        (Data_Table.maybe_add sample_hash256 sample_data [[1, 2], [3, 4]]).2 = some blob ∧
      blob.length = ([[1, 2], [3, 4]] : List Bytes).length * 2 ∧
      blob.length / 2 = ([[1, 2], [3, 4]] : List Bytes).length ∧
      (Data_Table.maybe_add sample_hash256 sample_data [[1, 2], [3, 4]]).1.get_view 2
        (Data_Table.maybe_add sample_hash256 sample_data [[1, 2], [3, 4]]).2 =
        [[1, 2], [3, 4]] ∧
      ((Data_Table.maybe_add sample_hash256 sample_data [[1, 2], [3, 4]]).1.get_view 2
        (Data_Table.maybe_add sample_hash256 sample_data [[1, 2], [3, 4]]).2).length =
        ([[1, 2], [3, 4]] : List Bytes).length :=
  ⟨(fun a b h => by simpa [sample_hash256] using h),
    (by unfold content_addressed; decide!), by decide, by decide, by decide,
    get_view_maybe_add sample_hash256 (fun a b h => by simpa [sample_hash256] using h)
      sample_data (by unfold content_addressed; decide!) 2 (by decide) [[1, 2], [3, 4]] (by decide) (by decide)⟩

/-! ## `make_diff` reports no additions -/

theorem diff_trees_additions_absent (as bs : List HTree) :
    additions_absent as bs (diff_trees bs as) := by
  intro id _ hnot hmem
  obtain ⟨d, hd, rfl⟩ := List.mem_map.mp hmem
  obtain ⟨c, hc, hid, -⟩ := diff_trees_mem bs as d hd
  exact hnot (List.mem_map.mpr ⟨c, hc, hid⟩)

theorem diff_trees_additions_below :
    ∀ (rest as bs : List HTree), (∀ c ∈ rest, c ∈ as) →
      additions_absent_below as bs (diff_trees bs rest)
  | [], _, _, _ => by simp [diff_trees, additions_absent_below]
  | a :: rest, as, bs, hsub => by
    have ih := diff_trees_additions_below rest as bs
      (fun c hc => hsub c (List.mem_cons_of_mem _ hc))
    have ha : a ∈ as := hsub a (List.mem_cons_self _ _)
    cases hf : find_id a.id bs with
    | none =>
      simp only [diff_trees, hf, additions_absent_below, additions_absent_in]
      exact ⟨Or.inl trivial, ih⟩
    | some b =>
      by_cases heq : a.hash = b.hash
      · simpa only [diff_trees, hf, heq, if_true] using ih
      · simp only [diff_trees, hf, heq, if_false, additions_absent_below,
          additions_absent_in, and_true]
        refine Or.inr ⟨a, b, ha, rfl, rfl, ?_, ?_⟩
        · rw [diff_below_eq]
          exact diff_trees_additions_absent _ _
        · rw [diff_below_eq]
          cases a with
          | node id h cs =>
            exact diff_trees_additions_below cs cs b.children (fun c hc => hc)

/-- C11: on two represented trees `make_diff` (with fuel for the height of the first
tree) returns a diff root such that, at the root pair and at every pair visited below
it, an id that occurs among the children of the node of the second tree and not among
the children of the node of the first tree does not occur among the children of the diff
node of the pair. -/
theorem make_diff_no_additions (fuel : Nat) (heap : Heap) (r0 r1 : Nat) (ta tb : HTree)
    (ha : represents heap r0 ta) (hb : represents heap r1 tb) (hfuel : ta.height ≤ fuel) :
    ∃ heap1 ds, make_diff fuel heap r0 r1 = some (heap1, heap.length) ∧
      represents heap1 heap.length (HTree.node no_id invalid_hash ds) ∧
      additions_absent ta.children tb.children ds ∧
      additions_absent_below ta.children tb.children ds := by
  obtain ⟨heap1, hrun, -, hrep⟩ := make_diff_spec ha hb hfuel
  exact ⟨heap1, _, hrun, hrep, diff_trees_additions_absent _ _,
    diff_trees_additions_below _ _ _ (fun c hc => hc)⟩

/-- Two snapshots built one after the other from the scenes with the cameras `[1]` and
`[1], [2]`: the roots are the nodes 0 and 9, and the second one has one camera more. -/
theorem make_diff_no_additions_witness :
    ∃ heap ta tb, build_two (scene_of_cameras [[1]]) (scene_of_cameras [[1], [2]]) =
        some (heap, add_blobs sample_hash256 ⟨[]⟩ [[[1]], [[1]], [[2]]], 0, 9) ∧
      represents heap 0 ta ∧ represents heap 9 tb ∧ ta.height ≤ 3 ∧
      ∃ heap1 ds, make_diff 3 heap 0 9 = some (heap1, heap.length) ∧
        represents heap1 heap.length (HTree.node no_id invalid_hash ds) ∧
        additions_absent ta.children tb.children ds ∧
        additions_absent_below ta.children tb.children ds :=
  ⟨two_cameras_heap, _, _, by decide!,
    tree_at_getD two_cameras_heap 4 0 (.node 0 [] []) (by decide!),
    tree_at_getD two_cameras_heap 4 9 (.node 0 [] []) (by decide!), by decide!,
    make_diff_no_additions 3 two_cameras_heap 0 9 _ _
      (tree_at_getD two_cameras_heap 4 0 (.node 0 [] []) (by decide!))
      (tree_at_getD two_cameras_heap 4 9 (.node 0 [] []) (by decide!)) (by decide!)⟩

/-! ## `apply_diff` on diffs of built snapshots -/

/-- C12 at the snapshots of the scenes with the cameras `[1], [2]` and the shapes with
ids 0 and 1, and with the same cameras and the shape with id 0 only: the diff holds a
tombstone for the id 1 below the diff node with the id 3 of the shapes; after
`apply_diff` the shapes of the projection still have the ids 0 and 1, and the cameras
have lost the id 1. -/
theorem apply_diff_tombstone_sample :
    (diff_of_two
        (scene_of_shapes [[1], [2]] [sample_shape [1, 0, 0, 0], sample_shape [2, 0, 0, 0]])
        (scene_of_shapes [[1], [2]] [sample_shape [1, 0, 0, 0]])).map
      (List.map (fun e => (e.1, decide (e.2 = invalid_hash)))) =
      some [([3], false), ([3, 1], true)] ∧
    (first_view
        (scene_of_shapes [[1], [2]] [sample_shape [1, 0, 0, 0], sample_shape [2, 0, 0, 0]])
        (scene_of_shapes [[1], [2]] [sample_shape [1, 0, 0, 0]])).map
      (fun view => (view._cameras.map Prod.fst, view._shapes.map Prod.fst)) =
      some ([0, 1], [0, 1]) ∧
    (patched_view
        (scene_of_shapes [[1], [2]] [sample_shape [1, 0, 0, 0], sample_shape [2, 0, 0, 0]])
        (scene_of_shapes [[1], [2]] [sample_shape [1, 0, 0, 0]])).map
      (fun view => (view._cameras.map Prod.fst, view._shapes.map Prod.fst)) =
      some ([0], [0, 1]) ∧
    (patched_view
        (scene_of_shapes [[1], [2]] [sample_shape [1, 0, 0, 0], sample_shape [2, 0, 0, 0]])
        (scene_of_shapes [[1], [2]] [sample_shape [1, 0, 0, 0]])).map
      (fun view => (hash_map.find view._shapes 1).isSome) = some true := by
  decide!

/-- C14 at the snapshots of the scenes with the camera `[1]` and the material `[3]`, and
with the same camera and the material `[4]`: the diff holds the materials node (id 5)
and below it the material with id 0; `apply_diff` overwrites the camera with id 0 with
`[4]` and leaves the material with id 0 at `[3]`. -/
theorem apply_diff_frame_sample :
    diff_of_two (scene_of_camera_material [1] [3]) (scene_of_camera_material [1] [4]) =
      some [([5], [1, 1, 4]), ([5, 0], [1, 4])] ∧
    (first_view (scene_of_camera_material [1] [3]) (scene_of_camera_material [1] [4])).map
      Scene_View._cameras = some [(0, [1])] ∧
    (first_view (scene_of_camera_material [1] [3]) (scene_of_camera_material [1] [4])).map
      Scene_View._materials = some [(0, [3])] ∧
    (patched_view (scene_of_camera_material [1] [3]) (scene_of_camera_material [1] [4])).map
      Scene_View._cameras = some [(0, [4])] ∧
    (patched_view (scene_of_camera_material [1] [3]) (scene_of_camera_material [1] [4])).map
      Scene_View._materials = some [(0, [3])] := by
  decide!

/-! ## `apply_diff` applied twice -/

theorem find_erase_self {α : Type} :
    ∀ (m : hash_map Nat α) (k : Nat), distinct_keys m → hash_map.find (hash_map.erase m k) k = none
  | [], _, _ => rfl
  | (a, b) :: rest, k, h => by
    simp only [distinct_keys, List.map_cons, List.nodup_cons] at h
    by_cases hk : a = k
    · subst hk
      simp only [hash_map.erase, if_true]
      exact find_none_of_not_key rest a
        (fun e he heq => h.1 (heq ▸ List.mem_map_of_mem Prod.fst he))
    · simp only [hash_map.erase, hk, if_false, hash_map.find]
      exact find_erase_self rest k h.2

theorem find_erase_ne {α : Type} :
    ∀ (m : hash_map Nat α) (k k1 : Nat), k1 ≠ k →
      hash_map.find (hash_map.erase m k) k1 = hash_map.find m k1
  | [], _, _, _ => rfl
  | (a, b) :: rest, k, k1, h => by
    by_cases hk : a = k
    · subst hk
      simp only [hash_map.erase, if_true, hash_map.find]
      rw [if_neg (fun e => h e.symm)]
    · by_cases hk1 : a = k1
      · subst hk1
        simp [hash_map.erase, hk, hash_map.find]
      · simp [hash_map.erase, hk, hash_map.find, hk1, find_erase_ne rest k k1 h]

theorem erase_absent {α : Type} :
    ∀ (m : hash_map Nat α) (k : Nat), hash_map.find m k = none → hash_map.erase m k = m
  | [], _, _ => rfl
  | (a, b) :: rest, k, h => by
    by_cases hk : a = k
    · simp [hash_map.find, hk] at h
    · simp only [hash_map.find, hk, if_false] at h
      simp [hash_map.erase, hk, erase_absent rest k h]

theorem mem_keys_erase {α : Type} :
    ∀ (m : hash_map Nat α) (k x : Nat), x ∈ (hash_map.erase m k).map Prod.fst →
      x ∈ m.map Prod.fst
  | [], _, _, h => h
  | (a, b) :: rest, k, x, h => by
    by_cases hk : a = k
    · simp only [hash_map.erase, hk, if_true] at h
      exact List.mem_cons_of_mem _ h
    · simp only [hash_map.erase, hk, if_false, List.map_cons, List.mem_cons] at h ⊢
      exact h.imp id (mem_keys_erase rest k x)

theorem distinct_keys_erase {α : Type} :
    ∀ (m : hash_map Nat α) (k : Nat), distinct_keys m → distinct_keys (hash_map.erase m k)
  | [], _, h => h
  | (a, b) :: rest, k, h => by
    simp only [distinct_keys, List.map_cons, List.nodup_cons] at h
    by_cases hk : a = k
    · simp only [hash_map.erase, hk, if_true]
      exact h.2
    · simp only [hash_map.erase, hk, if_false, distinct_keys, List.map_cons, List.nodup_cons]
      exact ⟨fun hm => h.1 (mem_keys_erase rest k a hm), distinct_keys_erase rest k h.2⟩

theorem mem_keys_assign {α : Type} :
    ∀ (m : hash_map Nat α) (k : Nat) (v : α) (x : Nat),
      x ∈ (hash_map.assign m k v).map Prod.fst → x = k ∨ x ∈ m.map Prod.fst
  | [], k, v, x, h => by simpa [hash_map.assign] using h
  | (a, b) :: rest, k, v, x, h => by
    by_cases hk : a = k
    · simp only [hash_map.assign, hk, if_true, List.map_cons, List.mem_cons] at h ⊢
      rcases h with h | h
      · exact Or.inl h
      · exact Or.inr (Or.inr h)
    · simp only [hash_map.assign, hk, if_false, List.map_cons, List.mem_cons] at h ⊢
      rcases h with h | h
      · exact Or.inr (Or.inl h)
      · exact (mem_keys_assign rest k v x h).imp id Or.inr

theorem distinct_keys_assign {α : Type} :
    ∀ (m : hash_map Nat α) (k : Nat) (v : α), distinct_keys m →
      distinct_keys (hash_map.assign m k v)
  | [], k, v, _ => by simp [hash_map.assign, distinct_keys]
  | (a, b) :: rest, k, v, h => by
    simp only [distinct_keys, List.map_cons, List.nodup_cons] at h
    by_cases hk : a = k
    · simp only [hash_map.assign, hk, if_true, distinct_keys, List.map_cons, List.nodup_cons]
      exact ⟨hk ▸ h.1, h.2⟩
    · simp only [hash_map.assign, hk, if_false, distinct_keys, List.map_cons, List.nodup_cons]
      refine ⟨fun hm => ?_, distinct_keys_assign rest k v h.2⟩
      rcases mem_keys_assign rest k v a hm with e | e
      · exact hk e
      · exact h.1 e

/-- Two runs of a loop of `apply_diff` over the same diff nodes, from two maps: both give
a result, and for every id the two results agree, or the loop left the id as it was in
both maps. -/
theorem apply_diff_loop_pair {α : Type} (heap : Heap) (root k : Nat)
    (resolve : Nat → Option α) :
    ∀ (n i : Nat) (m m1 m' : hash_map Nat α), distinct_keys m → distinct_keys m' →
      apply_diff_loop heap root k resolve n i m = some m1 →
      ∃ m1', apply_diff_loop heap root k resolve n i m' = some m1' ∧ distinct_keys m1 ∧
        ∀ id, hash_map.find m1' id = hash_map.find m1 id ∨
          (hash_map.find m1 id = hash_map.find m id ∧
            hash_map.find m1' id = hash_map.find m' id)
  | 0, _, m, m1, m', hm, _, h => by
    simp only [apply_diff_loop, Option.some.injEq] at h
    subst h
    exact ⟨m', rfl, hm, fun id => Or.inr ⟨rfl, rfl⟩⟩
  | n + 1, i, m, m1, m', hm, hm', h => by
    simp only [apply_diff_loop] at h ⊢
    cases hnode : Scene_Hash.node heap root k i with
    | none => simp [hnode] at h
    | some node =>
      simp only [hnode] at h ⊢
      cases hnd : heap[node]? with
      | none => simp [hnd] at h
      | some nd =>
        simp only [hnd] at h ⊢
        by_cases hh : nd.hash = invalid_hash
        · simp only [hh, if_true] at h ⊢
          obtain ⟨m1', hrun, hd, hrel⟩ := apply_diff_loop_pair heap root k resolve n (i + 1)
            _ m1 (hash_map.erase m' nd.id) (distinct_keys_erase m nd.id hm)
            (distinct_keys_erase m' nd.id hm') h
          refine ⟨m1', hrun, hd, fun id => ?_⟩
          rcases hrel id with e | ⟨e1, e2⟩
          · exact Or.inl e
          · by_cases hid : id = nd.id
            · subst hid
              left
              rw [e2, e1, find_erase_self m _ hm, find_erase_self m' _ hm']
            · right
              rw [e1, e2, find_erase_ne m _ _ hid, find_erase_ne m' _ _ hid]
              exact ⟨rfl, rfl⟩
        · simp only [hh, if_false] at h ⊢
          cases hres : resolve node with
          | none => simp [hres] at h
          | some value =>
            simp only [hres] at h ⊢
            obtain ⟨m1', hrun, hd, hrel⟩ := apply_diff_loop_pair heap root k resolve n (i + 1)
              _ m1 (hash_map.assign m' nd.id value) (distinct_keys_assign m nd.id value hm)
              (distinct_keys_assign m' nd.id value hm') h
            refine ⟨m1', hrun, hd, fun id => ?_⟩
            rcases hrel id with e | ⟨e1, e2⟩
            · exact Or.inl e
            · by_cases hid : nd.id = id
              · left
                rw [e2, e1, find_assign, find_assign, if_pos hid, if_pos hid]
              · right
                rw [e1, e2, find_assign, find_assign, if_neg hid, if_neg hid]
                exact ⟨rfl, rfl⟩

/-- One loop of `apply_diff` run again on its own result: every id keeps its entry. -/
theorem apply_diff_category_twice {α : Type} (heap : Heap) (root k : Nat)
    (resolve : Nat → Option α) (m m1 : hash_map Nat α) (hm : distinct_keys m)
    (h : apply_diff_category heap root k resolve m = some m1) :
    ∃ m2, apply_diff_category heap root k resolve m1 = some m2 ∧
      ∀ id, hash_map.find m2 id = hash_map.find m1 id := by
  unfold apply_diff_category at h ⊢
  cases hnum : Scene_Hash.num heap root k with
  | none => simp [hnum] at h
  | some n =>
    simp only [hnum] at h ⊢
    obtain ⟨-, -, hd1, -⟩ := apply_diff_loop_pair heap root k resolve n 0 m m1 m hm hm h
    obtain ⟨m2, hrun, -, hrel⟩ :=
      apply_diff_loop_pair heap root k resolve n 0 m m1 m1 hm hd1 h
    refine ⟨m2, hrun, fun id => ?_⟩
    rcases hrel id with e | ⟨-, e⟩
    · exact e
    · exact e

/-- C13: when `apply_diff` of a diff tree to a projection whose maps have distinct keys
returns a projection, `apply_diff` of the same diff tree to that projection returns a
projection with the same entry for every id in every category; and `erase` of an id
that has no entry leaves a map as it is. -/
theorem apply_diff_twice (Y : Yocto) (heap : Heap) (data : Data_Table) (view view1 : Scene_View)
    (root : Nat) (hview : view.distinct_keys)
    (h : apply_diff Y heap data view root = some view1) :
    (∃ view2, apply_diff Y heap data view1 root = some view2 ∧ view2.same_entries view1) ∧
    ∀ (m : hash_map Nat Bytes) (id : Nat), hash_map.find m id = none →
      hash_map.erase m id = m := by
  refine ⟨?_, fun m id => erase_absent m id⟩
  obtain ⟨k0, k1, k2, k3, k4, k5, k6⟩ := hview
  simp only [apply_diff, Option.bind_eq_bind, Option.bind_eq_some, Option.some.injEq] at h
  obtain ⟨c0, e0, c1, e1, c2, e2, c3, e3, c4, e4, c5, e5, c6, e6, rfl⟩ := h
  obtain ⟨d0, f0, g0⟩ := apply_diff_category_twice heap root 0 _ _ _ k0 e0
  obtain ⟨d1, f1, g1⟩ := apply_diff_category_twice heap root 1 _ _ _ k1 e1
  obtain ⟨d2, f2, g2⟩ := apply_diff_category_twice heap root 2 _ _ _ k2 e2
  obtain ⟨d3, f3, g3⟩ := apply_diff_category_twice heap root 3 _ _ _ k3 e3
  obtain ⟨d4, f4, g4⟩ := apply_diff_category_twice heap root 4 _ _ _ k4 e4
  obtain ⟨d5, f5, g5⟩ := apply_diff_category_twice heap root 5 _ _ _ k5 e5
  obtain ⟨d6, f6, g6⟩ := apply_diff_category_twice heap root 6 _ _ _ k6 e6
  refine ⟨Scene_View.mk d0 d1 d2 d3 d4 d5 d6, ?_, fun id =>
    ⟨g0 id, g1 id, g2 id, g3 id, g4 id, g5 id, g6 id⟩⟩
  simp only [apply_diff, f0, f1, f2, f3, f4, f5, f6, Option.bind_eq_bind, Option.some_bind]

/-- C13 on the projection of the sample snapshot and the diff to its edited version. -/
theorem apply_diff_twice_witness :
    sample_view.distinct_keys ∧
    apply_diff sample_yocto sample_diff.1 sample_data1 sample_view sample_diff.2 =
      some sample_patched ∧
    sample_patched._cameras = [(0, [7]), (1, [2])] ∧
    (∃ view2, apply_diff sample_yocto sample_diff.1 sample_data1 sample_patched sample_diff.2 =
      some view2 ∧ view2.same_entries sample_patched) ∧
    ∀ (m : hash_map Nat Bytes) (id : Nat), hash_map.find m id = none →
      hash_map.erase m id = m :=
  ⟨by unfold Scene_View.distinct_keys distinct_keys; decide!, by decide!, by decide!,
    apply_diff_twice sample_yocto sample_diff.1 sample_data1 sample_view sample_patched
      sample_diff.2 (by unfold Scene_View.distinct_keys distinct_keys; decide!) (by decide!)⟩

/-- C29: for every store `maybe_add` of an empty buffer returns `invalid_hash` and the
store as it was; `add_leaf_node` with an empty array below an allocated parent returns a
leaf whose hash is `invalid_hash` and leaves the store as it was; and the node that
`make_diff` emits for a child without partner carries the same `invalid_hash`. -/
theorem maybe_add_empty (hash256 : Bytes → Hash) (heap : Heap) (data : Data_Table)
    (parent id : Nat) :
    Data_Table.maybe_add hash256 data [] = (data, invalid_hash) ∧
    (∀ pn, heap[parent]? = some pn →
      ∃ heap1 leaf, add_leaf_node hash256 heap data parent [] id = some (heap1, data, heap.length) ∧
        heap1[heap.length]? = some leaf ∧ leaf.hash = invalid_hash ∧ leaf.id = id ∧
        leaf.children = []) ∧
    (∀ (node1 d child0 : Nat) (c0 dn : Hash_Node), heap[child0]? = some c0 →
      heap[d]? = some dn → Hash_Node.at_id heap node1 c0.id = some none →
      ∃ heap1 pushed tombstone, make_diff_children heap node1 d [child0] = some (heap1, pushed) ∧
        heap1[heap.length]? = some tombstone ∧ tombstone.hash = invalid_hash ∧
        tombstone.id = c0.id) := by
  refine ⟨by simp [Data_Table.maybe_add], ?_, ?_⟩
  · intro pn hp
    have h := add_leaf_node_spec hash256 data hp [] id
    have hm : (Data_Table.maybe_add hash256 data []).1 = data := by simp [Data_Table.maybe_add]
    rw [hm, with_new_children_one] at h
    refine ⟨_, leaf_node hash256 parent id [], h, ?_, ?_, rfl, rfl⟩
    · have h2 := get_last
        (heap.set parent (Hash_Node.mk pn.parent (pn.children ++ [heap.length]) pn.hash pn.id))
        (leaf_node hash256 parent id [])
      rw [List.length_set] at h2
      exact h2
    · simp [leaf_node, leaf_hash]
  · intro node1 d child0 c0 dn hc hd hat
    obtain ⟨e1, e2⟩ := emit_spec hd c0.id invalid_hash
    refine ⟨heap.set d (Hash_Node.mk dn.parent (dn.children ++ [heap.length]) dn.hash dn.id) ++
        [Hash_Node.mk (some d) [] invalid_hash c0.id], none,
      Hash_Node.mk (some d) [] invalid_hash c0.id, ?_, ?_, rfl, rfl⟩
    · simp only [make_diff_children, hc, hat, e1, e2]
    · have h2 := get_last
        (heap.set d (Hash_Node.mk dn.parent (dn.children ++ [heap.length]) dn.hash dn.id))
        (Hash_Node.mk (some d) [] invalid_hash c0.id)
      rw [List.length_set] at h2
      exact h2

/-- C30 fails at minimum degree 2 for the keys 10, 9, 8, 7, 6, 5, 4, 3 inserted in this
order: every call returns, the keys are pairwise distinct, and `search` answers
`(-1, -1)` for the inserted key 9, while the ascending run 1, ..., 8 is found key by key. -/
theorem search_misses_inserted_key :
    ([10, 9, 8, 7, 6, 5, 4, 3] : List Int).Nodup ∧ (9 : Int) ∈ [10, 9, 8, 7, 6, 5, 4, 3] ∧
    (btree.add_elements 2 8 [10, 9, 8, 7, 6, 5, 4, 3] btree.make_btree).bind
      (fun b => btree.search b 9 8) = some (-1, -1) ∧
    ((btree.add_elements 2 8 [10, 9, 8, 7, 6, 5, 4, 3] btree.make_btree).map
      (fun b => ((btree.bucket b b.root).map (fun a => a.slots.take a.count)))) =
        some (some [5, 7, 7]) := by
  decide!

theorem ancestors_head {heap : Heap} {par : Option Nat} {ps : List Nat}
    (h : Ancestors heap par ps) : par = ps[0]? := by
  cases h <;> simp

theorem edit_copies_length (hash256 : Bytes → Hash) {heap : Heap} :
    ∀ (ps : List Nat) (par : Option Nat) (prev : Nat) (h : Hash),
      Ancestors heap par ps → (edit_copies hash256 heap prev h ps).length = ps.length
  | [], _, _, _, _ => rfl
  | p :: ps, _, prev, h, hanc => by
    cases hanc with
    | step hp hne hch hrest =>
      simp only [edit_copies, hp, List.length_cons]
      rw [edit_copies_length hash256 ps _ _ _ hrest]

/-- The copy that `edit_node` allocates for the ancestor number `j`: the fields of the
ancestor, with child 0 replaced by the node allocated just before. -/
theorem edit_copies_get (hash256 : Bytes → Hash) {heap : Heap} :
    ∀ (ps : List Nat) (par : Option Nat) (prev : Nat) (h : Hash),
      Ancestors heap par ps → ∀ (j p : Nat), ps[j]? = some p →
      ∃ pn hash, heap[p]? = some pn ∧ pn.children ≠ [] ∧ pn.parent = ps[j + 1]? ∧
        (edit_copies hash256 heap prev h ps)[j]? =
          some (Hash_Node.mk pn.parent (pn.children.set 0 (prev + j)) hash pn.id)
  | [], _, _, _, _, j, p, hj => by simp at hj
  | p0 :: ps, _, prev, h, hanc, j, p, hj => by
    cases hanc with
    | step hp hne hch hrest =>
      rename_i pn0
      cases j with
      | zero =>
        simp only [List.getElem?_cons_zero, Option.some.injEq] at hj
        subst hj
        refine ⟨pn0, make_hash hash256 (h ++ (children_hashes heap pn0.children.tail).getD []),
          hp, hne, ?_, ?_⟩
        · simpa using ancestors_head hrest
        · simp only [edit_copies, hp, List.getElem?_cons_zero, Nat.add_zero]
      | succ j =>
        simp only [List.getElem?_cons_succ] at hj
        obtain ⟨pn, hash, h1, h2, h3, h4⟩ :=
          edit_copies_get hash256 ps _ (prev + 1)
            (make_hash hash256 (h ++ (children_hashes heap _).getD [])) hrest j p hj
        refine ⟨pn, hash, h1, h2, ?_, ?_⟩
        · simpa using h3
        · simp only [edit_copies, hp, List.getElem?_cons_succ]
          rw [h4]
          congr 3
          omega

theorem children_hashes_mono {heap0 heap : Heap} (h : Sub heap0 heap) :
    ∀ (cs : List Nat) (bytes : Bytes), children_hashes heap0 cs = some bytes →
      children_hashes heap cs = some bytes
  | [], _, hb => hb
  | c :: cs, bytes, hb => by
    simp only [children_hashes] at hb ⊢
    cases hc : heap0[c]? with
    | none => simp [hc] at hb
    | some n =>
      cases hr : children_hashes heap0 cs with
      | none => simp [hc, hr] at hb
      | some b =>
        rw [hc, hr] at hb
        rw [h c n hc, children_hashes_mono h cs b hr]
        exact hb

theorem make_hash_node_mono (hash256 : Bytes → Hash) {heap0 heap : Heap} (h : Sub heap0 heap)
    {p : Nat} {hash : Hash} (hm : make_hash_node hash256 heap0 p = some hash) :
    make_hash_node hash256 heap p = some hash := by
  simp only [make_hash_node] at hm ⊢
  cases hp : heap0[p]? with
  | none => simp [hp] at hm
  | some n =>
    simp only [hp] at hm
    simp only [h p n hp]
    cases hc : children_hashes heap0 n.children with
    | none => simp [hc] at hm
    | some b =>
      simp only [hc] at hm
      simp only [children_hashes_mono h _ _ hc]
      exact hm

theorem copy_merkle (hash256 : Bytes → Hash) {heap full : Heap} {pn nd : Hash_Node}
    {a prev : Nat} (hsub : Sub heap full) (hnd : full[prev]? = some nd)
    (hne : pn.children ≠ []) (hch : ∀ c ∈ pn.children, c < heap.length)
    (hcopy : full[a]? = some (Hash_Node.mk pn.parent (pn.children.set 0 prev)
      (make_hash hash256 (nd.hash ++ (children_hashes heap pn.children.tail).getD [])) pn.id)) :
    merkle_node hash256 full a := by
  refine ⟨_, hcopy, ?_⟩
  obtain ⟨c0, tail, hcs⟩ := List.exists_cons_of_ne_nil hne
  obtain ⟨bytes, hb1, hb2⟩ := children_hashes_sub hsub tail
    (fun c hc => hch c (by rw [hcs]; exact List.mem_cons_of_mem _ hc))
  simp only [make_hash_node, hcopy, hcs, List.set_cons_zero, children_hashes, hnd,
    List.tail_cons, hb1, hb2, Option.getD_some]

/-- Every copy that `edit_node` allocates for an ancestor carries the hash of the
concatenation of the hashes of its children. -/
theorem edit_copies_merkle (hash256 : Bytes → Hash) {heap : Heap} :
    ∀ (ps : List Nat) (par : Option Nat) (pre : Heap) (nd : Hash_Node),
      Sub heap pre → Ancestors heap par ps → ∀ j, j < ps.length →
      merkle_node hash256 (pre ++ [nd] ++ edit_copies hash256 heap pre.length nd.hash ps)
        (pre.length + 1 + j)
  | [], _, _, _, _, _, j, hj => by simp at hj
  | p :: ps, _, pre, nd, hsub, hanc, j, hj => by
    cases hanc with
    | step hp hne hch hrest =>
      rename_i pn
      have hcopies : edit_copies hash256 heap pre.length nd.hash (p :: ps) =
          Hash_Node.mk pn.parent (pn.children.set 0 pre.length)
            (make_hash hash256 (nd.hash ++ (children_hashes heap pn.children.tail).getD []))
            pn.id ::
          edit_copies hash256 heap (pre.length + 1)
            (make_hash hash256 (nd.hash ++ (children_hashes heap pn.children.tail).getD [])) ps := by
        simp only [edit_copies, hp]
      rw [hcopies]
      cases j with
      | zero =>
        refine copy_merkle hash256 (fun q n hq => ?_) (get_append_of_get _ (get_last pre nd))
          hne hch ?_
        · rw [List.append_assoc]
          exact get_append_of_get _ (hsub q n hq)
        · rw [List.getElem?_append_right (by simp)]
          simp
      | succ j =>
        have ih := edit_copies_merkle hash256 ps _ (pre ++ [nd])
          (Hash_Node.mk pn.parent (pn.children.set 0 pre.length)
            (make_hash hash256 (nd.hash ++ (children_hashes heap pn.children.tail).getD []))
            pn.id)
          (fun q n hq => get_append_of_get _ (hsub q n hq)) hrest j
          (by simpa using hj)
        simp only [List.length_append, List.length_singleton] at ih
        have e : pre.length + 1 + (j + 1) = pre.length + 1 + 1 + j := by omega
        rw [e]
        simpa [List.append_assoc] using ih

theorem top_cons_reaches {heap : Heap} :
    ∀ (ps : List Nat) (node : Nat), child_chain heap node ps = true →
      ∀ a ∈ node :: ps, reaches heap (top node ps) a
  | [], node, _, a, ha => by
    simp only [List.mem_singleton] at ha
    subst ha
    exact reaches.self
  | p :: ps, node, hc, a, ha => by
    simp only [child_chain, Bool.and_eq_true, decide_eq_true_eq] at hc
    have ih := top_cons_reaches ps p hc.2
    rcases List.mem_cons.mp ha with rfl | hmem
    · have hp := ih p (List.mem_cons_self _ _)
      cases hn : heap[p]? with
      | none => simp [hn] at hc
      | some pn =>
        have hmem : a ∈ pn.children := by simpa [hn] using hc.1
        exact reaches.child hp hn hmem
    · exact ih a hmem

/-- The nodes reached from the root that `edit_node` returns are the new nodes and nodes
reached from the root of the tree that was edited. -/
theorem edit_node_reaches (hash256 : Bytes → Hash) {heap : Heap} {node : Nat} (hash : Hash)
    {en : Hash_Node} {ps : List Nat} (hnode : heap[node]? = some en)
    (hanc : Ancestors heap en.parent ps) (hchain : child_chain heap node ps = true) :
    ∀ q, reaches (heap ++ [⟨en.parent, en.children, hash, en.id⟩] ++
        edit_copies hash256 heap heap.length hash ps) (heap.length + ps.length) q →
      (heap.length ≤ q ∧ q < heap.length + (ps.length + 1)) ∨ reaches heap (top node ps) q := by
  intro q hq
  induction hq with
  | self => left; omega
  | child hr hn hc ih =>
    rename_i q0 n c
    by_cases hlt : q0 < heap.length
    · rw [List.append_assoc, List.getElem?_append_left hlt] at hn
      rcases ih with h | h
      · omega
      · exact Or.inr (reaches.child h hn hc)
    · by_cases hq0 : q0 = heap.length
      · subst hq0
        rw [List.append_assoc, List.getElem?_append_right (Nat.le_refl _)] at hn
        simp only [Nat.sub_self, List.singleton_append, List.getElem?_cons_zero,
          Option.some.injEq] at hn
        subst hn
        exact Or.inr (reaches.child (top_cons_reaches ps node hchain node
          (List.mem_cons_self _ _)) hnode hc)
      · have hge : heap.length + 1 ≤ q0 := by omega
        rw [List.getElem?_append_right (by simpa using hge)] at hn
        simp only [List.length_append, List.length_singleton] at hn
        have hj : q0 - (heap.length + 1) < ps.length := by
          have := lt_of_get hn
          rwa [edit_copies_length hash256 ps _ _ _ hanc] at this
        obtain ⟨pn, hash1, h1, -, -, h4⟩ := edit_copies_get hash256 ps _ heap.length hash hanc
          (q0 - (heap.length + 1)) ps[q0 - (heap.length + 1)] (List.getElem?_eq_getElem hj)
        rw [h4] at hn
        cases hn
        simp only at hc
        rcases List.mem_or_eq_of_mem_set hc with hmem | heq
        · exact Or.inr (reaches.child (top_cons_reaches ps node hchain _
            (List.mem_cons_of_mem _ (List.getElem_mem hj))) h1 hmem)
        · left; omega

theorem edit_node_root (hash256 : Bytes → Hash) {heap : Heap} (hash : Hash)
    {en : Hash_Node} {ps : List Nat} (hanc : Ancestors heap en.parent ps) :
    ∃ rn, (heap ++ [⟨en.parent, en.children, hash, en.id⟩] ++
        edit_copies hash256 heap heap.length hash ps)[heap.length + ps.length]? = some rn ∧
      rn.parent = none := by
  cases ps with
  | nil =>
    refine ⟨⟨en.parent, en.children, hash, en.id⟩, ?_, ?_⟩
    · simp [edit_copies]
    · simpa using ancestors_head hanc
  | cons p ps =>
    obtain ⟨pn, hash1, -, -, h3, h4⟩ := edit_copies_get hash256 (p :: ps) _ heap.length hash hanc
      ps.length ((p :: ps)[ps.length]) (List.getElem?_eq_getElem (by simp))
    refine ⟨Hash_Node.mk pn.parent (pn.children.set 0 (heap.length + ps.length)) hash1 pn.id,
      ?_, ?_⟩
    · rw [List.getElem?_append_right (by simp)]
      simp only [List.length_append, List.length_singleton, List.length_cons, List.length_nil]
      have e : heap.length + (ps.length + 1) - (heap.length + (0 + 1)) = ps.length := by omega
      rw [e]
      exact h4
    · simp only
      rw [h3]
      simp

/-- The nodes that `edit_node` allocates are all reached from the root that it returns. -/
theorem edit_node_new_reached (hash256 : Bytes → Hash) {heap : Heap} (hash : Hash)
    {en : Hash_Node} {ps : List Nat} (hanc : Ancestors heap en.parent ps) :
    ∀ k, k ≤ ps.length →
      reaches (heap ++ [⟨en.parent, en.children, hash, en.id⟩] ++
        edit_copies hash256 heap heap.length hash ps) (heap.length + ps.length)
        (heap.length + (ps.length - k))
  | 0, _ => by simpa using reaches.self
  | k + 1, hk => by
    have ih := edit_node_new_reached hash256 hash hanc k (by omega)
    have hj : ps.length - (k + 1) < ps.length := by omega
    obtain ⟨pn, hash1, -, hne, -, h4⟩ := edit_copies_get hash256 ps _ heap.length hash hanc
      (ps.length - (k + 1)) (ps[ps.length - (k + 1)]) (List.getElem?_eq_getElem hj)
    have hn : (heap ++ [⟨en.parent, en.children, hash, en.id⟩] ++
        edit_copies hash256 heap heap.length hash ps)[heap.length + (ps.length - k)]? =
        some (Hash_Node.mk pn.parent (pn.children.set 0 (heap.length + (ps.length - (k + 1))))
          hash1 pn.id) := by
      rw [List.getElem?_append_right (by simp; omega)]
      simp only [List.length_append, List.length_singleton]
      have e : heap.length + (ps.length - k) - (heap.length + 1) = ps.length - (k + 1) := by
        omega
      rw [e]
      exact h4
    refine reaches.child ih hn ?_
    obtain ⟨c0, tail, hcs⟩ := List.exists_cons_of_ne_nil hne
    simp [hcs]

/-- C25: for a node of a tree on the heap with the ancestors `ps`, `edit_node` returns,
appends exactly `ps.length + 1` nodes to the heap and changes no node allocated before;
every node reached from the root it returns is one of the new nodes or is reached from
the root of the tree that holds the node. -/
theorem edit_node_allocation (hash256 : Bytes → Hash) (fuel : Nat) (heap : Heap)
    (data : Data_Table) (T : TypeInfo) (node : Nat) (value : Bytes) (en : Hash_Node)
    (ps : List Nat)
    (hnode : heap[node]? = some en) (hanc : Ancestors heap en.parent ps)
    (hchain : child_chain heap node ps = true) (hfuel : ps.length < fuel) :
    ∃ root1 heap1 data1,
      edit_node hash256 fuel heap data T node value = some (root1, heap1, data1) ∧
      heap1.length = heap.length + (ps.length + 1) ∧
      (∀ (p : Nat) (n : Hash_Node), heap[p]? = some n → heap1[p]? = some n) ∧
      (∀ q, reaches heap1 root1 q →
        (heap.length ≤ q ∧ q < heap1.length) ∨ reaches heap (top node ps) q) := by
  refine ⟨_, _, _, edit_node_spec hash256 data T value hnode hanc hfuel, ?_, ?_, ?_⟩
  · simp [edit_copies_length hash256 ps _ _ _ hanc]
  · intro p n hp
    rw [List.append_assoc]
    exact get_append_of_get _ hp
  · intro q hq
    have hlen : (heap ++ [Hash_Node.mk en.parent en.children (make_hash hash256 value) en.id] ++
        edit_copies hash256 heap heap.length (make_hash hash256 value) ps).length =
        heap.length + (ps.length + 1) := by
      simp [edit_copies_length hash256 ps _ _ _ hanc]
    rw [hlen]
    exact edit_node_reaches hash256 (make_hash hash256 value) hnode hanc hchain q hq

/-- C25 at the first camera (node 8) of the sample snapshot, which has the two ancestors
1 and 0: three nodes are appended to the eleven nodes of the snapshot. -/
theorem edit_node_allocation_witness :
    ∃ root1 heap1 data1,
      edit_node sample_hash256 3 sample_heap sample_data sample_type 8 [7] =
        some (root1, heap1, data1) ∧
      heap1.length = sample_heap.length + (2 + 1) ∧
      (∀ (p : Nat) (n : Hash_Node), sample_heap[p]? = some n → heap1[p]? = some n) ∧
      (∀ q, reaches heap1 root1 q →
        (sample_heap.length ≤ q ∧ q < heap1.length) ∨ reaches sample_heap 0 q) :=
  edit_node_allocation sample_hash256 3 sample_heap sample_data sample_type 8 [7]
    ⟨some 1, [], [1, 1], 0⟩ [1, 0] (by decide) sample_ancestors_camera0 (by decide) (by decide)

/-- C24: when every node with a child that is reached from the root of the tree of a
leaf `node` carries the hash of the concatenation of its children's hashes, the same
holds for every node reached from the root that `edit_node` returns for the leaf; the
new leaf, which is reached from that root, carries the id of `node` and the hash of the
value, and the returned root has no parent. -/
theorem edit_node_merkle (hash256 : Bytes → Hash) (fuel : Nat) (heap : Heap)
    (data : Data_Table) (T : TypeInfo) (node : Nat) (value : Bytes) (en : Hash_Node)
    (ps : List Nat)
    (hnode : heap[node]? = some en) (hleaf : en.children = [])
    (hanc : Ancestors heap en.parent ps) (hchain : child_chain heap node ps = true)
    (hfuel : ps.length < fuel)
    (hm : ∀ q n, reaches heap (top node ps) q → heap[q]? = some n → n.children ≠ [] →
      make_hash_node hash256 heap q = some n.hash) :
    ∃ root1 heap1 data1 leaf rn,
      edit_node hash256 fuel heap data T node value = some (root1, heap1, data1) ∧
      (∀ q n, reaches heap1 root1 q → heap1[q]? = some n → n.children ≠ [] →
        make_hash_node hash256 heap1 q = some n.hash) ∧
      heap1[heap.length]? = some leaf ∧ reaches heap1 root1 heap.length ∧
      leaf.id = en.id ∧ leaf.hash = make_hash hash256 value ∧ leaf.children = [] ∧
      heap1[root1]? = some rn ∧ rn.parent = none := by
  obtain ⟨rn, hrn, hpar⟩ := edit_node_root hash256 (make_hash hash256 value) hanc
  have hsub : Sub heap (heap ++ [⟨en.parent, en.children, make_hash hash256 value, en.id⟩] ++
      edit_copies hash256 heap heap.length (make_hash hash256 value) ps) := by
    intro p n hp
    rw [List.append_assoc]
    exact get_append_of_get _ hp
  have hleafn : (heap ++ [⟨en.parent, en.children, make_hash hash256 value, en.id⟩] ++
      edit_copies hash256 heap heap.length (make_hash hash256 value) ps)[heap.length]? =
      some ⟨en.parent, en.children, make_hash hash256 value, en.id⟩ :=
    get_append_of_get _ (get_last heap _)
  refine ⟨_, _, _, ⟨en.parent, en.children, make_hash hash256 value, en.id⟩, rn,
    edit_node_spec hash256 data T value hnode hanc hfuel, ?_, hleafn, ?_, rfl, rfl, hleaf,
    hrn, hpar⟩
  · intro q n hq hn hne
    by_cases hlt : q < heap.length
    · have hold : heap[q]? = some n := by
        rw [List.append_assoc, List.getElem?_append_left hlt] at hn
        exact hn
      rcases edit_node_reaches hash256 (make_hash hash256 value) hnode hanc hchain q hq with
        h | h
      · omega
      · exact make_hash_node_mono hash256 hsub (hm q n h hold hne)
    · by_cases hq0 : q = heap.length
      · subst hq0
        rw [hleafn] at hn
        cases hn
        exact absurd hleaf hne
      · have hj : q - (heap.length + 1) < ps.length := by
          have h1 := lt_of_get hn
          simp [edit_copies_length hash256 ps _ _ _ hanc] at h1
          omega
        obtain ⟨n1, hn1, hm1⟩ := edit_copies_merkle hash256 ps _ heap
          ⟨en.parent, en.children, make_hash hash256 value, en.id⟩ (fun _ _ h => h) hanc
          (q - (heap.length + 1)) hj
        have e : heap.length + 1 + (q - (heap.length + 1)) = q := by omega
        rw [e] at hn1 hm1
        rw [hn] at hn1
        cases hn1
        exact hm1
  · have h := edit_node_new_reached hash256 (make_hash hash256 value) hanc ps.length
      (Nat.le_refl _)
    simpa using h

theorem reaches_in_list {heap : Heap} {p : Nat} (L : List Nat) (hp : p ∈ L)
    (hclosed : ∀ q ∈ L, ∀ c ∈ ((heap[q]?).map Hash_Node.children).getD [], c ∈ L) :
    ∀ q, reaches heap p q → q ∈ L := by
  intro q hq
  induction hq with
  | self => exact hp
  | child _ hn hc ih => exact hclosed _ ih _ (by simpa [hn] using hc)

/-- C24 at the first camera (node 8) of the sample snapshot, whose root is node 0. -/
theorem edit_node_merkle_witness :
    ∃ root1 heap1 data1 leaf rn,
      edit_node sample_hash256 3 sample_heap sample_data sample_type 8 [7] =
        some (root1, heap1, data1) ∧
      (∀ q n, reaches heap1 root1 q → heap1[q]? = some n → n.children ≠ [] →
        make_hash_node sample_hash256 heap1 q = some n.hash) ∧
      heap1[sample_heap.length]? = some leaf ∧ reaches heap1 root1 sample_heap.length ∧
      leaf.id = 0 ∧ leaf.hash = make_hash sample_hash256 [7] ∧ leaf.children = [] ∧
      heap1[root1]? = some rn ∧ rn.parent = none :=
  edit_node_merkle sample_hash256 3 sample_heap sample_data sample_type 8 [7]
    ⟨some 1, [], [1, 1], 0⟩ [1, 0] (by decide) rfl sample_ancestors_camera0 (by decide)
    (by decide)
    (fun q n hq hn hne => by
      have hL := reaches_in_list (List.range 11) (by decide) (by decide!) q hq
      have hall : ∀ q ∈ List.range 11,
          (sample_heap[q]?).all (fun n => n.children.isEmpty ||
            decide (make_hash_node sample_hash256 sample_heap q = some n.hash)) = true := by
        decide!
      have h := hall q hL
      rw [hn] at h
      simp only [Option.all_some, Bool.or_eq_true, List.isEmpty_iff, decide_eq_true_eq] at h
      rcases h with h | h
      · exact absurd h hne
      · exact h)

/-- C26 fails after an edit: in the sample snapshot edited at its first camera, the second
camera (node 9) is reached from the new root, its `parent` pointer is the cameras node of
the source snapshot (node 1), and that node is not reached from the new root. -/
theorem edit_breaks_parent_links :
    ¬ (∀ q, reaches sample_heap1 sample_edit.1 q → q ≠ sample_edit.1 →
        ∃ n p pn, sample_heap1[q]? = some n ∧ n.parent = some p ∧
          reaches sample_heap1 sample_edit.1 p ∧ sample_heap1[p]? = some pn ∧
          q ∈ pn.children) := by
  intro h
  have e : sample_edit.1 = 13 := by decide!
  rw [e] at h
  have hr : reaches sample_heap1 13 9 :=
    top_cons_reaches [12, 13] 9 (by decide!) 9 (List.mem_cons_self _ _)
  obtain ⟨n, p, pn, hn, hp, hrp, -, -⟩ := h 9 hr (by decide)
  have h9 : sample_heap1[9]? = some ⟨some 1, [], [1, 2], 1⟩ := by decide!
  rw [h9] at hn
  cases hn
  simp only [Option.some.injEq] at hp
  subst hp
  have hL := reaches_in_list [13, 12, 11, 9, 2, 3, 4, 5, 6, 7, 10] (by decide) (by decide!)
    1 hrp
  exact absurd hL (by decide)

/-- C26 for build: in the snapshot that `create_scene_hash` returns, every node reached
from the root, other than the root, has a `parent` pointer to a node that is reached from
the root and has the node among its children. -/
theorem create_scene_hash_parents (hash256 : Bytes → Hash) (fuel : Nat) (heap0 : Heap)
    (data : Data_Table) (scene : scene_data) (hfuel : 3 ≤ fuel) :
    ∃ heap1 data1 root,
      create_scene_hash hash256 fuel heap0 data scene = some (heap1, data1, root) ∧
      ∀ q, reaches heap1 root q → q ≠ root →
        ∃ n p pn, heap1[q]? = some n ∧ n.parent = some p ∧ reaches heap1 root p ∧
          heap1[p]? = some pn ∧ q ∈ pn.children := by
  obtain ⟨heap1, hrun, -, hf, -, -⟩ := create_scene_hash_spec hash256 fuel heap0 data scene hfuel
  refine ⟨heap1, _, _, hrun, ?_⟩
  intro q hq hne
  cases hq with
  | self => exact absurd rfl hne
  | child hr hn hc =>
    rename_i q0 n0
    obtain ⟨-, hch⟩ := hf q0 n0 (reaches_ge hf (Nat.le_refl _) hr) hn
    obtain ⟨-, cn, hcn, hpar⟩ := hch q hc
    exact ⟨cn, q0, n0, hcn, hpar, hr, hn, hc⟩

/-- C26 for build, at the sample scene. -/
theorem create_scene_hash_parents_witness :
    ∃ heap1 data1 root,
      create_scene_hash sample_hash256 3 [] ⟨[]⟩ sample_scene = some (heap1, data1, root) ∧
      ∀ q, reaches heap1 root q → q ≠ root →
        ∃ n p pn, heap1[q]? = some n ∧ n.parent = some p ∧ reaches heap1 root p ∧
          heap1[p]? = some pn ∧ q ∈ pn.children :=
  create_scene_hash_parents sample_hash256 3 [] ⟨[]⟩ sample_scene (by decide)

theorem ancestors_sub {heap heap1 : Heap} (hsub : Sub heap heap1)
    (hlen : heap.length ≤ heap1.length) {par : Option Nat} {ps : List Nat}
    (h : Ancestors heap par ps) : Ancestors heap1 par ps := by
  induction h with
  | root => exact Ancestors.root
  | step hp hne hch _ ih =>
    exact Ancestors.step (hsub _ _ hp) hne (fun c hc => Nat.lt_of_lt_of_le (hch c hc) hlen) ih

theorem ancestors_lt {heap : Heap} {par : Option Nat} {ps : List Nat}
    (h : Ancestors heap par ps) : ∀ p ∈ ps, p < heap.length := by
  induction h with
  | root => intro p hp; exact absurd hp (List.not_mem_nil _)
  | step hp _ _ _ ih =>
    intro p hmem
    rcases List.mem_cons.mp hmem with rfl | hmem
    · exact lt_of_get hp
    · exact ih p hmem

theorem child_chain_sub {heap heap1 : Heap} (hsub : Sub heap heap1) :
    ∀ (ps : List Nat) (node : Nat), child_chain heap node ps = true →
      child_chain heap1 node ps = true
  | [], _, _ => rfl
  | p :: ps, node, h => by
    simp only [child_chain, Bool.and_eq_true, decide_eq_true_eq] at h ⊢
    refine ⟨?_, child_chain_sub hsub ps p h.2⟩
    cases hp : heap[p]? with
    | none => simp [hp] at h
    | some pn =>
      rw [hsub p pn hp]
      simpa [hp] using h.1

theorem top_mem : ∀ (ps : List Nat) (node : Nat), top node ps ∈ node :: ps
  | [], _ => List.mem_cons_self _ _
  | p :: ps, _ => List.mem_cons_of_mem _ (top_mem ps p)

/-- In a heap without dangling children that is extended at its end, what is reached from
an old node is old and was reached before. -/
theorem reaches_closed {heap : Heap} (ext : Heap) (hc : closed heap) {r : Nat}
    (hr : r < heap.length) :
    ∀ q, reaches (heap ++ ext) r q → q < heap.length ∧ reaches heap r q := by
  intro q hq
  induction hq with
  | self => exact ⟨hr, reaches.self⟩
  | child _ hn hmem ih =>
    rw [List.getElem?_append_left ih.1] at hn
    exact ⟨hc _ (List.getElem?_mem hn) _ hmem, reaches.child ih.2 hn hmem⟩

/-- C23 fails on the sample snapshot: after the first camera (node 8) was edited to `[7]`,
the node of the new snapshot that carries the second camera is the shared node 9; after
that node was edited to `[5]`, the first camera of the result reads `[5]`, not `[7]`, and
its second camera reads the old value `[2]`, not `[5]`. -/
theorem edit_twice_sample :
    Scene_Hash.cameras_at sample_yocto sample_heap1 sample_data1 sample_edit.1 0 = some [7] ∧
    Scene_Hash.node sample_heap1 sample_edit.1 0 1 = some 9 ∧
    (edit_node sample_hash256 3 sample_heap1 sample_data1 sample_type 9 [5]).bind
      (fun s => Scene_Hash.cameras_at sample_yocto s.2.1 s.2.2 s.1 0) = some [5] ∧
    (edit_node sample_hash256 3 sample_heap1 sample_data1 sample_type 9 [5]).bind
      (fun s => Scene_Hash.cameras_at sample_yocto s.2.1 s.2.2 s.1 1) = some [2] := by
  decide!

/-- C23, amended: a second `edit_node`, at a node `b` of the tree that the first call
edited, returns; it climbs the ancestors of `b` in that tree, so that the nodes reached
from the root it returns are the `psb.length + 1` nodes it allocates and nodes reached
from the root of the tree of `b`; none of the nodes that the first call allocated is
among them.  Its new leaf carries the id of `b` and the hash of the value. -/
theorem edit_node_twice (hash256 : Bytes → Hash) (fuel : Nat) (heap : Heap)
    (data : Data_Table) (T : TypeInfo) (a b : Nat) (v w : Bytes) (ena enb : Hash_Node)
    (psa psb : List Nat)
    (hclosed : closed heap)
    (hnodea : heap[a]? = some ena) (hanca : Ancestors heap ena.parent psa)
    (hnodeb : heap[b]? = some enb) (hancb : Ancestors heap enb.parent psb)
    (hchainb : child_chain heap b psb = true)
    (hfuela : psa.length < fuel) (hfuelb : psb.length < fuel) :
    ∃ root1 heap1 data1 root2 heap2 data2 leaf,
      edit_node hash256 fuel heap data T a v = some (root1, heap1, data1) ∧
      edit_node hash256 fuel heap1 data1 T b w = some (root2, heap2, data2) ∧
      heap2.length = heap1.length + (psb.length + 1) ∧
      (∀ q, reaches heap2 root2 q →
        (heap1.length ≤ q ∧ q < heap2.length) ∨ (q < heap.length ∧ reaches heap (top b psb) q)) ∧
      heap2[heap1.length]? = some leaf ∧ reaches heap2 root2 heap1.length ∧
      leaf.id = enb.id ∧ leaf.hash = make_hash hash256 w := by
  have h1 := edit_node_spec hash256 data T v hnodea hanca hfuela
  have hsub : Sub heap (heap ++ [Hash_Node.mk ena.parent ena.children (make_hash hash256 v) ena.id]
      ++ edit_copies hash256 heap heap.length (make_hash hash256 v) psa) := by
    intro p n hp
    rw [List.append_assoc]
    exact get_append_of_get _ hp
  have hlen : heap.length ≤ (heap ++
      [Hash_Node.mk ena.parent ena.children (make_hash hash256 v) ena.id] ++
      edit_copies hash256 heap heap.length (make_hash hash256 v) psa).length := by
    simp only [List.length_append]; omega
  have hancb1 := ancestors_sub hsub hlen hancb
  have hchainb1 := child_chain_sub hsub psb b hchainb
  have h2 := edit_node_spec hash256 (data.set T (make_hash hash256 v) v).1 T w
    (hsub b enb hnodeb) hancb1 hfuelb
  have hlen2 : ((heap ++ [Hash_Node.mk ena.parent ena.children (make_hash hash256 v) ena.id]
      ++ edit_copies hash256 heap heap.length (make_hash hash256 v) psa) ++
      [Hash_Node.mk enb.parent enb.children (make_hash hash256 w) enb.id] ++
      edit_copies hash256 (heap ++
        [Hash_Node.mk ena.parent ena.children (make_hash hash256 v) ena.id] ++
        edit_copies hash256 heap heap.length (make_hash hash256 v) psa) (heap ++
        [Hash_Node.mk ena.parent ena.children (make_hash hash256 v) ena.id] ++
        edit_copies hash256 heap heap.length (make_hash hash256 v) psa).length
        (make_hash hash256 w) psb).length = (heap ++
        [Hash_Node.mk ena.parent ena.children (make_hash hash256 v) ena.id] ++
        edit_copies hash256 heap heap.length (make_hash hash256 v) psa).length +
        (psb.length + 1) := by
    rw [List.length_append, List.length_append, edit_copies_length hash256 psb _ _ _ hancb1]
    simp only [List.length_singleton]
    omega
  have htop : top b psb < heap.length := by
    rcases List.mem_cons.mp (top_mem psb b) with h | h
    · rw [h]; exact lt_of_get hnodeb
    · exact ancestors_lt hancb _ h
  refine ⟨_, _, _, _, _, _, Hash_Node.mk enb.parent enb.children (make_hash hash256 w) enb.id,
    h1, h2, hlen2, ?_, get_append_of_get _ (get_last _ _), ?_, rfl, rfl⟩
  · intro q hq
    rw [hlen2]
    rcases edit_node_reaches hash256 (make_hash hash256 w) (hsub b enb hnodeb) hancb1
      hchainb1 q hq with h | h
    · exact Or.inl h
    · rw [List.append_assoc] at h
      exact Or.inr (reaches_closed _ hclosed htop q h)
  · have h := edit_node_new_reached hash256 (make_hash hash256 w) hancb1 psb.length
      (Nat.le_refl _)
    simpa using h

/-- C23, amended, on the sample snapshot: the first camera (node 8) is edited, then the
second camera (node 9). -/
theorem edit_node_twice_witness :
    ∃ root1 heap1 data1 root2 heap2 data2 leaf,
      edit_node sample_hash256 3 sample_heap sample_data sample_type 8 [7] =
        some (root1, heap1, data1) ∧
      edit_node sample_hash256 3 heap1 data1 sample_type 9 [5] = some (root2, heap2, data2) ∧
      heap2.length = heap1.length + (2 + 1) ∧
      (∀ q, reaches heap2 root2 q →
        (heap1.length ≤ q ∧ q < heap2.length) ∨
          (q < sample_heap.length ∧ reaches sample_heap 0 q)) ∧
      heap2[heap1.length]? = some leaf ∧ reaches heap2 root2 heap1.length ∧
      leaf.id = 1 ∧ leaf.hash = make_hash sample_hash256 [5] :=
  edit_node_twice sample_hash256 3 sample_heap sample_data sample_type 8 9 [7] [5]
    ⟨some 1, [], [1, 1], 0⟩ ⟨some 1, [], [1, 2], 1⟩ [1, 0] [1, 0]
    (by unfold closed; decide!) (by decide) sample_ancestors_camera0 (by decide)
    sample_ancestors_camera0 (by decide) (by decide) (by decide)

theorem all_some_ids {heap : Heap} :
    ∀ (cs : List Nat) (ts : List HTree), represents_all heap cs ts →
      all_some (fun c => (heap[c]?).map Hash_Node.id) cs = some (ts.map HTree.id)
  | [], [], _ => rfl
  | [], _ :: _, h => by simp [represents_all] at h
  | _ :: _, [], h => by simp [represents_all] at h
  | c :: cs, t :: ts, h => by
    simp only [represents_all] at h
    obtain ⟨n, hn, hid, -, -⟩ := (represents_iff heap c t).mp h.1
    simp [all_some, hn, hid, all_some_ids cs ts h.2]

theorem children_ids_represents {heap : Heap} {p : Nat} {t : HTree} (h : represents heap p t) :
    children_ids heap p = some (t.children.map HTree.id) := by
  obtain ⟨n, hn, -, -, hch⟩ := (represents_iff heap p t).mp h
  simp only [children_ids, hn]
  exact all_some_ids _ _ hch

theorem entity_trees_ids (hash256 : Bytes → Hash) :
    ∀ (es : List entity) (i : Nat),
      (entity_trees hash256 es i).map HTree.id = List.range' i es.length
  | [], _ => rfl
  | e :: es, i => by
    cases e <;>
      simp [entity_trees, entity_tree, HTree.id, entity_trees_ids hash256 es (i + 1),
        List.range']

theorem rehash_children (hash256 : Bytes → Hash) :
    ∀ t : HTree, (rehash hash256 t).children = rehash_all hash256 t.children
  | .node _ _ [] => by simp [rehash, rehash_all, HTree.children]
  | .node _ _ (_ :: _) => by simp [rehash, HTree.children]

theorem category_trees_mem (hash256 : Bytes → Hash) :
    ∀ (ess : List (List entity)) (k : Nat) (t : HTree), t ∈ category_trees hash256 ess k →
      ∃ es j, t = .node j invalid_hash (entity_trees hash256 es 0)
  | [], _, _, h => by simp [category_trees] at h
  | es :: ess, k, t, h => by
    simp only [category_trees, List.mem_cons] at h
    rcases h with rfl | h
    · exact ⟨es, k, rfl⟩
    · exact category_trees_mem hash256 ess (k + 1) t h

/-- C22 fails on a scene with one shape: the ten leaves below the shape node of its
snapshot all carry the default id `size_t(-1)`. -/
theorem shape_leaves_share_id :
    (create_scene_hash sample_hash256 3 [] ⟨[]⟩
        (scene_of_shapes [] [sample_shape [1, 0, 0, 0]])).bind
      (fun s => (Scene_Hash.node s.1 s.2.2 3 0).bind (children_ids s.1)) =
        some (List.replicate 10 no_id) ∧
    ¬ (List.replicate 10 no_id).Nodup := by
  decide!

/-- C22, amended: in the snapshot that `create_scene_hash` returns, the children of the
root carry the ids 0 to 6 in order, the children of each category node carry the ids
`0, 1, ..., n - 1` in order, so that in both cases the ids are pairwise distinct; every
node below an entity node carries the default id. -/
theorem create_scene_hash_ids (hash256 : Bytes → Hash) (fuel : Nat) (heap0 : Heap)
    (data : Data_Table) (scene : scene_data) (hfuel : 3 ≤ fuel) :
    ∃ heap1 data1 root rn,
      create_scene_hash hash256 fuel heap0 data scene = some (heap1, data1, root) ∧
      heap1[root]? = some rn ∧
      children_ids heap1 root = some [0, 1, 2, 3, 4, 5, 6] ∧
      (∀ c ∈ rn.children, ∃ ids, children_ids heap1 c = some ids ∧
        ids = List.range ids.length ∧ ids.Nodup) ∧
      (∀ c ∈ rn.children, ∀ cn, heap1[c]? = some cn → ∀ e ∈ cn.children,
        ∃ ids, children_ids heap1 e = some ids ∧ ∀ id ∈ ids, id = no_id) := by
  obtain ⟨heap1, hrun, -, -, hrep, -⟩ :=
    create_scene_hash_spec hash256 fuel heap0 data scene hfuel
  obtain ⟨rn, hrn, -, -, hch⟩ := (represents_iff _ _ _).mp hrep
  rw [scene_tree_children] at hch
  have hcat : ∀ c ∈ rn.children, ∃ es j,
      represents heap1 c (rehash hash256 (.node j invalid_hash (entity_trees hash256 es 0))) := by
    intro c hc
    obtain ⟨t, ht, hr⟩ := represents_all_mem _ _ hch c hc
    obtain ⟨t0, ht0, rfl⟩ := rehash_all_mem hash256 _ t ht
    obtain ⟨es, j, rfl⟩ := category_trees_mem hash256 _ _ t0 ht0
    exact ⟨es, j, hr⟩
  refine ⟨heap1, _, _, rn, hrun, hrn, ?_, ?_, ?_⟩
  · rw [children_ids_represents hrep, scene_tree_children, rehash_all_ids, category_trees_ids]
    simp [scene_entities, List.range']
  · intro c hc
    obtain ⟨es, j, hr⟩ := hcat c hc
    refine ⟨_, children_ids_represents hr, ?_, ?_⟩
    · rw [rehash_children, rehash_all_ids]
      simp only [HTree.children, entity_trees_ids, List.length_range']
      exact Eq.symm (List.range_eq_range' es.length)
    · rw [rehash_children, rehash_all_ids]
      simp only [HTree.children, entity_trees_ids]
      exact List.nodup_range' _ _
  · intro c hc cn hcn e he
    obtain ⟨es, j, hr⟩ := hcat c hc
    obtain ⟨cn1, hcn1, hall⟩ := represents_rehash_children hr
    rw [hcn] at hcn1
    cases hcn1
    obtain ⟨t, ht, hre⟩ := represents_all_mem _ _ hall e he
    obtain ⟨t0, ht0, rfl⟩ := rehash_all_mem hash256 _ t ht
    obtain ⟨x, -, i, rfl⟩ := entity_trees_mem hash256 _ _ t0 ht0
    refine ⟨_, children_ids_represents hre, ?_⟩
    rw [rehash_children, rehash_all_ids]
    intro id hid
    cases x with
    | scalar value => simp [entity_tree, HTree.children] at hid
    | compound vecs =>
      simp only [entity_tree, HTree.children, List.map_map, List.mem_map] at hid
      obtain ⟨vec, -, rfl⟩ := hid
      rfl

/-- C22, amended, at the sample scene. -/
theorem create_scene_hash_ids_witness :
    ∃ heap1 data1 root rn,
      create_scene_hash sample_hash256 3 [] ⟨[]⟩ sample_scene = some (heap1, data1, root) ∧
      heap1[root]? = some rn ∧
      children_ids heap1 root = some [0, 1, 2, 3, 4, 5, 6] ∧
      (∀ c ∈ rn.children, ∃ ids, children_ids heap1 c = some ids ∧
        ids = List.range ids.length ∧ ids.Nodup) ∧
      (∀ c ∈ rn.children, ∀ cn, heap1[c]? = some cn → ∀ e ∈ cn.children,
        ∃ ids, children_ids heap1 e = some ids ∧ ∀ id ∈ ids, id = no_id) :=
  create_scene_hash_ids sample_hash256 3 [] ⟨[]⟩ sample_scene (by decide)

theorem find_id_of_mem_ids (id : Nat) :
    ∀ ts : List HTree, id ∈ ts.map HTree.id → find_id id ts ≠ none
  | [], h => by simp at h
  | t :: ts, h => by
    by_cases ht : t.id = id
    · simp [find_id, ht]
    · simp only [List.map_cons, List.mem_cons] at h
      rcases h with h | h
      · exact absurd h.symm ht
      · simpa [find_id, ht] using find_id_of_mem_ids id ts h

/-- When every child of the first node has a partner, `make_diff` leaves at most one
node below the diff node: it stops at the first child that changed. -/
theorem diff_trees_length (bs : List HTree) :
    ∀ rest : List HTree, (∀ a ∈ rest, find_id a.id bs ≠ none) →
      (diff_trees bs rest).length ≤ 1
  | [], _ => by simp [diff_trees]
  | a :: rest, h => by
    have ih := diff_trees_length bs rest (fun x hx => h x (List.mem_cons_of_mem _ hx))
    cases hf : find_id a.id bs with
    | none => exact absurd hf (h a (List.mem_cons_self _ _))
    | some b =>
      by_cases heq : a.hash = b.hash
      · simpa [diff_trees, hf, heq] using ih
      · simp [diff_trees, hf, heq]

/-- C27: for two snapshots built one after the other by `create_scene_hash` over one
store, `make_diff` returns a diff root with at most one child.  Hence every loop of
`apply_diff` after the first one runs zero times, whatever the function that resolves a
node: no diff node is resolved as a shape, a texture or a subdiv.  The first loop runs
over the children of the one child of the diff root, and each of them is allocated. -/
theorem apply_diff_in_bounds (hash256 : Bytes → Hash) (fuel0 fuel1 fuel2 : Nat) (heap : Heap)
    (data : Data_Table) (scene0 scene1 : scene_data)
    (hfuel0 : 3 ≤ fuel0) (hfuel1 : 3 ≤ fuel1) (hfuel2 : 4 ≤ fuel2) :
    ∃ heap0 data0 root0 heap1 data1 root1 heap2 diff_root dn,
      create_scene_hash hash256 fuel0 heap data scene0 = some (heap0, data0, root0) ∧
      create_scene_hash hash256 fuel1 heap0 data0 scene1 = some (heap1, data1, root1) ∧
      Scene_Hash.make_diff fuel2 heap1 root0 root1 = some (heap2, diff_root) ∧
      heap2[diff_root]? = some dn ∧ dn.children.length ≤ 1 ∧
      (∀ k, 1 ≤ k → Scene_Hash.num heap2 diff_root k = some 0) ∧
      (∀ (α : Type) (k : Nat) (resolve : Nat → Option α) (m : hash_map Nat α), 1 ≤ k →
        apply_diff_category heap2 diff_root k resolve m = some m) ∧
      ∃ n, Scene_Hash.num heap2 diff_root 0 = some n ∧
        ∀ i, i < n → ∃ q nd, Scene_Hash.node heap2 diff_root 0 i = some q ∧
          heap2[q]? = some nd := by
  obtain ⟨heap0, hrun0, -, -, hrep0, -⟩ :=
    create_scene_hash_spec hash256 fuel0 heap data scene0 hfuel0
  obtain ⟨heap1, hrun1, hsub1, -, hrep1, -⟩ :=
    create_scene_hash_spec hash256 fuel1 heap0
      (add_blobs hash256 data (categories_vecs (scene_entities scene0))) scene1 hfuel1
  obtain ⟨heap2, hrun2, -, hrep2⟩ := make_diff_spec (represents_sub hsub1 _ _ hrep0) hrep1
    (Nat.le_trans (scene_tree_height hash256 scene0) hfuel2)
  have hlen : (diff_trees (scene_tree hash256 scene1).children
      (scene_tree hash256 scene0).children).length ≤ 1 := by
    apply diff_trees_length
    intro a ha
    apply find_id_of_mem_ids
    have hid : a.id ∈ (scene_tree hash256 scene0).children.map HTree.id :=
      List.mem_map_of_mem _ ha
    rw [scene_tree_children, rehash_all_ids, category_trees_ids] at hid ⊢
    simpa [scene_entities] using hid
  obtain ⟨dn, hdn, -, -, hch⟩ := (represents_iff _ _ _).mp hrep2
  simp only [HTree.children] at hch
  have hdl : dn.children.length ≤ 1 := by
    rw [represents_all_length _ _ hch]; exact hlen
  refine ⟨heap0, _, _, heap1, _, _, heap2, _, dn, hrun0, hrun1, hrun2, hdn, hdl,
    fun k hk => num_eq_zero hdn (by omega),
    fun α k resolve m hk => apply_diff_category_skip hdn (by omega) resolve m, ?_⟩
  cases hcs : dn.children with
  | nil => exact ⟨0, num_eq_zero hdn (by simp [hcs]), fun i hi => absurd hi (Nat.not_lt_zero _)⟩
  | cons c rest =>
    obtain ⟨t, -, hrc⟩ := represents_all_mem _ _ hch c (by simp [hcs])
    obtain ⟨cn, hcn, -, -, hcc⟩ := (represents_iff _ _ _).mp hrc
    have hc0 : dn.children[0]? = some c := by simp [hcs]
    refine ⟨cn.children.length, num_eq hdn hc0 hcn, ?_⟩
    intro i hi
    have hq := represents_all_lt hcc cn.children[i] (List.getElem_mem hi)
    exact ⟨cn.children[i], heap2[cn.children[i]],
      node_eq_some.mpr ⟨dn, c, cn, hdn, hc0, hcn, List.getElem?_eq_getElem hi⟩,
      List.getElem?_eq_getElem hq⟩

/-- C27 at two scenes that differ in the point of their one shape. -/
theorem apply_diff_in_bounds_witness :
    ∃ heap0 data0 root0 heap1 data1 root1 heap2 diff_root dn,
      create_scene_hash sample_hash256 3 [] ⟨[]⟩
          (scene_of_shapes [[1]] [sample_shape [1, 0, 0, 0]]) = some (heap0, data0, root0) ∧
      create_scene_hash sample_hash256 3 heap0 data0
          (scene_of_shapes [[1]] [sample_shape [2, 0, 0, 0]]) = some (heap1, data1, root1) ∧
      Scene_Hash.make_diff 4 heap1 root0 root1 = some (heap2, diff_root) ∧
      heap2[diff_root]? = some dn ∧ dn.children.length ≤ 1 ∧
      (∀ k, 1 ≤ k → Scene_Hash.num heap2 diff_root k = some 0) ∧
      (∀ (α : Type) (k : Nat) (resolve : Nat → Option α) (m : hash_map Nat α), 1 ≤ k →
        apply_diff_category heap2 diff_root k resolve m = some m) ∧
      ∃ n, Scene_Hash.num heap2 diff_root 0 = some n ∧
        ∀ i, i < n → ∃ q nd, Scene_Hash.node heap2 diff_root 0 i = some q ∧
          heap2[q]? = some nd :=
  apply_diff_in_bounds sample_hash256 3 3 4 [] ⟨[]⟩
    (scene_of_shapes [[1]] [sample_shape [1, 0, 0, 0]])
    (scene_of_shapes [[1]] [sample_shape [2, 0, 0, 0]]) (by decide) (by decide) (by decide)

/-! ## Reading a built snapshot -/

theorem find_zero {hash256 : Bytes → Hash} (hz : ∀ bytes, hash256 bytes ≠ invalid_hash)
    {data : Data_Table} (hc : content_addressed hash256 data) :
    hash_map.find data.map invalid_hash = none :=
  find_none_of_not_key _ _ (fun e he heq => hz e.2 (by rw [← heq]; exact (hc e he).symm))

theorem find_content {hash256 : Bytes → Hash} (hinj : Function.Injective hash256)
    {data : Data_Table} (hc : content_addressed hash256 data) {x b : Bytes}
    (hf : hash_map.find data.map (hash256 x) = some b) : b = x :=
  hinj (hc _ (mem_of_find hf)).symm

/-- A vector handed to `maybe_add` while the store was built is read back by `get_view`. -/
theorem get_view_stored {hash256 : Bytes → Hash} (hi : ideal_hash hash256)
    {data : Data_Table} (hc : content_addressed hash256 data) {sizeof : Nat}
    (hpos : 0 < sizeof) {vec : List Bytes} (hb : backed data (leaf_hash hash256 vec))
    (hs : sized sizeof vec) :
    data.get_view sizeof (leaf_hash hash256 vec) = vec := by
  by_cases hv : vec = []
  · subst hv
    simp [leaf_hash, Data_Table.get_view, find_zero hi.2 hc]
  · have hl : leaf_hash hash256 vec = hash256 vec.flatten := by simp [leaf_hash, hv, make_hash]
    rw [hl] at hb ⊢
    rcases hb with hb | hb
    · exact absurd hb (hi.2 _)
    · cases hf : hash_map.find data.map (hash256 vec.flatten) with
      | none => exact absurd hf hb
      | some b =>
        have hbe := find_content hi.1 hc hf
        subst hbe
        simp only [Data_Table.get_view, hf]
        rw [length_flatten_of_sizeof sizeof vec hs, Nat.mul_div_cancel _ hpos]
        exact view_of_flatten sizeof vec hs

/-- A value handed to `maybe_add` while the store was built is read back by `get`. -/
theorem get_stored {hash256 : Bytes → Hash} (hi : ideal_hash hash256)
    {data : Data_Table} (hc : content_addressed hash256 data) {T : TypeInfo} {x : Bytes}
    (hb : backed data (leaf_hash hash256 [x])) (hs : x.length = T.sizeof) :
    data.get T (leaf_hash hash256 [x]) = some x := by
  have hl : leaf_hash hash256 [x] = hash256 x := by simp [leaf_hash, make_hash]
  rw [hl] at hb ⊢
  rcases hb with hb | hb
  · exact absurd hb (hi.2 _)
  · cases hf : hash_map.find data.map (hash256 x) with
    | none => exact absurd hf hb
    | some b =>
      have hbe := find_content hi.1 hc hf
      subst hbe
      simp [Data_Table.get, hf, hs]

theorem represents_all_get {heap : Heap} :
    ∀ (cs : List Nat) (ts : List HTree), represents_all heap cs ts →
      ∀ (i : Nat) (t : HTree), ts[i]? = some t → ∃ c, cs[i]? = some c ∧ represents heap c t
  | [], [], _, i, t, ht => by simp at ht
  | [], _ :: _, h, _, _, _ => by simp [represents_all] at h
  | _ :: _, [], h, _, _, _ => by simp [represents_all] at h
  | c :: cs, t0 :: ts, h, i, t, ht => by
    simp only [represents_all] at h
    cases i with
    | zero =>
      simp only [List.getElem?_cons_zero, Option.some.injEq] at ht
      subst ht
      exact ⟨c, by simp, h.1⟩
    | succ i =>
      simp only [List.getElem?_cons_succ] at ht ⊢
      exact represents_all_get cs ts h.2 i t ht

theorem rehash_all_get (hash256 : Bytes → Hash) :
    ∀ (ts : List HTree) (i : Nat), (rehash_all hash256 ts)[i]? = (ts[i]?).map (rehash hash256)
  | [], _ => by simp [rehash_all]
  | t :: ts, 0 => by simp [rehash_all]
  | t :: ts, i + 1 => by simp [rehash_all, rehash_all_get hash256 ts i]

theorem entity_trees_get (hash256 : Bytes → Hash) :
    ∀ (es : List entity) (j i : Nat),
      (entity_trees hash256 es j)[i]? = (es[i]?).map (fun e => entity_tree hash256 e (j + i))
  | [], _, _ => by simp [entity_trees]
  | e :: es, j, 0 => by simp [entity_trees]
  | e :: es, j, i + 1 => by
    simp only [entity_trees, List.getElem?_cons_succ, entity_trees_get hash256 es (j + 1) i]
    congr 1
    funext x
    congr 1
    omega

theorem category_trees_get (hash256 : Bytes → Hash) :
    ∀ (ess : List (List entity)) (k i : Nat),
      (category_trees hash256 ess k)[i]? =
        (ess[i]?).map (fun es => HTree.node (k + i) invalid_hash (entity_trees hash256 es 0))
  | [], _, _ => by simp [category_trees]
  | es :: ess, k, 0 => by simp [category_trees]
  | es :: ess, k, i + 1 => by
    simp only [category_trees, List.getElem?_cons_succ, category_trees_get hash256 ess (k + 1) i]
    congr 1
    funext x
    congr 1
    omega

theorem rehash_all_length_eq (hash256 : Bytes → Hash) :
    ∀ ts : List HTree, (rehash_all hash256 ts).length = ts.length
  | [] => rfl
  | _ :: ts => by simp [rehash_all, rehash_all_length_eq hash256 ts]

theorem entity_trees_length (hash256 : Bytes → Hash) :
    ∀ (es : List entity) (j : Nat), (entity_trees hash256 es j).length = es.length
  | [], _ => rfl
  | _ :: es, j => by simp [entity_trees, entity_trees_length hash256 es (j + 1)]

/-- The category `k` of a built snapshot: its node count and its nodes by position. -/
theorem category_of_built {hash256 : Bytes → Hash} {heap : Heap} {root : Nat}
    {scene : scene_data} (hrep : represents heap root (scene_tree hash256 scene))
    {k : Nat} {es : List entity} (hk : (scene_entities scene)[k]? = some es) :
    (∃ nodes, Scene_Hash.category heap root k = some nodes) ∧
    Scene_Hash.num heap root k = some es.length ∧
    (∀ i, es.length ≤ i → Scene_Hash.node heap root k i = none) ∧
    (∀ i e, es[i]? = some e → ∃ q, Scene_Hash.node heap root k i = some q ∧
      represents heap q (rehash hash256 (entity_tree hash256 e i))) := by
  obtain ⟨rn, hrn, -, -, hch⟩ := (represents_iff _ _ _).mp hrep
  rw [scene_tree_children] at hch
  have hcat : (rehash_all hash256 (category_trees hash256 (scene_entities scene) 0))[k]? =
      some (rehash hash256 (.node k invalid_hash (entity_trees hash256 es 0))) := by
    rw [rehash_all_get, category_trees_get, hk]
    simp
  obtain ⟨c, hc, hrc⟩ := represents_all_get _ _ hch k _ hcat
  obtain ⟨cn, hcn, hall⟩ := represents_rehash_children hrc
  simp only [HTree.children] at hall
  have hlen : cn.children.length = es.length := by
    rw [represents_all_length _ _ hall, rehash_all_length_eq, entity_trees_length]
  have hcategory : Scene_Hash.category heap root k = some cn.children := by
    simp [Scene_Hash.category, hrn, hc, hcn]
  refine ⟨⟨_, hcategory⟩, ?_, ?_, ?_⟩
  · rw [num_eq hrn hc hcn, hlen]
  · intro i hi
    simp only [Scene_Hash.node, hcategory, Option.bind_eq_bind, Option.some_bind]
    exact List.getElem?_eq_none (by omega)
  · intro i e he
    have ht : (rehash_all hash256 (entity_trees hash256 es 0))[i]? =
        some (rehash hash256 (entity_tree hash256 e i)) := by
      rw [rehash_all_get, entity_trees_get, he]
      simp
    obtain ⟨q, hq, hrq⟩ := represents_all_get _ _ hall i _ ht
    exact ⟨q, node_eq_some.mpr ⟨rn, c, cn, hrn, hc, hcn, hq⟩, hrq⟩

theorem backed_of_entity {hash256 : Bytes → Hash} {data : Data_Table}
    {ess : List (List entity)}
    (hb : ∀ vec ∈ categories_vecs ess, backed data (leaf_hash hash256 vec))
    {k i : Nat} {es : List entity} {e : entity} (hk : ess[k]? = some es)
    (he : es[i]? = some e) : ∀ vec ∈ entity_vecs e, backed data (leaf_hash hash256 vec) :=
  fun vec hvec => hb vec ((mem_categories_vecs _ _).mpr ⟨es, List.getElem?_mem hk,
    (mem_entities_vecs _ _).mpr ⟨e, List.getElem?_mem he, hvec⟩⟩)

/-- The node of a scalar entity of a built snapshot carries the hash of the value. -/
theorem scalar_node {hash256 : Bytes → Hash} {heap : Heap} {q i : Nat} {x : Bytes}
    (h : represents heap q (rehash hash256 (entity_tree hash256 (.scalar x) i))) :
    ∃ n, heap[q]? = some n ∧ n.hash = leaf_hash hash256 [x] ∧ n.id = i := by
  simp only [entity_tree, rehash, represents] at h
  obtain ⟨n, hn, hid, hh, -⟩ := h
  exact ⟨n, hn, hh, hid⟩

/-- The leaf number `j` below the node of a compound entity of a built snapshot carries
the hash of the vector number `j` of the entity. -/
theorem compound_child_hash {hash256 : Bytes → Hash} {heap : Heap} {q i : Nat}
    {vecs : List (List Bytes)}
    (h : represents heap q (rehash hash256 (entity_tree hash256 (.compound vecs) i)))
    {j : Nat} {vec : List Bytes} (hj : vecs[j]? = some vec) :
    child_hash heap q j = some (leaf_hash hash256 vec) := by
  obtain ⟨n, hn, hall⟩ := represents_rehash_children h
  have ht : (rehash_all hash256 (entity_tree hash256 (.compound vecs) i).children)[j]? =
      some (.node no_id (leaf_hash hash256 vec) []) := by
    rw [rehash_all_get]
    simp [entity_tree, HTree.children, hj, rehash]
  obtain ⟨c, hc, hrc⟩ := represents_all_get _ _ hall j _ ht
  simp only [represents] at hrc
  obtain ⟨cn, hcn, -, hh, -⟩ := hrc
  simp [child_hash, hn, hc, hcn, hh]

/-- Position by position, a scalar category of a built snapshot reads as the input. -/
theorem scalar_read {hash256 : Bytes → Hash} (hi : ideal_hash hash256) {heap : Heap}
    {data : Data_Table} {root : Nat} {scene : scene_data}
    (hrep : represents heap root (scene_tree hash256 scene))
    (hc : content_addressed hash256 data)
    (hb : ∀ vec ∈ categories_vecs (scene_entities scene), backed data (leaf_hash hash256 vec))
    {k : Nat} {xs : List Bytes} (hk : (scene_entities scene)[k]? = some (xs.map entity.scalar))
    {T : TypeInfo} (hs : sized T.sizeof xs) (i : Nat) :
    Scene_Hash.get heap data root T k i = xs[i]? := by
  obtain ⟨-, -, hnone, hsome⟩ := category_of_built hrep hk
  by_cases hlt : i < xs.length
  · have he : (xs.map entity.scalar)[i]? = some (entity.scalar xs[i]) := by
      simp [List.getElem?_eq_getElem hlt]
    obtain ⟨q, hq, hrq⟩ := hsome i _ he
    obtain ⟨n, hn, hh, -⟩ := scalar_node hrq
    simp only [Scene_Hash.get, hq, hn, Option.bind_eq_bind, Option.some_bind, hh]
    rw [get_stored hi hc (backed_of_entity hb hk he _ (by simp [entity_vecs]))
      (hs _ (List.getElem_mem hlt)), List.getElem?_eq_getElem hlt]
  · have h1 := hnone i (by simpa using Nat.le_of_not_lt hlt)
    simp only [Scene_Hash.get, h1, Option.bind_eq_bind, Option.none_bind]
    exact (List.getElem?_eq_none (Nat.le_of_not_lt hlt)).symm

/-- The node at a position of a category of a built snapshot carries the position as id. -/
theorem node_id_of_built {hash256 : Bytes → Hash} {heap : Heap} {root : Nat}
    {scene : scene_data} (hrep : represents heap root (scene_tree hash256 scene))
    {k : Nat} {es : List entity} (hk : (scene_entities scene)[k]? = some es) {i q : Nat}
    (hq : Scene_Hash.node heap root k i = some q) : ∃ n, heap[q]? = some n ∧ n.id = i := by
  obtain ⟨-, -, hnone, hsome⟩ := category_of_built hrep hk
  by_cases hlt : i < es.length
  · obtain ⟨q1, hq1, hr⟩ := hsome i _ (List.getElem?_eq_getElem hlt)
    rw [hq] at hq1
    cases hq1
    obtain ⟨n, hn, hid, -, -⟩ := (represents_iff _ _ _).mp hr
    refine ⟨n, hn, ?_⟩
    rw [hid, rehash_id]
    cases es[i] <;> rfl
  · rw [hnone i (Nat.le_of_not_lt hlt)] at hq
    cases hq

/-- The projection of the node of a shape of a built snapshot is the projection of the
shape. -/
theorem shape_read {hash256 : Bytes → Hash} (hi : ideal_hash hash256) {heap : Heap}
    {data : Data_Table} (hc : content_addressed hash256 data) {q i : Nat} {s : shape_data}
    (h : represents heap q (rehash hash256 (entity_tree hash256 (.compound (shape_vecs s)) i)))
    (hb : ∀ vec ∈ shape_vecs s, backed data (leaf_hash hash256 vec)) (ht : shape_typed s) :
    make_shape_view heap data q = some (make_shape_view_data s) := by
  obtain ⟨t0, t1, t2, t3, t4, t5, t6, t7, t8, t9⟩ := ht
  simp only [shape_vecs, List.mem_cons, List.mem_singleton, forall_eq_or_imp, forall_eq,
    List.not_mem_nil, false_implies, implies_true, and_true] at hb
  obtain ⟨b0, b1, b2, b3, b4, b5, b6, b7, b8, b9⟩ := hb
  have c0 := @compound_child_hash _ _ _ _ _ h 0 s.points rfl
  have c1 := @compound_child_hash _ _ _ _ _ h 1 s.lines rfl
  have c2 := @compound_child_hash _ _ _ _ _ h 2 s.triangles rfl
  have c3 := @compound_child_hash _ _ _ _ _ h 3 s.quads rfl
  have c4 := @compound_child_hash _ _ _ _ _ h 4 s.positions rfl
  have c5 := @compound_child_hash _ _ _ _ _ h 5 s.normals rfl
  have c6 := @compound_child_hash _ _ _ _ _ h 6 s.texcoords rfl
  have c7 := @compound_child_hash _ _ _ _ _ h 7 s.colors rfl
  have c8 := @compound_child_hash _ _ _ _ _ h 8 s.radius rfl
  have c9 := @compound_child_hash _ _ _ _ _ h 9 s.tangents rfl
  simp only [make_shape_view, c0, c1, c2, c3, c4, c5, c6, c7, c8, c9, Option.bind_eq_bind,
    Option.some_bind, make_shape_view_data,
    get_view_stored hi hc (by decide : 0 < sizeof_int) b0 t0,
    get_view_stored hi hc (by decide : 0 < sizeof_vec2i) b1 t1,
    get_view_stored hi hc (by decide : 0 < sizeof_vec3i) b2 t2,
    get_view_stored hi hc (by decide : 0 < sizeof_vec4i) b3 t3,
    get_view_stored hi hc (by decide : 0 < sizeof_vec3f) b4 t4,
    get_view_stored hi hc (by decide : 0 < sizeof_vec3f) b5 t5,
    get_view_stored hi hc (by decide : 0 < sizeof_vec2f) b6 t6,
    get_view_stored hi hc (by decide : 0 < sizeof_vec4f) b7 t7,
    get_view_stored hi hc (by decide : 0 < sizeof_float) b8 t8,
    get_view_stored hi hc (by decide : 0 < sizeof_vec4f) b9 t9]

/-- Position by position, the shapes of a built snapshot read as the projections of the
input shapes. -/
theorem shapes_read {hash256 : Bytes → Hash} (hi : ideal_hash hash256) {heap : Heap}
    {data : Data_Table} {root : Nat} {scene : scene_data}
    (hrep : represents heap root (scene_tree hash256 scene))
    (hc : content_addressed hash256 data)
    (hb : ∀ vec ∈ categories_vecs (scene_entities scene), backed data (leaf_hash hash256 vec))
    (ht : ∀ shape ∈ scene.shapes, shape_typed shape) (i : Nat) :
    Scene_Hash.shapes_at heap data root i = (scene.shapes[i]?).map make_shape_view_data := by
  have hk : (scene_entities scene)[3]? =
      some (scene.shapes.map (fun s => entity.compound (shape_vecs s))) := rfl
  obtain ⟨-, -, hnone, hsome⟩ := category_of_built hrep hk
  by_cases hlt : i < scene.shapes.length
  · have he : (scene.shapes.map (fun s => entity.compound (shape_vecs s)))[i]? =
        some (entity.compound (shape_vecs scene.shapes[i])) := by
      simp [List.getElem?_eq_getElem hlt]
    obtain ⟨q, hq, hrq⟩ := hsome i _ he
    simp only [Scene_Hash.shapes_at, hq, Option.bind_eq_bind, Option.some_bind]
    rw [shape_read hi hc hrq (backed_of_entity hb hk he) (ht _ (List.getElem_mem hlt)),
      List.getElem?_eq_getElem hlt]
    rfl
  · have h1 := hnone i (by simpa using Nat.le_of_not_lt hlt)
    simp only [Scene_Hash.shapes_at, h1, Option.bind_eq_bind, Option.none_bind]
    rw [List.getElem?_eq_none (Nat.le_of_not_lt hlt)]
    rfl

theorem sample_hash256_ideal : ideal_hash sample_hash256 :=
  ⟨fun _ _ h => List.tail_eq_of_cons_eq h, fun bytes h => by
    simp [sample_hash256, invalid_hash, List.replicate] at h⟩

/-- C21: for a hash function treated as free of collisions, so that no two byte strings
have the same hash and no byte string has the all-zero hash, a scene whose entities are
values of their types and the empty store, `create_scene_hash` returns a snapshot whose root has seven children with the ids 0 to 6;
each count is the length of the input collection; the node at position `i` of a category
carries the id `i`; and the cameras, instances, environments, materials and shapes read
by position are the input values and the projections of the input shapes. -/
theorem create_scene_hash_reads (hash256 : Bytes → Hash) (Y : Yocto) (fuel : Nat)
    (heap0 : Heap) (scene : scene_data) (hi : ideal_hash hash256)
    (ht : scene_typed Y scene) (hfuel : 3 ≤ fuel) :
    ∃ heap data root,
      create_scene_hash hash256 fuel heap0 ⟨[]⟩ scene = some (heap, data, root) ∧
      children_ids heap root = some [0, 1, 2, 3, 4, 5, 6] ∧
      Scene_Hash.num_cameras heap root = some scene.cameras.length ∧
      Scene_Hash.num_instances heap root = some scene.instances.length ∧
      Scene_Hash.num_environments heap root = some scene.environments.length ∧
      Scene_Hash.num_shapes heap root = some scene.shapes.length ∧
      Scene_Hash.num_textures heap root = some scene.textures.length ∧
      Scene_Hash.num_materials heap root = some scene.materials.length ∧
      Scene_Hash.num_subdivs heap root = some scene.subdivs.length ∧
      (∀ k i q, k < 7 → Scene_Hash.node heap root k i = some q →
        ∃ n, heap[q]? = some n ∧ n.id = i) ∧
      (∀ i, Scene_Hash.cameras_at Y heap data root i = scene.cameras[i]?) ∧
      (∀ i, Scene_Hash.instances_at Y heap data root i = scene.instances[i]?) ∧
      (∀ i, Scene_Hash.environments_at Y heap data root i = scene.environments[i]?) ∧
      (∀ i, Scene_Hash.materials_at Y heap data root i = scene.materials[i]?) ∧
      (∀ i, Scene_Hash.shapes_at heap data root i =
        (scene.shapes[i]?).map make_shape_view_data) := by
  obtain ⟨heap, hrun, -, -, hrep, -⟩ :=
    create_scene_hash_spec hash256 fuel heap0 ⟨[]⟩ scene hfuel
  have hc : content_addressed hash256
      (add_blobs hash256 ⟨[]⟩ (categories_vecs (scene_entities scene))) :=
    add_blobs_content hash256 _ _ (fun e he => absurd he (List.not_mem_nil _))
  have hb := add_blobs_backed hash256 (categories_vecs (scene_entities scene)) ⟨[]⟩
  obtain ⟨t0, t1, t2, t3, -, t5, -⟩ := ht
  have k0 : (scene_entities scene)[0]? = some (scene.cameras.map entity.scalar) := rfl
  have k1 : (scene_entities scene)[1]? = some (scene.instances.map entity.scalar) := rfl
  have k2 : (scene_entities scene)[2]? = some (scene.environments.map entity.scalar) := rfl
  have k3 : (scene_entities scene)[3]? =
      some (scene.shapes.map (fun s => entity.compound (shape_vecs s))) := rfl
  have k4 : (scene_entities scene)[4]? =
      some (scene.textures.map (fun t => entity.compound (texture_vecs t))) := rfl
  have k5 : (scene_entities scene)[5]? = some (scene.materials.map entity.scalar) := rfl
  have k6 : (scene_entities scene)[6]? =
      some (scene.subdivs.map (fun s => entity.compound (subdiv_vecs s))) := rfl
  refine ⟨heap, _, _, hrun, ?_, ?_, ?_, ?_, ?_, ?_, ?_, ?_, ?_,
    scalar_read hi hrep hc hb k0 t0, scalar_read hi hrep hc hb k1 t1,
    scalar_read hi hrep hc hb k2 t2, scalar_read hi hrep hc hb k5 t5,
    shapes_read hi hrep hc hb t3⟩
  · rw [children_ids_represents hrep, scene_tree_children, rehash_all_ids, category_trees_ids]
    simp [scene_entities, List.range']
  · simpa using (category_of_built hrep k0).2.1
  · simpa using (category_of_built hrep k1).2.1
  · simpa using (category_of_built hrep k2).2.1
  · simpa using (category_of_built hrep k3).2.1
  · simpa using (category_of_built hrep k4).2.1
  · simpa using (category_of_built hrep k5).2.1
  · simpa using (category_of_built hrep k6).2.1
  · intro k i q hk hq
    have h7 : k = 0 ∨ k = 1 ∨ k = 2 ∨ k = 3 ∨ k = 4 ∨ k = 5 ∨ k = 6 := by omega
    rcases h7 with rfl | rfl | rfl | rfl | rfl | rfl | rfl
    · exact node_id_of_built hrep k0 hq
    · exact node_id_of_built hrep k1 hq
    · exact node_id_of_built hrep k2 hq
    · exact node_id_of_built hrep k3 hq
    · exact node_id_of_built hrep k4 hq
    · exact node_id_of_built hrep k5 hq
    · exact node_id_of_built hrep k6 hq

/-- C21 at a scene with one camera and one shape, with the sample hash. -/
theorem create_scene_hash_reads_witness :
    ideal_hash sample_hash256 ∧
    scene_typed sample_yocto (scene_of_shapes [[1]] [sample_shape [1, 0, 0, 0]]) ∧
    ∃ heap data root,
      create_scene_hash sample_hash256 3 [] ⟨[]⟩
        (scene_of_shapes [[1]] [sample_shape [1, 0, 0, 0]]) = some (heap, data, root) ∧
      children_ids heap root = some [0, 1, 2, 3, 4, 5, 6] ∧
      (∀ i, Scene_Hash.cameras_at sample_yocto heap data root i = ([[1]] : List Bytes)[i]?) ∧
      (∀ i, Scene_Hash.shapes_at heap data root i =
        ([sample_shape [1, 0, 0, 0]][i]?).map make_shape_view_data) := by
  have ht : scene_typed sample_yocto (scene_of_shapes [[1]] [sample_shape [1, 0, 0, 0]]) := by
    simp [scene_typed, sized, scene_of_shapes, sample_shape, shape_typed, sample_yocto,
      sample_type, sizeof_int]
  obtain ⟨heap, data, root, h1, h2, -, -, -, -, -, -, -, -, h3, -, -, -, h4⟩ :=
    create_scene_hash_reads sample_hash256 sample_yocto 3 []
      (scene_of_shapes [[1]] [sample_shape [1, 0, 0, 0]]) sample_hash256_ideal ht (by decide)
  exact ⟨sample_hash256_ideal, ht, heap, data, root, h1, h2, h3, h4⟩

theorem get_view_raw {hash256 : Bytes → Hash} (hi : ideal_hash hash256)
    {data : Data_Table} (hc : content_addressed hash256 data) (sizeof : Nat)
    {vec : List Bytes} (hb : backed data (leaf_hash hash256 vec)) :
    data.get_view sizeof (leaf_hash hash256 vec) =
      view_of sizeof vec.flatten (vec.flatten.length / sizeof) := by
  by_cases hv : vec = []
  · subst hv
    simp [leaf_hash, Data_Table.get_view, find_zero hi.2 hc, view_of]
  · have hl : leaf_hash hash256 vec = hash256 vec.flatten := by simp [leaf_hash, hv, make_hash]
    rw [hl] at hb ⊢
    rcases hb with hb | hb
    · exact absurd hb (hi.2 _)
    · cases hf : hash_map.find data.map (hash256 vec.flatten) with
      | none => exact absurd hf hb
      | some b =>
        have hbe := find_content hi.1 hc hf
        subst hbe
        simp only [Data_Table.get_view, hf]

theorem texture_read {hash256 : Bytes → Hash} (hi : ideal_hash hash256) (Y : Yocto)
    {heap : Heap} {data : Data_Table} (hc : content_addressed hash256 data) {q i : Nat}
    {t : texture_data}
    (h : represents heap q (rehash hash256 (entity_tree hash256 (.compound (texture_vecs t)) i)))
    (hb : ∀ vec ∈ texture_vecs t, backed data (leaf_hash hash256 vec))
    (ht : texture_typed Y t) :
    make_texture_view Y heap data q = some (texture_view_of_node Y t) := by
  obtain ⟨t0, t1, t2⟩ := ht
  simp only [texture_vecs, List.mem_cons, List.mem_singleton, forall_eq_or_imp, forall_eq,
    List.not_mem_nil, false_implies, implies_true, and_true] at hb
  obtain ⟨b0, b1, b2⟩ := hb
  have c0 := @compound_child_hash _ _ _ _ _ h 0 t.pixelsf rfl
  have c1 := @compound_child_hash _ _ _ _ _ h 1 t.pixelsb rfl
  have c2 := @compound_child_hash _ _ _ _ _ h 2 [t.raw] rfl
  simp only [make_texture_view, c0, c1, c2, Option.bind_eq_bind, Option.some_bind,
    texture_view_of_node,
    get_view_stored hi hc (by decide : 0 < sizeof_vec4f) b0 t0,
    get_view_stored hi hc (by decide : 0 < sizeof_vec4b) b1 t1,
    get_view_raw hi hc sizeof_vec4b b0, get_stored hi hc b2 t2]

theorem subdiv_read {hash256 : Bytes → Hash} (hi : ideal_hash hash256) (Y : Yocto)
    {heap : Heap} {data : Data_Table} (hc : content_addressed hash256 data) {q i : Nat}
    {s : subdiv_data}
    (h : represents heap q (rehash hash256 (entity_tree hash256 (.compound (subdiv_vecs s)) i)))
    (hb : ∀ vec ∈ subdiv_vecs s, backed data (leaf_hash hash256 vec))
    (ht : subdiv_typed Y s) :
    make_subdiv_view Y heap data q = some (subdiv_view_of_node Y s) := by
  obtain ⟨t0, t1, t2, t3, t4, t5, t6⟩ := ht
  simp only [subdiv_vecs, List.mem_cons, List.mem_singleton, forall_eq_or_imp, forall_eq,
    List.not_mem_nil, false_implies, implies_true, and_true] at hb
  obtain ⟨b0, b1, b2, b3, b4, b5, b6⟩ := hb
  have c0 := @compound_child_hash _ _ _ _ _ h 0 s.quadspos rfl
  have c1 := @compound_child_hash _ _ _ _ _ h 1 s.quadsnorm rfl
  have c2 := @compound_child_hash _ _ _ _ _ h 2 s.quadstexcoord rfl
  have c3 := @compound_child_hash _ _ _ _ _ h 3 s.positions rfl
  have c4 := @compound_child_hash _ _ _ _ _ h 4 s.normals rfl
  have c5 := @compound_child_hash _ _ _ _ _ h 5 s.texcoords rfl
  have c6 := @compound_child_hash _ _ _ _ _ h 6 [s.raw] rfl
  simp only [make_subdiv_view, c0, c1, c2, c3, c4, c5, c6, Option.bind_eq_bind,
    Option.some_bind, subdiv_view_of_node,
    get_view_stored hi hc (by decide : 0 < sizeof_vec4i) b0 t0,
    get_view_stored hi hc (by decide : 0 < sizeof_vec4i) b1 t1,
    get_view_stored hi hc (by decide : 0 < sizeof_vec4i) b2 t2,
    get_view_stored hi hc (by decide : 0 < sizeof_vec3f) b3 t3,
    get_view_stored hi hc (by decide : 0 < sizeof_vec3f) b4 t4,
    get_view_stored hi hc (by decide : 0 < sizeof_vec2f) b5 t5, get_stored hi hc b6 t6]

/-- Position by position, a compound category of a built snapshot reads as the input
entities seen through `f`, when `resolve` reads every node of the category so. -/
theorem compound_read {hash256 : Bytes → Hash} {heap : Heap} {root : Nat}
    {scene : scene_data} (hrep : represents heap root (scene_tree hash256 scene))
    {α β : Type} {k : Nat} {xs : List α} (vecs : α → List (List Bytes))
    (hk : (scene_entities scene)[k]? = some (xs.map (fun x => entity.compound (vecs x))))
    (resolve : Nat → Option β) (f : α → β)
    (hres : ∀ i q, (hlt : i < xs.length) →
      represents heap q (rehash hash256 (entity_tree hash256 (.compound (vecs xs[i])) i)) →
      resolve q = some (f xs[i])) (i : Nat) :
    (Scene_Hash.node heap root k i).bind resolve = (xs[i]?).map f := by
  obtain ⟨-, -, hnone, hsome⟩ := category_of_built hrep hk
  by_cases hlt : i < xs.length
  · have he : (xs.map (fun x => entity.compound (vecs x)))[i]? =
        some (entity.compound (vecs xs[i])) := by
      simp [List.getElem?_eq_getElem hlt]
    obtain ⟨q, hq, hrq⟩ := hsome i _ he
    rw [hq, Option.some_bind, hres i q hlt hrq, List.getElem?_eq_getElem hlt]
    rfl
  · rw [hnone i (by simpa using Nat.le_of_not_lt hlt),
      List.getElem?_eq_none (Nat.le_of_not_lt hlt)]
    rfl

/-- The map that a loop of `create_scene_view` builds: the entry of the id `i` is what
the loop read at `i`. -/
theorem view_loop_find {α : Type} (read : Nat → Option α) :
    ∀ (n i : Nat) (m : hash_map Nat α), (∀ j, i ≤ j → j < i + n → read j ≠ none) →
      ∃ r, view_loop read n i m = some r ∧
        ∀ id, hash_map.find r id =
          if i ≤ id ∧ id < i + n then read id else hash_map.find m id
  | 0, i, m, _ => ⟨m, rfl, fun id => by
      have c : ¬ (i ≤ id ∧ id < i + 0) := by omega
      rw [if_neg c]⟩
  | n + 1, i, m, h => by
    cases hr : read i with
    | none => exact absurd hr (h i (Nat.le_refl _) (by omega))
    | some v =>
      obtain ⟨r, h1, h2⟩ := view_loop_find read n (i + 1) (hash_map.assign m i v)
        (fun j hj1 hj2 => h j (by omega) (by omega))
      refine ⟨r, by simp only [view_loop, hr, h1], ?_⟩
      intro id
      rw [h2 id, find_assign]
      by_cases e : i = id
      · subst e
        have c1 : ¬ (i + 1 ≤ i ∧ i < i + 1 + n) := by omega
        have c2 : i ≤ i ∧ i < i + (n + 1) := by omega
        simp [c1, c2, hr]
      · by_cases c : i + 1 ≤ id ∧ id < i + 1 + n
        · have c2 : i ≤ id ∧ id < i + (n + 1) := by omega
          simp [c, c2]
        · have c2 : ¬ (i ≤ id ∧ id < i + (n + 1)) := by omega
          simp [c, c2, e]

/-- The loop of `create_scene_view` over the entities `xs` seen through `f`. -/
theorem view_loop_map {α β : Type} (xs : List α) (f : α → β) :
    ∃ r, view_loop (fun i => (xs[i]?).map f) xs.length 0 [] = some r ∧
      ∀ id, hash_map.find r id = (xs[id]?).map f := by
  obtain ⟨r, h1, h2⟩ := view_loop_find (fun i => (xs[i]?).map f) xs.length 0 []
    (fun j _ hj => by
      have hj1 : j < xs.length := by omega
      simp [List.getElem?_eq_getElem hj1])
  refine ⟨r, h1, fun id => ?_⟩
  rw [h2 id]
  by_cases c : id < xs.length
  · simp [c]
  · simp [c, List.getElem?_eq_none (Nat.le_of_not_lt c), hash_map.find]

/-- C28 fails on a scene whose one texture has a float pixel and no byte pixels: the
projection built from the snapshot has four `pixelsb`, the bytes of the float pixel, and
the projection built from the scene has none. -/
theorem texture_pixelsb_differs :
    ideal_hash sample_hash256 ∧ texture_typed sample_yocto sample_texture ∧
    ((create_scene_hash sample_hash256 3 [] ⟨[]⟩ (scene_of_textures [sample_texture] [])).bind
      (fun s => create_scene_view sample_yocto s.1 s.2.1 s.2.2)).map
        (fun v => (hash_map.find v._textures 0).map (fun t => t.pixelsb)) =
      some (some [[1, 2, 3, 4], [5, 6, 7, 8], [9, 10, 11, 12], [13, 14, 15, 16]]) ∧
    (create_scene_view_data sample_yocto (scene_of_textures [sample_texture] [])).map
        (fun v => (hash_map.find v._textures 0).map (fun t => t.pixelsb)) =
      some (some []) := by
  refine ⟨sample_hash256_ideal, ?_, by decide!, by decide!⟩
  simp [texture_typed, sized, sample_texture, sample_yocto, sample_type, sizeof_vec4f]

/-- The field `shape` of a subdiv in the two projections of the scene with the one subdiv
`sample_subdiv`: `invalidid` when built from the snapshot, the `shape` of the subdiv
when built from the scene. -/
theorem subdiv_shape_sample :
    ((create_scene_hash sample_hash256 3 [] ⟨[]⟩ (scene_of_textures [] [sample_subdiv])).bind
      (fun s => create_scene_view sample_yocto s.1 s.2.1 s.2.2)).map
        (fun v => (hash_map.find v._subdivs 0).map (fun t => t.shape)) = some (some [255]) ∧
    (create_scene_view_data sample_yocto (scene_of_textures [] [sample_subdiv])).map
        (fun v => (hash_map.find v._subdivs 0).map (fun t => t.shape)) = some (some [4]) := by
  decide!

theorem texture_view_agree (Y : Yocto) (t : texture_data) :
    Texture_View.agree (texture_view_of_node Y t) (make_texture_view_data Y t) := by
  refine ⟨rfl, rfl, ?_, ?_⟩
  · intro h
    have hl : t.pixelsb.length ≠ 0 := fun e => h (List.length_eq_zero.mp e)
    simp only [make_texture_view_data] at h
    simp [texture_view_of_node, make_texture_view_data, hl]
  · intro h
    simp only [make_texture_view_data] at h
    simp [texture_view_of_node, make_texture_view_data, h]

theorem agree_with_map {α β : Type} (R : β → β → Prop) (f g : α → β) (o : Option α)
    (h : ∀ x, R (f x) (g x)) : agree_with R (o.map f) (o.map g) := by
  cases o with
  | none => trivial
  | some x => exact h x

/-- C28, amended: for a hash function without collisions that gives no byte string the
all-zero hash, a scene whose entities are values of their types and the empty store, the
two builders return projections with the same maps of cameras, instances, environments,
shapes and materials; for every id the textures are both absent, or both present with
the same `width`, `height`, `linear` and `pixelsf`, and with the same `pixelsb` unless the
texture has none, in which case the projection built from the snapshot holds the bytes of
`pixelsf` as `pixelsb`; and the subdivs are both absent, or both present with the same
vectors and the same scalar fields other than `shape`. -/
theorem create_scene_view_agree (hash256 : Bytes → Hash) (Y : Yocto) (fuel : Nat)
    (heap0 : Heap) (scene : scene_data) (hi : ideal_hash hash256)
    (ht : scene_typed Y scene) (hfuel : 3 ≤ fuel) :
    ∃ heap data root view view_d,
      create_scene_hash hash256 fuel heap0 ⟨[]⟩ scene = some (heap, data, root) ∧
      create_scene_view Y heap data root = some view ∧
      create_scene_view_data Y scene = some view_d ∧
      view._cameras = view_d._cameras ∧ view._instances = view_d._instances ∧
      view._environments = view_d._environments ∧ view._shapes = view_d._shapes ∧
      view._materials = view_d._materials ∧
      (∀ id, agree_with Texture_View.agree (hash_map.find view._textures id)
        (hash_map.find view_d._textures id)) ∧
      (∀ id, agree_with Subdiv_View.agree (hash_map.find view._subdivs id)
        (hash_map.find view_d._subdivs id)) := by
  obtain ⟨heap, hrun, -, -, hrep, -⟩ :=
    create_scene_hash_spec hash256 fuel heap0 ⟨[]⟩ scene hfuel
  have hc : content_addressed hash256
      (add_blobs hash256 ⟨[]⟩ (categories_vecs (scene_entities scene))) :=
    add_blobs_content hash256 _ _ (fun e he => absurd he (List.not_mem_nil _))
  have hb := add_blobs_backed hash256 (categories_vecs (scene_entities scene)) ⟨[]⟩
  obtain ⟨t0, t1, t2, t3, t4, t5, t6⟩ := ht
  have k0 : (scene_entities scene)[0]? = some (scene.cameras.map entity.scalar) := rfl
  have k1 : (scene_entities scene)[1]? = some (scene.instances.map entity.scalar) := rfl
  have k2 : (scene_entities scene)[2]? = some (scene.environments.map entity.scalar) := rfl
  have k3 : (scene_entities scene)[3]? =
      some (scene.shapes.map (fun s => entity.compound (shape_vecs s))) := rfl
  have k4 : (scene_entities scene)[4]? =
      some (scene.textures.map (fun t => entity.compound (texture_vecs t))) := rfl
  have k5 : (scene_entities scene)[5]? = some (scene.materials.map entity.scalar) := rfl
  have k6 : (scene_entities scene)[6]? =
      some (scene.subdivs.map (fun s => entity.compound (subdiv_vecs s))) := rfl
  have r0 : Scene_Hash.cameras_at Y heap _ heap0.length = fun i => scene.cameras[i]? :=
    funext (scalar_read hi hrep hc hb k0 t0)
  have r1 : Scene_Hash.instances_at Y heap _ heap0.length = fun i => scene.instances[i]? :=
    funext (scalar_read hi hrep hc hb k1 t1)
  have r2 : Scene_Hash.environments_at Y heap _ heap0.length =
      fun i => scene.environments[i]? :=
    funext (scalar_read hi hrep hc hb k2 t2)
  have r3 : Scene_Hash.shapes_at heap _ heap0.length =
      fun i => (scene.shapes[i]?).map make_shape_view_data :=
    funext (shapes_read hi hrep hc hb t3)
  have r4 : Scene_Hash.textures_at Y heap
      (add_blobs hash256 ⟨[]⟩ (categories_vecs (scene_entities scene))) heap0.length =
      fun i => (scene.textures[i]?).map (texture_view_of_node Y) :=
    funext (fun i => compound_read hrep texture_vecs k4 _ _
      (fun j q hlt hr => texture_read hi Y hc hr
        (backed_of_entity hb k4
          (show (scene.textures.map (fun t => entity.compound (texture_vecs t)))[j]? =
            some (entity.compound (texture_vecs scene.textures[j])) by
              simp [List.getElem?_eq_getElem hlt]))
        (t4 _ (List.getElem_mem hlt))) i)
  have r5 : Scene_Hash.materials_at Y heap _ heap0.length = fun i => scene.materials[i]? :=
    funext (scalar_read hi hrep hc hb k5 t5)
  have r6 : Scene_Hash.subdivs_at Y heap
      (add_blobs hash256 ⟨[]⟩ (categories_vecs (scene_entities scene))) heap0.length =
      fun i => (scene.subdivs[i]?).map (subdiv_view_of_node Y) :=
    funext (fun i => compound_read hrep subdiv_vecs k6 _ _
      (fun j q hlt hr => subdiv_read hi Y hc hr
        (backed_of_entity hb k6
          (show (scene.subdivs.map (fun s => entity.compound (subdiv_vecs s)))[j]? =
            some (entity.compound (subdiv_vecs scene.subdivs[j])) by
              simp [List.getElem?_eq_getElem hlt]))
        (t6 _ (List.getElem_mem hlt))) i)
  obtain ⟨⟨c0, hc0⟩, n0, -, -⟩ := category_of_built hrep k0
  obtain ⟨⟨c1, hc1⟩, n1, -, -⟩ := category_of_built hrep k1
  obtain ⟨⟨c2, hc2⟩, n2, -, -⟩ := category_of_built hrep k2
  obtain ⟨⟨c3, hc3⟩, n3, -, -⟩ := category_of_built hrep k3
  obtain ⟨⟨c4, hc4⟩, n4, -, -⟩ := category_of_built hrep k4
  obtain ⟨⟨c5, hc5⟩, n5, -, -⟩ := category_of_built hrep k5
  obtain ⟨⟨c6, hc6⟩, n6, -, -⟩ := category_of_built hrep k6
  simp only [List.length_map] at n0 n1 n2 n3 n4 n5 n6
  obtain ⟨m0, l0, -⟩ := view_loop_map scene.cameras (fun x => x)
  obtain ⟨m1, l1, -⟩ := view_loop_map scene.instances (fun x => x)
  obtain ⟨m2, l2, -⟩ := view_loop_map scene.environments (fun x => x)
  obtain ⟨m3, l3, -⟩ := view_loop_map scene.shapes make_shape_view_data
  obtain ⟨m4, l4, f4⟩ := view_loop_map scene.textures (texture_view_of_node Y)
  obtain ⟨d4, e4, g4⟩ := view_loop_map scene.textures (make_texture_view_data Y)
  obtain ⟨m5, l5, -⟩ := view_loop_map scene.materials (fun x => x)
  obtain ⟨m6, l6, f6⟩ := view_loop_map scene.subdivs (subdiv_view_of_node Y)
  obtain ⟨d6, e6, g6⟩ := view_loop_map scene.subdivs (make_subdiv_view_data Y)
  simp only [Option.map_id'] at l0 l1 l2 l5
  have hres : reserve_all heap heap0.length = some () := by
    simp only [reserve_all, Scene_Hash.cameras, Scene_Hash.instances,
      Scene_Hash.environments, Scene_Hash.shapes, Scene_Hash.textures, Scene_Hash.materials,
      Scene_Hash.subdivs, hc0, hc1, hc2, hc3, hc4, hc5, hc6]
  refine ⟨heap, _, _, Scene_View.mk m0 m1 m2 m3 m4 m5 m6, Scene_View.mk m0 m1 m2 m3 d4 m5 d6,
    hrun, ?_, ?_, rfl, rfl, rfl, rfl, rfl, ?_, ?_⟩
  · simp only [create_scene_view, hres, view_category, n0, n1, n2, n3, n4, n5, n6, r0, r1,
      r2, r3, r4, r5, r6, l0, l1, l2, l3, l4, l5, l6, Option.bind_eq_bind, Option.some_bind]
  · simp only [create_scene_view_data, l0, l1, l2, l3, e4, l5, e6, Option.bind_eq_bind,
      Option.some_bind]
  · intro id
    show agree_with Texture_View.agree (hash_map.find m4 id) (hash_map.find d4 id)
    rw [f4 id, g4 id]
    exact agree_with_map _ _ _ _ (texture_view_agree Y)
  · intro id
    show agree_with Subdiv_View.agree (hash_map.find m6 id) (hash_map.find d6 id)
    rw [f6 id, g6 id]
    exact agree_with_map _ _ _ _ (fun s => ⟨rfl, rfl, rfl, rfl, rfl, rfl, rfl⟩)

/-- C28, amended, at the scene with the texture `sample_texture` and the subdiv
`sample_subdiv`, with the sample hash. -/
theorem create_scene_view_agree_witness :
    ideal_hash sample_hash256 ∧
    scene_typed sample_yocto (scene_of_textures [sample_texture] [sample_subdiv]) ∧
    ∃ heap data root view view_d,
      create_scene_hash sample_hash256 3 [] ⟨[]⟩
        (scene_of_textures [sample_texture] [sample_subdiv]) = some (heap, data, root) ∧
      create_scene_view sample_yocto heap data root = some view ∧
      create_scene_view_data sample_yocto
        (scene_of_textures [sample_texture] [sample_subdiv]) = some view_d ∧
      view._cameras = view_d._cameras ∧ view._instances = view_d._instances ∧
      view._environments = view_d._environments ∧ view._shapes = view_d._shapes ∧
      view._materials = view_d._materials ∧
      (∀ id, agree_with Texture_View.agree (hash_map.find view._textures id)
        (hash_map.find view_d._textures id)) ∧
      (∀ id, agree_with Subdiv_View.agree (hash_map.find view._subdivs id)
        (hash_map.find view_d._subdivs id)) := by
  have ht : scene_typed sample_yocto (scene_of_textures [sample_texture] [sample_subdiv]) := by
    simp [scene_typed, sized, scene_of_textures, sample_texture, sample_subdiv, texture_typed,
      subdiv_typed, sample_yocto, sample_type, sizeof_vec4f]
  exact ⟨sample_hash256_ideal, ht,
    create_scene_view_agree sample_hash256 sample_yocto 3 []
      (scene_of_textures [sample_texture] [sample_subdiv]) sample_hash256_ideal ht (by decide)⟩

end yash
